import Mathlib

/-!
Constrained decoding filters and session driver of llama-constrain

A shallow embedding of `src/src/token_filter_sampler.cpp`,
`src/src/constrained_generation.cpp` and `src/src/constrained_llm.cpp`.

Conventions of the embedding.

* `llama_token` is `Int`.
* A `std::string` is a `List Char`; every `Char` stands for one `char` (byte) of
  the C++ string.  Literals are written `"John".toList`.
* A `std::unordered_set<llama_token>` is a `List Int` used only through
  insertion, emptiness and membership.
* A `std::vector<T>` is a `List T`; `size_t` counters are `Nat` (none of them can
  realistically wrap: each is bumped at most once per sampled token).  The
  `size_t` values read from a persisted buffer are another matter: sums and
  products on them are taken modulo `2 ^ 64`.
* A byte (`uint8_t`) is a `Nat`; a byte buffer or the content of a file is a
  `List Nat`.  Object representations are little-endian, `size_t` has 8 bytes
  and `llama_token` is a 4-byte two's-complement integer.
* The inference engine (llama.cpp: tokenizer, detokenizer, logits, final
  sampling stage, decode) is outside the repository and enters as a parameter,
  the structure `Engine`; its state export and import enter as the structure
  `llama_state`.
* A sampler chain owns the samplers added to it (`llama_sampler_chain_add`):
  `llama_sampler_free` on the chain frees them too.  A call that uses a sampler
  after its chain was freed has undefined behaviour, the outcome `undefined`.
-/

namespace LlamaConstrain

/-! ## Candidate set -/

/-- One entry of the candidate set (`llama_token_data`).  The two `float`
fields are carried as uninterpreted payloads: no filter ever inspects them. -/
structure llama_token_data where
  id : Int
  logit : Int
  p : Int
deriving DecidableEq, Repr

/-- The candidate set handed to a sampler (`llama_token_data_array`): a buffer,
its logical length and the sorted flag. -/
structure llama_token_data_array where
  data : List llama_token_data
  size : Nat
  sorted : Bool
deriving DecidableEq, Repr

/-- The logical content of a candidate set: the first `size` buffer entries. -/
def candidates (cur_p : llama_token_data_array) : List llama_token_data :=
  cur_p.data.take cur_p.size

/-- The `write_idx` compaction loop that the source repeats verbatim in
`token_filter_apply`, `prefix_select_apply`, `pattern_apply` and
`stop_sequence_apply`:

    for (size_t i = 0; i < cur_p->size; i++)
        if (KEEP(cur_p->data[i].id)) {
            if (write_idx != i) cur_p->data[write_idx] = cur_p->data[i];
            write_idx++;
        }

The first argument counts the iterations still to run (`size - i`); the result
is the final `write_idx` and the mutated buffer.  Reading past the end of the
buffer (undefined in C++) ends the loop. -/
def filter_loop (keep : Int → Bool) :
    Nat → Nat → Nat → List llama_token_data → Nat × List llama_token_data
  | 0, _, write_idx, data => (write_idx, data)
  | n + 1, i, write_idx, data =>
    match data[i]? with
    | none => (write_idx, data)
    | some d =>
      if keep d.id then
        filter_loop keep n (i + 1) (write_idx + 1)
          (if write_idx != i then data.set write_idx d else data)
      else
        filter_loop keep n (i + 1) write_idx data

/-- The compaction loop followed by `cur_p->size = write_idx; cur_p->sorted = false;`. -/
def filter_in_place (keep : Int → Bool) (cur_p : llama_token_data_array) :
    llama_token_data_array :=
  let r := filter_loop keep cur_p.size 0 0 cur_p.data
  { data := r.2, size := r.1, sorted := false }

/-! ## Prefix-select filter -/

/-- State of the prefix-select sampler (`struct llama_sampler_prefix_select`). -/
structure llama_sampler_prefix_select where
  option_tokens : List (List Int)
  active_options : List Bool
  position : Nat
deriving DecidableEq, Repr

/-- The first loop of `prefix_select_apply`: the set `allowed_tokens`. -/
def prefix_select_allowed (ctx : llama_sampler_prefix_select) : List Int :=
  (List.range ctx.option_tokens.length).foldl
    (fun allowed_tokens i =>
      if !(ctx.active_options.getD i false) then allowed_tokens
      else
        let tokens := ctx.option_tokens.getD i []
        if ctx.position < tokens.length then
          allowed_tokens.insert (tokens.getD ctx.position 0)
        else allowed_tokens)
    []

/-- Embedding of `prefix_select_apply` (token_filter_sampler.cpp:136-166). -/
def prefix_select_apply (ctx : llama_sampler_prefix_select)
    (cur_p : llama_token_data_array) : llama_token_data_array :=
  let allowed_tokens := prefix_select_allowed ctx
  if allowed_tokens.isEmpty then cur_p
  else filter_in_place (fun id => allowed_tokens.contains id) cur_p

/-- Embedding of `prefix_select_accept` (token_filter_sampler.cpp:168-181). -/
def prefix_select_accept (ctx : llama_sampler_prefix_select) (token : Int) :
    llama_sampler_prefix_select :=
  { option_tokens := ctx.option_tokens
    active_options :=
      (List.range ctx.option_tokens.length).foldl
        (fun active_options i =>
          if !(active_options.getD i false) then active_options
          else
            let tokens := ctx.option_tokens.getD i []
            if ctx.position ≥ tokens.length || tokens.getD ctx.position 0 != token then
              active_options.set i false
            else active_options)
        ctx.active_options
    position := ctx.position + 1 }

/-- Embedding of `prefix_select_reset` (token_filter_sampler.cpp:183-187). -/
def prefix_select_reset (ctx : llama_sampler_prefix_select) : llama_sampler_prefix_select :=
  { option_tokens := ctx.option_tokens
    active_options := ctx.active_options.map (fun _ => true)
    position := 0 }

/-! ## Token filter -/

/-- State of the allow/deny token filter (`struct llama_sampler_token_filter`). -/
structure llama_sampler_token_filter where
  token_set : List Int
  is_allowlist : Bool
deriving DecidableEq, Repr

/-- Embedding of `token_filter_apply` (token_filter_sampler.cpp:19-47). -/
def token_filter_apply (ctx : llama_sampler_token_filter)
    (cur_p : llama_token_data_array) : llama_token_data_array :=
  if ctx.is_allowlist then
    filter_in_place (fun id => ctx.token_set.contains id) cur_p
  else
    filter_in_place (fun id => !(ctx.token_set.contains id)) cur_p

/-! ## Strings and character classes -/

/-- The function `std::string::find(needle)` searching from position 0: the
least position at which `needle` occurs in `s`, `none` for `npos`. -/
def find : List Char → List Char → Option Nat
  | [], needle => if needle.isEmpty then some 0 else none
  | c :: cs, needle =>
    if needle.isPrefixOf (c :: cs) then some 0
    else (find cs needle).map (fun pos => pos + 1)

/-- The `<cctype>` test `std::isdigit` in the default "C" locale. -/
def isdigit (c : Char) : Bool := c.isDigit

/-- The `<cctype>` test `std::isupper` in the default "C" locale. -/
def isupper (c : Char) : Bool := c.isUpper

/-- The `<cctype>` test `std::islower` in the default "C" locale. -/
def islower (c : Char) : Bool := c.isLower

/-- The `<cctype>` test `std::isalpha` in the default "C" locale. -/
def isalpha (c : Char) : Bool := isupper c || islower c

/-- The `<cctype>` test `std::isalnum` in the default "C" locale. -/
def isalnum (c : Char) : Bool := isalpha c || isdigit c

/-! ## Pattern matcher -/

/-- The enumeration `PatternType` (token_filter_sampler.h:9-18). -/
inductive PatternType where
  | PATTERN_NONE
  | PATTERN_NUMERIC
  | PATTERN_ALPHA
  | PATTERN_ALPHANUMERIC
  | PATTERN_UPPERCASE
  | PATTERN_LOWERCASE
  | PATTERN_CAPITALIZED
  | PATTERN_REGEX
deriving DecidableEq, Repr

/-- The scanning loop `for (char c : text) { if (REJECT(c)) return false; } return true;`
used by every character-class case of `matches_pattern`. -/
def scan_chars (reject : Char → Bool) : List Char → Bool
  | [] => true
  | c :: cs => if reject c then false else scan_chars reject cs

/-- The loop `while (first_alpha_idx < text.size() && !isalpha(text[first_alpha_idx]))
first_alpha_idx++;` of the CAPITALIZED case; the first argument bounds the
number of iterations (`text.size()` of them always suffice). -/
def first_alpha_scan (text : List Char) : Nat → Nat → Nat
  | 0, first_alpha_idx => first_alpha_idx
  | fuel + 1, first_alpha_idx =>
    if first_alpha_idx < text.length && !(isalpha (text.getD first_alpha_idx ' ')) then
      first_alpha_scan text fuel (first_alpha_idx + 1)
    else first_alpha_idx

/-- Embedding of `matches_pattern` (token_filter_sampler.cpp:238-313).  The
parameter `regex` stands for `std::regex`: `regex p` is `none` when constructing
the expression throws, otherwise the full-match test `std::regex_match(·, re)`. -/
def matches_pattern (regex : List Char → Option (List Char → Bool))
    (text : List Char) (pattern : PatternType) (regex_pattern : List Char) : Bool :=
  if text.isEmpty then false
  else
    match pattern with
    | .PATTERN_NONE => true
    | .PATTERN_NUMERIC => scan_chars (fun c => !(isdigit c)) text
    | .PATTERN_ALPHA => scan_chars (fun c => !(isalpha c)) text
    | .PATTERN_ALPHANUMERIC => scan_chars (fun c => !(isalnum c)) text
    | .PATTERN_UPPERCASE => scan_chars (fun c => !(isalpha c) || !(isupper c)) text
    | .PATTERN_LOWERCASE => scan_chars (fun c => !(isalpha c) || !(islower c)) text
    | .PATTERN_CAPITALIZED =>
      if text.isEmpty then false
      else
        let first_alpha_idx := first_alpha_scan text text.length 0
        if first_alpha_idx ≥ text.length then false
        else if !(isupper (text.getD first_alpha_idx ' ')) then false
        else scan_chars (fun c => !(isalpha c)) text
    | .PATTERN_REGEX =>
      if !regex_pattern.isEmpty then
        match regex regex_pattern with
        | some re => re text
        | none => false
      else true

/-! ## The inference engine -/

/-- The external inference engine (llama.cpp) and `std::regex`, as consumed by
the repository.

* `tokenize text add_special` is the token vector left after
  `llama_tokenize(...); tokens.resize(n)` (the callers' buffers are assumed
  large enough).
* `token_to_piece token` is the `n` bytes written by `llama_token_to_piece`,
  empty when `n <= 0`.
* `is_eog` is `llama_vocab_is_eog`.
* `logits decoded` is the candidate list `llama_sampler_sample` builds from the
  logits of the engine after the tokens `decoded` have been decoded.
* `pick temperature n cur_p` is the token chosen by the final
  temperature + dist stages on their `n`-th draw, `none` when that stage aborts.
* `decode decoded batch` tells whether `llama_decode` of `batch` succeeds in
  the engine state reached by decoding `decoded`. -/
structure Engine where
  tokenize : List Char → Bool → List Int
  token_to_piece : Int → List Char
  is_eog : Int → Bool
  logits : List Int → List llama_token_data
  pick : Int → Nat → llama_token_data_array → Option Int
  decode : List Int → List Int → Bool
  regex : List Char → Option (List Char → Bool)

/-- Embedding of `llama_sampler_init_prefix_select` (token_filter_sampler.cpp:216-236). -/
def llama_sampler_init_prefix_select (E : Engine) (options : List (List Char)) :
    llama_sampler_prefix_select :=
  { option_tokens := options.map (fun option => E.tokenize option false)
    active_options := List.replicate options.length true
    position := 0 }

/-! ## Pattern filter -/

/-- State of the pattern sampler (`struct llama_sampler_pattern`). -/
structure llama_sampler_pattern where
  pattern : PatternType
  regex_pattern : List Char
  accumulated : List Char
  stop_tokens : List Int
deriving DecidableEq, Repr

/-- The test `pattern_apply` runs on one candidate id (body of the loop at
token_filter_sampler.cpp:331-355). -/
def pattern_keep (E : Engine) (ctx : llama_sampler_pattern) (token : Int) : Bool :=
  if ctx.stop_tokens.contains token then true
  else
    let token_text := E.token_to_piece token
    if token_text.length > 0 then
      let test_text := ctx.accumulated ++ token_text
      matches_pattern E.regex test_text ctx.pattern ctx.regex_pattern
    else false

/-- Embedding of `pattern_apply` (token_filter_sampler.cpp:327-359). -/
def pattern_apply (E : Engine) (ctx : llama_sampler_pattern)
    (cur_p : llama_token_data_array) : llama_token_data_array :=
  filter_in_place (pattern_keep E ctx) cur_p

/-- Embedding of `pattern_accept` (token_filter_sampler.cpp:361-369). -/
def pattern_accept (E : Engine) (ctx : llama_sampler_pattern) (token : Int) :
    llama_sampler_pattern :=
  let piece := E.token_to_piece token
  if piece.length > 0 then { ctx with accumulated := ctx.accumulated ++ piece } else ctx

/-- Embedding of `pattern_reset` (token_filter_sampler.cpp:371-374). -/
def pattern_reset (ctx : llama_sampler_pattern) : llama_sampler_pattern :=
  { ctx with accumulated := [] }

/-- Embedding of `llama_sampler_init_pattern` (token_filter_sampler.cpp:405-432). -/
def llama_sampler_init_pattern (E : Engine) (pattern : PatternType)
    (regex_pattern : List Char) (stop_sequences : List (List Char)) :
    llama_sampler_pattern :=
  { pattern := pattern
    regex_pattern := regex_pattern
    accumulated := []
    stop_tokens :=
      stop_sequences.foldl
        (fun stop_tokens seq =>
          (E.tokenize seq false).foldl (fun acc token => acc.insert token) stop_tokens)
        [] }

/-! ## Stop-sequence guard filter -/

/-- State of the stop-sequence sampler (`struct llama_sampler_stop_sequence`). -/
structure llama_sampler_stop_sequence where
  stop_sequences : List (List Char)
  accumulated : List Char
deriving DecidableEq, Repr

/-- The set `allowed_tokens` built at token_filter_sampler.cpp:464-475: the
first token of the tokenization of every non-empty prefix of `remaining`. -/
def stop_sequence_allowed (E : Engine) (remaining : List Char) : List Int :=
  (List.range' 1 remaining.length).foldl
    (fun allowed_tokens i =>
      match E.tokenize (remaining.take i) false with
      | token :: _ => allowed_tokens.insert token
      | [] => allowed_tokens)
    []

/-- The loop `for (partial_len = ...; partial_len >= 2; partial_len--)` of
`stop_sequence_apply`, entered with the given `partial_len`; `some` is the
filtered candidate set when the loop reaches its `return`. -/
def stop_sequence_partial_loop (E : Engine) (ctx : llama_sampler_stop_sequence)
    (seq : List Char) (cur_p : llama_token_data_array) :
    Nat → Option llama_token_data_array
  | 0 => none
  | 1 => none
  | partial_len + 2 =>
    let partial_seq := seq.take (partial_len + 2)
    let next := stop_sequence_partial_loop E ctx seq cur_p (partial_len + 1)
    if ctx.accumulated.length ≥ partial_seq.length then
      let acc_end := ctx.accumulated.drop (ctx.accumulated.length - partial_seq.length)
      if acc_end == partial_seq then
        let remaining := seq.drop (partial_len + 2)
        let allowed_tokens := stop_sequence_allowed E remaining
        if !allowed_tokens.isEmpty then
          some (filter_in_place (fun id => allowed_tokens.contains id) cur_p)
        else next
      else next
    else next

/-- The loop over `ctx->stop_sequences` of `stop_sequence_apply`. -/
def stop_sequence_seq_loop (E : Engine) (ctx : llama_sampler_stop_sequence)
    (cur_p : llama_token_data_array) : List (List Char) → Option llama_token_data_array
  | [] => none
  | seq :: rest =>
    let hit :=
      if seq.length > 1 && seq.getLast? == some '>' then
        stop_sequence_partial_loop E ctx seq cur_p (seq.length - 1)
      else none
    match hit with
    | some out => some out
    | none => stop_sequence_seq_loop E ctx cur_p rest

/-- Embedding of `stop_sequence_apply` (token_filter_sampler.cpp:445-497). -/
def stop_sequence_apply (E : Engine) (ctx : llama_sampler_stop_sequence)
    (cur_p : llama_token_data_array) : llama_token_data_array :=
  (stop_sequence_seq_loop E ctx cur_p ctx.stop_sequences).getD cur_p

/-- Embedding of `stop_sequence_accept` (token_filter_sampler.cpp:499-507). -/
def stop_sequence_accept (E : Engine) (ctx : llama_sampler_stop_sequence) (token : Int) :
    llama_sampler_stop_sequence :=
  let piece := E.token_to_piece token
  if piece.length > 0 then { ctx with accumulated := ctx.accumulated ++ piece } else ctx

/-- Embedding of `stop_sequence_reset` (token_filter_sampler.cpp:509-512). -/
def stop_sequence_reset (ctx : llama_sampler_stop_sequence) : llama_sampler_stop_sequence :=
  { ctx with accumulated := [] }

/-- Embedding of `llama_sampler_init_stop_sequence` (token_filter_sampler.cpp:541-551). -/
def llama_sampler_init_stop_sequence (stop_sequences : List (List Char)) :
    llama_sampler_stop_sequence :=
  { stop_sequences := stop_sequences, accumulated := [] }

/-! ## Sampler chain -/

/-- The samplers of this repository, as the closed sum behind `llama_sampler *`. -/
inductive Sampler where
  | token_filter (ctx : llama_sampler_token_filter)
  | prefix_select (ctx : llama_sampler_prefix_select)
  | pattern (ctx : llama_sampler_pattern)
  | stop_sequence (ctx : llama_sampler_stop_sequence)
deriving DecidableEq, Repr

/-- Dispatch of `iface->apply`. -/
def Sampler.apply (E : Engine) : Sampler → llama_token_data_array → llama_token_data_array
  | .token_filter ctx, cur_p => token_filter_apply ctx cur_p
  | .prefix_select ctx, cur_p => prefix_select_apply ctx cur_p
  | .pattern ctx, cur_p => pattern_apply E ctx cur_p
  | .stop_sequence ctx, cur_p => stop_sequence_apply E ctx cur_p

/-- Dispatch of `iface->accept` (the token filter has none: `accept = nullptr`). -/
def Sampler.accept (E : Engine) : Sampler → Int → Sampler
  | .token_filter ctx, _ => .token_filter ctx
  | .prefix_select ctx, token => .prefix_select (prefix_select_accept ctx token)
  | .pattern ctx, token => .pattern (pattern_accept E ctx token)
  | .stop_sequence ctx, token => .stop_sequence (stop_sequence_accept E ctx token)

/-- A sampler chain as the driver builds it: the repository's filters in chain
order, then the engine's temperature and dist stages, of which only the
temperature (a `float`, carried uninterpreted) and the number of draws made so
far are state. -/
structure llama_sampler_chain where
  samplers : List Sampler
  temperature : Int
  n_draws : Nat
deriving DecidableEq, Repr

/-- The call `llama_sampler_sample(smpl, ctx, -1)`: build the candidate set from
the engine's logits, run every `apply` in chain order, let the final stages
choose, then run every `accept` on the chosen token.  `none` when the final
stage aborts. -/
def llama_sampler_sample (E : Engine) (smpl : llama_sampler_chain) (decoded : List Int) :
    Option (Int × llama_sampler_chain) :=
  let data := E.logits decoded
  let cur_p : llama_token_data_array := { data := data, size := data.length, sorted := false }
  let cur_p := smpl.samplers.foldl (fun cur s => s.apply E cur) cur_p
  match E.pick smpl.temperature smpl.n_draws cur_p with
  | none => none
  | some token =>
    some (token,
      { samplers := smpl.samplers.map (fun s => s.accept E token)
        temperature := smpl.temperature
        n_draws := smpl.n_draws + 1 })

/-! ## Generation driver -/

/-- Embedding of `struct generate_params` (constrained_generation.h:9-14). -/
structure generate_params where
  max_tokens : Int
  temperature : Int
  stop_sequences : List (List Char)
  custom_sampler : Option Sampler
deriving DecidableEq, Repr

/-- Embedding of `struct generate_result` (constrained_generation.h:16-22). -/
structure generate_result where
  text : List Char
  tokens : List Int
  stopped_by_sequence : Bool
  stop_sequence : List Char
  tokens_generated : Int
deriving DecidableEq, Repr

/-- Embedding of `check_stop_sequence` (constrained_generation.cpp:5-17):
`some found_sequence` when it returns true. -/
def check_stop_sequence (generated_text : List Char) :
    List (List Char) → Option (List Char)
  | [] => none
  | seq :: rest =>
    if (find generated_text seq).isSome then some seq
    else check_stop_sequence generated_text rest

/-- The decode loop of `generate` (constrained_generation.cpp:41-80); the first
argument counts the iterations still to run, `decoded` is the token sequence
decoded into the engine so far.  The value is the result, the decoded token
sequence and the state of the sampler objects of the chain when the loop ends;
`none` when the sampler chain aborts. -/
def generate_loop (E : Engine) (params : generate_params) :
    Nat → llama_sampler_chain → List Int → generate_result →
      Option (generate_result × List Int × llama_sampler_chain)
  | 0, smpl, decoded, result => some (result, decoded, smpl)
  | n + 1, smpl, decoded, result =>
    match llama_sampler_sample E smpl decoded with
    | none => none
    | some (new_token, smpl) =>
      if E.is_eog new_token then some (result, decoded, smpl)
      else
        let token_str := E.token_to_piece new_token
        if token_str.length > 0 then
          let result : generate_result :=
            { result with
              text := result.text ++ token_str
              tokens := result.tokens ++ [new_token]
              tokens_generated := result.tokens_generated + 1 }
          let found :=
            if !params.stop_sequences.isEmpty then
              check_stop_sequence result.text params.stop_sequences
            else none
          match found with
          | some found_seq =>
            some
              ({ result with
                  stopped_by_sequence := true
                  stop_sequence := found_seq
                  text :=
                    match find result.text found_seq with
                    | some pos => result.text.take pos
                    | none => result.text },
                decoded, smpl)
          | none =>
            if E.decode decoded [new_token] then
              generate_loop E params n smpl (decoded ++ [new_token]) result
            else some (result, decoded, smpl)
        else generate_loop E params n smpl decoded result

/-- Embedding of `generate` (constrained_generation.cpp:19-84): the driver's
result, the engine's decoded token sequence after the call, and the state of
the sampler objects of its chain when the loop is left, just before
`llama_sampler_free(smpl)` (constrained_generation.cpp:82) frees the chain and
with it every sampler added to it, `params.custom_sampler` included. -/
def generate (E : Engine) (params : generate_params) (decoded : List Int) :
    Option (generate_result × List Int × llama_sampler_chain) :=
  let smpl : llama_sampler_chain :=
    { samplers :=
        (match params.custom_sampler with
          | some s => [s]
          | none => []) ++
        (if !params.stop_sequences.isEmpty then
          [Sampler.stop_sequence (llama_sampler_init_stop_sequence params.stop_sequences)]
         else [])
      temperature := params.temperature
      n_draws := 0 }
  generate_loop E params params.max_tokens.toNat smpl decoded
    { text := [], tokens := [], stopped_by_sequence := false, stop_sequence := [],
      tokens_generated := 0 }

/-! ## Session -/

/-- The session state (`struct LLMSession::Impl`), together with `decoded`, the
token sequence decoded so far into the session's `llama_context`. -/
structure LLMSession where
  accumulated_text : List Char
  context_tokens : List Int
  variable_map : List (List Char × List Char)
  auto_cache_enabled : Bool
  cached_prompt_data : List Nat
  has_cached : Bool
  decoded : List Int
deriving DecidableEq, Repr

/-- How a session operation ends: it returns a value, it throws (a
`std::runtime_error` of its own, or an exception of the standard library that it
does not catch; the session is left in the state shown), the engine's final
sampling stage aborts the process, or the operation has undefined behaviour (it
uses an object that has been freed) and nothing can be said of what follows. -/
inductive Outcome (α : Type) where
  | returned (value : α) (s : LLMSession)
  | thrown (s : LLMSession)
  | aborted
  | undefined
deriving DecidableEq, Repr

/-- The state in which a session operation leaves the session, when the process
goes on with a defined state. -/
def Outcome.session {α : Type} : Outcome α → Option LLMSession
  | .returned _ s => some s
  | .thrown s => some s
  | .aborted => none
  | .undefined => none

/-- The assignment `variables[var_name] = value` on the `std::map` (the field is
named `variable_map` here, `variables` being reserved). -/
def map_assign (variable_map : List (List Char × List Char)) (var_name value : List Char) :
    List (List Char × List Char) :=
  if variable_map.any (fun kv => kv.1 == var_name) then
    variable_map.map (fun kv => if kv.1 == var_name then (kv.1, value) else kv)
  else variable_map ++ [(var_name, value)]

/-- Embedding of `Impl::encode_and_eval` (constrained_llm.cpp:25-37); `none`
when it throws. -/
def encode_and_eval (E : Engine) (s : LLMSession) (text : List Char) : Option LLMSession :=
  let tokens := E.tokenize text s.context_tokens.isEmpty
  if E.decode s.decoded tokens then
    some { s with
      decoded := s.decoded ++ tokens
      context_tokens := s.context_tokens ++ tokens }
  else none

/-- The comparison loop `for (j ...) if (generated_tokens[j] != option_tokens[opt_idx][j])`
of `select` (constrained_llm.cpp:105-111): the final value of `match`. -/
def tokens_match (generated_tokens tokens : List Int) : Bool :=
  (List.range generated_tokens.length).all
    (fun j => generated_tokens.getD j 0 == tokens.getD j 0)

/-- The loop "check if we've fully matched any option" of `select`
(constrained_llm.cpp:103-117) over the options paired with their token
sequences: the value of `selected` after it (empty when nothing matched). -/
def select_match (generated_tokens : List Int) :
    List (List Char × List Int) → List Char
  | [] => []
  | (opt, tokens) :: rest =>
    if generated_tokens.length == tokens.length && tokens_match generated_tokens tokens then opt
    else select_match generated_tokens rest

/-- How the sampling loop of `select` ends. -/
inductive select_exit where
  | done (generated_tokens : List Int) (selected : List Char) (decoded : List Int)
  | decode_failed (decoded : List Int)
  | aborted
deriving DecidableEq, Repr

/-- The sampling loop of `LLMSession::select` (constrained_llm.cpp:93-128); the
first argument counts the iterations still to run. -/
def select_loop (E : Engine) (options : List (List Char)) (option_tokens : List (List Int)) :
    Nat → llama_sampler_chain → List Int → List Int → select_exit
  | 0, _, decoded, generated_tokens => .done generated_tokens [] decoded
  | n + 1, smpl, decoded, generated_tokens =>
    match llama_sampler_sample E smpl decoded with
    | none => .aborted
    | some (new_token, smpl) =>
      if E.is_eog new_token then .done generated_tokens [] decoded
      else
        let generated_tokens := generated_tokens ++ [new_token]
        let selected := select_match generated_tokens (options.zip option_tokens)
        if !selected.isEmpty then .done generated_tokens selected decoded
        else if E.decode decoded [new_token] then
          select_loop E options option_tokens n smpl (decoded ++ [new_token]) generated_tokens
        else .decode_failed decoded

/-- Embedding of `LLMSession::select` (constrained_llm.cpp:70-144). -/
def LLMSession.select (E : Engine) (s : LLMSession) (options : List (List Char))
    (var_name : List Char) : Outcome (List Char) :=
  let option_tokens := options.map (fun opt => E.tokenize opt false)
  let max_length := option_tokens.foldl (fun max_length tokens => max max_length tokens.length) 0
  let smpl : llama_sampler_chain :=
    { samplers := [Sampler.prefix_select (llama_sampler_init_prefix_select E options)]
      temperature := 0
      n_draws := 0 }
  match select_loop E options option_tokens max_length smpl s.decoded [] with
  | .aborted => .aborted
  | .decode_failed decoded => .thrown { s with decoded := decoded }
  | .done generated_tokens selected decoded =>
    .returned selected
      { s with
        decoded := decoded
        context_tokens := s.context_tokens ++ generated_tokens
        accumulated_text := s.accumulated_text ++ selected
        variable_map :=
          if !var_name.isEmpty then map_assign s.variable_map var_name selected
          else s.variable_map }

/-- The loop `for (int i = seq.length() - 1; i >= 1; i--)` of the auto-completion
scan (constrained_llm.cpp:187-203), entered with the given `i`: the remainder
to commit, if a partial match is found. -/
def auto_complete_scan (text seq : List Char) : Nat → Option (List Char)
  | 0 => none
  | i + 1 =>
    if text.length ≥ i + 1 then
      let end_part := text.drop (text.length - (i + 1))
      let seq_start := seq.take (i + 1)
      if end_part == seq_start then some (seq.drop (i + 1))
      else auto_complete_scan text seq i
    else auto_complete_scan text seq i

/-- The loop over `stop_sequences` of the auto-completion
(constrained_llm.cpp:182-204): the remainder of the first sequence, in list
order, for which the scan finds a partial match. -/
def auto_complete_remainder (text : List Char) : List (List Char) → Option (List Char)
  | [] => none
  | seq :: rest =>
    match auto_complete_scan text seq (seq.length - 1) with
    | some remainder => some remainder
    | none => auto_complete_remainder text rest

/-- Embedding of `LLMSession::generate(int, stop_sequences, float, var_name)`
(constrained_llm.cpp:150-212). -/
def LLMSession.generate (E : Engine) (s : LLMSession) (max_tokens : Int)
    (stop_sequences : List (List Char)) (temperature : Int) (var_name : List Char) :
    Outcome (List Char) :=
  let params : generate_params :=
    { max_tokens := max_tokens, temperature := temperature,
      stop_sequences := stop_sequences, custom_sampler := none }
  match LlamaConstrain.generate E params s.decoded with
  | none => .aborted
  | some (result, decoded, _) =>
    let s1 : LLMSession :=
      { s with
        decoded := decoded
        context_tokens := s.context_tokens ++ result.tokens
        accumulated_text := s.accumulated_text ++ result.text }
    let finish (s2 : LLMSession) : Outcome (List Char) :=
      .returned result.text
        { s2 with
          variable_map :=
            if !var_name.isEmpty then map_assign s2.variable_map var_name result.text
            else s2.variable_map }
    if result.stopped_by_sequence && !result.stop_sequence.isEmpty then
      match encode_and_eval E s1 result.stop_sequence with
      | none => .thrown s1
      | some s2 =>
        finish { s2 with accumulated_text := s2.accumulated_text ++ result.stop_sequence }
    else if !stop_sequences.isEmpty && decide (result.tokens_generated ≥ params.max_tokens) then
      match auto_complete_remainder result.text stop_sequences with
      | none => finish s1
      | some remainder =>
        match encode_and_eval E s1 remainder with
        | none => .thrown s1
        | some s2 => finish { s2 with accumulated_text := s2.accumulated_text ++ remainder }
    else finish s1

/-- Embedding of `LLMSession::get_output` (constrained_llm.cpp:305-307). -/
def LLMSession.get_output (s : LLMSession) : List Char := s.accumulated_text

/-- Embedding of `LLMSession::get_variables` (constrained_llm.cpp:317-319). -/
def LLMSession.get_variables (s : LLMSession) : List (List Char × List Char) :=
  s.variable_map

/-! ## Session: generation from `GenerateOptions` -/

/-- Embedding of `struct GenerateOptions` (constrained_llm.h:10-20); the
`float` temperature is carried uninterpreted. -/
structure GenerateOptions where
  min_tokens : Int
  max_tokens : Int
  temperature : Int
  stop_sequences : List (List Char)
  var_name : List Char
  pattern : PatternType
  regex_pattern : List Char
deriving DecidableEq, Repr

/-- The local `params` of `LLMSession::generate(const GenerateOptions &)` as
first filled in (constrained_llm.cpp:215-227). -/
def generate_options_params (E : Engine) (options : GenerateOptions) : generate_params :=
  { max_tokens := options.max_tokens
    temperature := options.temperature
    stop_sequences := options.stop_sequences
    custom_sampler :=
      if options.pattern != PatternType.PATTERN_NONE then
        some (Sampler.pattern
          (llama_sampler_init_pattern E options.pattern options.regex_pattern
            options.stop_sequences))
      else none }

/-- The local `params` after `params.max_tokens = additional_tokens;
params.stop_sequences.clear();` (constrained_llm.cpp:232-234).  The field
`custom_sampler` is not reassigned: it holds the pointer handed to the first
driver call. -/
def generate_extension_params (params : generate_params) (options : GenerateOptions)
    (result : generate_result) : generate_params :=
  let additional_tokens := options.min_tokens - result.tokens_generated
  { max_tokens := additional_tokens
    temperature := params.temperature
    stop_sequences := []
    custom_sampler := params.custom_sampler }

/-- The locals of `LLMSession::generate(const GenerateOptions &)` after the
driver calls (constrained_llm.cpp:229-243): `params`, `result`, `additional`
(absent when the extension branch is not taken) and the engine's decoded token
sequence. -/
structure generate_passes where
  params : generate_params
  result : generate_result
  additional : Option generate_result
  decoded : List Int
deriving DecidableEq, Repr

/-- How the driver calls of `LLMSession::generate(const GenerateOptions &)` end:
they complete with the locals shown, a sampler chain aborts the process, or the
behaviour is undefined. -/
inductive passes_outcome where
  | completed (passes : generate_passes)
  | aborted
  | undefined
deriving DecidableEq, Repr

/-- The driver calls of `LLMSession::generate(const GenerateOptions &)`
(constrained_llm.cpp:215-243), up to the point where the session state is
touched for the tokens of `result`.  The first driver call adds
`params.custom_sampler` to its chain (constrained_generation.cpp:30) and frees
it with the chain (`llama_sampler_free(smpl)`, constrained_generation.cpp:82).
When the extension branch is taken with `params.custom_sampler` set, the second
driver call is handed that dangling pointer and runs `apply` on the freed
object: undefined behaviour. -/
def generate_options_passes (E : Engine) (options : GenerateOptions) (decoded : List Int) :
    passes_outcome :=
  let params := generate_options_params E options
  match generate E params decoded with
  | none => .aborted
  | some (result, decoded, _) =>
    if decide (result.tokens_generated < options.min_tokens) && !result.stopped_by_sequence then
      let params := generate_extension_params params options result
      match params.custom_sampler with
      | some _ => .undefined
      | none =>
        match generate E params decoded with
        | none => .aborted
        | some (additional, decoded, _) =>
          .completed
            { params := params
              result :=
                { result with
                  text := result.text ++ additional.text
                  tokens_generated := result.tokens_generated + additional.tokens_generated }
              additional := some additional
              decoded := decoded }
    else
      .completed { params := params, result := result, additional := none, decoded := decoded }

/-- Embedding of `LLMSession::generate(const GenerateOptions &)`
(constrained_llm.cpp:214-291).  The tokens of the extension pass are pushed to
`context_tokens` inside the extension branch, those of `result` after it. -/
def LLMSession.generate_options (E : Engine) (s : LLMSession) (options : GenerateOptions) :
    Outcome (List Char) :=
  match generate_options_passes E options s.decoded with
  | .aborted => .aborted
  | .undefined => .undefined
  | .completed passes =>
    let params := passes.params
    let result := passes.result
    let s1 : LLMSession :=
      { s with
        decoded := passes.decoded
        context_tokens :=
          s.context_tokens ++
            (match passes.additional with
              | some additional => additional.tokens
              | none => []) ++
            result.tokens
        accumulated_text := s.accumulated_text ++ result.text }
    let finish (s2 : LLMSession) : Outcome (List Char) :=
      .returned result.text
        { s2 with
          variable_map :=
            if !options.var_name.isEmpty then
              map_assign s2.variable_map options.var_name result.text
            else s2.variable_map }
    if result.stopped_by_sequence && !result.stop_sequence.isEmpty then
      match encode_and_eval E s1 result.stop_sequence with
      | none => .thrown s1
      | some s2 =>
        finish { s2 with accumulated_text := s2.accumulated_text ++ result.stop_sequence }
    else if !options.stop_sequences.isEmpty &&
        decide (result.tokens_generated ≥ params.max_tokens) then
      match auto_complete_remainder result.text options.stop_sequences with
      | none => finish s1
      | some remainder =>
        match encode_and_eval E s1 remainder with
        | none => .thrown s1
        | some s2 => finish { s2 with accumulated_text := s2.accumulated_text ++ remainder }
    else finish s1

/-! ## Prefix-select: sequences of operations -/

/-- An operation on the prefix-select sampler other than reset. -/
inductive prefix_select_op where
  | apply (cur_p : llama_token_data_array)
  | accept (token : Int)
deriving DecidableEq, Repr

/-- The sampler state after a sequence of `apply` and `accept` calls;
`prefix_select_apply` writes to the candidate set only, never to `smpl->ctx`. -/
def prefix_select_run (ctx : llama_sampler_prefix_select) :
    List prefix_select_op → llama_sampler_prefix_select
  | [] => ctx
  | .apply _ :: ops => prefix_select_run ctx ops
  | .accept token :: ops => prefix_select_run (prefix_select_accept ctx token) ops

/-! ## Samplers: sequences of interface calls -/

/-- Embedding of `token_filter_reset` (token_filter_sampler.cpp:49-50): an empty
body. -/
def token_filter_reset (ctx : llama_sampler_token_filter) : llama_sampler_token_filter :=
  ctx

/-- Dispatch of `iface->reset`. -/
def Sampler.reset : Sampler → Sampler
  | .token_filter ctx => .token_filter (token_filter_reset ctx)
  | .prefix_select ctx => .prefix_select (prefix_select_reset ctx)
  | .pattern ctx => .pattern (pattern_reset ctx)
  | .stop_sequence ctx => .stop_sequence (stop_sequence_reset ctx)

/-- One call through the sampler interface: `apply` on a candidate set, `accept`
of a token, or `reset`. -/
inductive sampler_call where
  | apply (cur_p : llama_token_data_array)
  | accept (token : Int)
  | reset
deriving DecidableEq, Repr

/-- The state `smpl->ctx` after one interface call.  Every `apply` of the
repository reads `smpl->ctx` and writes through `cur_p` only, so the state it
leaves is the state it found. -/
def Sampler.call (E : Engine) : Sampler → sampler_call → Sampler
  | s, .apply _ => s
  | s, .accept token => s.accept E token
  | s, .reset => s.reset

/-- The state after a sequence of interface calls, first call first. -/
def Sampler.calls (E : Engine) (s : Sampler) (cs : List sampler_call) : Sampler :=
  cs.foldl (Sampler.call E) s

/-! ## Persistence: the context blob -/

/-- The state interface of llama.cpp as the session calls it; the state of a
`llama_context` is identified, as everywhere in this development, with the token
sequence decoded into it.  `get_size` is `llama_state_get_size`.  `get_data
decoded size` is the byte sequence `llama_state_get_data` stores at the front of
a buffer of `size` bytes, so that its length is the returned count `written`.
`set_data decoded bytes` is `llama_state_set_data` on the given bytes: the
returned count `loaded` and the state in which the call leaves the context. -/
structure llama_state where
  get_size : List Int → Nat
  get_data : List Int → Nat → List Nat
  set_data : List Int → List Nat → Nat × List Int

/-- The object representation of an unsigned integer of `w` bytes, lowest byte
first (the byte order of the x86-64 and AArch64 targets); a `size_t` has
`w = 8`. -/
def le_bytes : Nat → Nat → List Nat
  | 0, _ => []
  | w + 1, n => n % 256 :: le_bytes w (n / 256)

/-- The unsigned integer whose object representation is the given bytes, each
list element read as the `uint8_t` it stands for. -/
def le_value : List Nat → Nat
  | [] => 0
  | b :: bytes => b % 256 + 256 * le_value bytes

/-- The four bytes of a `llama_token` (`int32_t`, two's complement). -/
def token_bytes (token : Int) : List Nat :=
  le_bytes 4 (token % 2 ^ 32).toNat

/-- The `llama_token` stored in four bytes. -/
def bytes_token (bytes : List Nat) : Int :=
  if le_value bytes < 2 ^ 31 then (le_value bytes : Int) else (le_value bytes : Int) - 2 ^ 32

/-- The bytes of the array `context_tokens.data()`. -/
def tokens_bytes (tokens : List Int) : List Nat :=
  tokens.flatMap token_bytes

/-- The array of `n` tokens stored in `4 * n` bytes. -/
def bytes_tokens : Nat → List Nat → List Int
  | 0, _ => []
  | n + 1, bytes => bytes_token (bytes.take 4) :: bytes_tokens n (bytes.drop 4)

/-- The bytes of a `std::string`, one per `char`. -/
def text_bytes (text : List Char) : List Nat :=
  text.map (fun c => c.toNat)

/-- The `std::string` stored in the given bytes. -/
def bytes_text (bytes : List Nat) : List Char :=
  bytes.map (fun b => Char.ofNat b)

/-- The contents after `resize(n)` on a `std::vector` or `std::string`: cut to
`n` elements, or padded with value-initialised elements. -/
def resize {α : Type} (l : List α) (n : Nat) (fill : α) : List α :=
  l.take n ++ List.replicate (n - l.length) fill

/-- Embedding of `LLMSession::save_context_to_memory`
(constrained_llm.cpp:396-435). -/
def LLMSession.save_context_to_memory (H : llama_state) (s : LLMSession) : List Nat :=
  let state_size := H.get_size s.decoded
  let state_data := H.get_data s.decoded state_size
  let written := state_data.length
  if written == 0 then []
  else
    let tokens_count := s.context_tokens.length
    let text_size := s.accumulated_text.length
    le_bytes 8 tokens_count ++
      (if tokens_count > 0 then tokens_bytes s.context_tokens else []) ++
      le_bytes 8 text_size ++
      (if text_size > 0 then text_bytes s.accumulated_text else []) ++
      le_bytes 8 written ++
      state_data

/-- The lambda `read_data` of `load_context_from_memory`
(constrained_llm.cpp:444-451) at the current `offset`: `none` when it returns
false, otherwise the bytes copied and the new offset.  The sums are `size_t`
sums. -/
def read_data (data : List Nat) (offset size : Nat) : Option (List Nat × Nat) :=
  if (offset + size) % 2 ^ 64 > data.length then none
  else some ((data.drop offset).take size, (offset + size) % 2 ^ 64)

/-- Embedding of `LLMSession::load_context_from_memory`
(constrained_llm.cpp:437-492).  A `resize` that asks for `2 ^ 63` bytes or more
throws (`std::length_error` or `std::bad_alloc`), which the function does not
catch; smaller allocations are taken to succeed. -/
def LLMSession.load_context_from_memory (H : llama_state) (s : LLMSession)
    (data : List Nat) : Outcome Bool :=
  if data.isEmpty then .returned false s
  else
    match read_data data 0 8 with
    | none => .returned false s
    | some (bytes, offset) =>
      let tokens_count := le_value bytes
      if tokens_count * 4 ≥ 2 ^ 63 then .thrown s
      else
        let s := { s with context_tokens := resize s.context_tokens tokens_count 0 }
        match
          (if tokens_count > 0 then read_data data offset (tokens_count * 4 % 2 ^ 64)
           else some (tokens_bytes s.context_tokens, offset)) with
        | none => .returned false s
        | some (bytes, offset) =>
          let s := { s with context_tokens := bytes_tokens tokens_count bytes }
          match read_data data offset 8 with
          | none => .returned false s
          | some (bytes, offset) =>
            let text_size := le_value bytes
            if text_size ≥ 2 ^ 63 then .thrown s
            else
              let s :=
                { s with accumulated_text := resize s.accumulated_text text_size (Char.ofNat 0) }
              match
                (if text_size > 0 then read_data data offset text_size
                 else some (text_bytes s.accumulated_text, offset)) with
              | none => .returned false s
              | some (bytes, offset) =>
                let s := { s with accumulated_text := bytes_text bytes }
                match read_data data offset 8 with
                | none => .returned false s
                | some (bytes, offset) =>
                  let state_size := le_value bytes
                  if (offset + state_size) % 2 ^ 64 != data.length then .returned false s
                  else
                    let loaded := H.set_data s.decoded ((data.drop offset).take state_size)
                    let s := { s with decoded := loaded.2 }
                    if loaded.1 == 0 then .returned false s
                    else .returned true s

/-- The function `load_context_from_memory` with the offsets written out and the
sums taken in the natural numbers: what the embedding above computes on every
buffer of fewer than `2 ^ 63` bytes (`load_context_from_memory_eq`). -/
def load_context_from_memory_plain (H : llama_state) (s : LLMSession)
    (data : List Nat) : Outcome Bool :=
  let tokens_count := le_value (data.take 8)
  let text_size := le_value ((data.drop (8 + 4 * tokens_count)).take 8)
  let state_size := le_value ((data.drop (16 + 4 * tokens_count + text_size)).take 8)
  let s1 := { s with context_tokens := resize s.context_tokens tokens_count 0 }
  let s2 :=
    { s with context_tokens := bytes_tokens tokens_count ((data.drop 8).take (4 * tokens_count)) }
  let s3 := { s2 with accumulated_text := resize s.accumulated_text text_size (Char.ofNat 0) }
  let s4 :=
    { s2 with
      accumulated_text := bytes_text ((data.drop (16 + 4 * tokens_count)).take text_size) }
  let loaded := H.set_data s.decoded (data.drop (24 + 4 * tokens_count + text_size))
  if data.length < 8 then .returned false s
  else if 2 ^ 63 ≤ 4 * tokens_count then .thrown s
  else if data.length < 8 + 4 * tokens_count then .returned false s1
  else if data.length < 16 + 4 * tokens_count then .returned false s2
  else if 2 ^ 63 ≤ text_size then .thrown s2
  else if data.length < 16 + 4 * tokens_count + text_size then .returned false s3
  else if data.length < 24 + 4 * tokens_count + text_size then .returned false s4
  else if data.length ≠ 24 + 4 * tokens_count + text_size + state_size then .returned false s4
  else if loaded.1 = 0 then .returned false { s4 with decoded := loaded.2 }
  else .returned true { s4 with decoded := loaded.2 }

/-- What `fread` does with the unread rest of a file and a destination whose
current bytes are `dest`: it stores as many bytes as the file still has, up to
the size of the destination, and leaves the others as they were; the value is
the destination's bytes and the rest of the file.  The return value of `fread`
is not part of the model, the session never reads it. -/
def fread (rest dest : List Nat) : List Nat × List Nat :=
  (rest.take dest.length ++ dest.drop rest.length, rest.drop dest.length)

/-- Embedding of `LLMSession::load_context` (constrained_llm.cpp:360-394) on a
file system in which `fopen` yields the given content, `none` when it fails.
Allocations as in `load_context_from_memory`. -/
def LLMSession.load_context (H : llama_state) (s : LLMSession)
    (file : Option (List Nat)) : Outcome Bool :=
  match file with
  | none => .returned false s
  | some fp =>
    let (bytes, fp) := fread fp (le_bytes 8 0)
    let tokens_count := le_value bytes
    if tokens_count * 4 ≥ 2 ^ 63 then .thrown s
    else
      let s := { s with context_tokens := resize s.context_tokens tokens_count 0 }
      let (bytes, fp) :=
        if tokens_count > 0 then fread fp (tokens_bytes s.context_tokens)
        else (tokens_bytes s.context_tokens, fp)
      let s := { s with context_tokens := bytes_tokens tokens_count bytes }
      let (bytes, fp) := fread fp (le_bytes 8 0)
      let text_size := le_value bytes
      if text_size ≥ 2 ^ 63 then .thrown s
      else
        let s :=
          { s with accumulated_text := resize s.accumulated_text text_size (Char.ofNat 0) }
        let (bytes, fp) :=
          if text_size > 0 then fread fp (text_bytes s.accumulated_text)
          else (text_bytes s.accumulated_text, fp)
        let s := { s with accumulated_text := bytes_text bytes }
        let (bytes, fp) := fread fp (le_bytes 8 0)
        let state_size := le_value bytes
        if state_size ≥ 2 ^ 63 then .thrown s
        else
          let (state_data, _) := fread fp (List.replicate state_size 0)
          let loaded := H.set_data s.decoded state_data
          let s := { s with decoded := loaded.2 }
          if loaded.1 == 0 then .returned false s
          else .returned true s

/-- Spec-side layout of the persisted context blob, in the words of the
specification: the 8-byte little-endian token count, the token ids as 4-byte
little-endian integers in history order, the 8-byte little-endian text length,
the text bytes, the 8-byte little-endian state length, the state bytes. -/
def context_blob (tokens : List Int) (text : List Char) (state : List Nat) : List Nat :=
  le_bytes 8 tokens.length ++
    (tokens.flatMap (fun token => le_bytes 4 (token % 2 ^ 32).toNat) ++
      (le_bytes 8 text.length ++
        (text.map (fun c => c.toNat) ++
          (le_bytes 8 state.length ++ state))))

/-! ## Session: append, clear, auto-cache and sequences of operations -/

/-- Embedding of `LLMSession::operator+=` (constrained_llm.cpp:293-303); the
session is left as it was when `encode_and_eval` throws. -/
def LLMSession.operator_plus_eq (E : Engine) (H : llama_state) (s : LLMSession)
    (text : List Char) : Outcome Unit :=
  match encode_and_eval E s text with
  | none => .thrown s
  | some s1 =>
    let s2 : LLMSession := { s1 with accumulated_text := s1.accumulated_text ++ text }
    if s2.auto_cache_enabled && !s2.has_cached && !s2.context_tokens.isEmpty then
      .returned ()
        { s2 with
          cached_prompt_data := s2.save_context_to_memory H
          has_cached := true }
    else .returned () s2

/-- Embedding of `LLMSession::clear` (constrained_llm.cpp:321-325). -/
def LLMSession.clear (s : LLMSession) : LLMSession :=
  { s with accumulated_text := [], context_tokens := [], variable_map := [] }

/-- Embedding of `LLMSession::enable_auto_cache` (constrained_llm.cpp:494-496). -/
def LLMSession.enable_auto_cache (s : LLMSession) (enable : Bool) : LLMSession :=
  { s with auto_cache_enabled := enable }

/-- Embedding of `LLMSession::get_cached_prompt` (constrained_llm.cpp:498-500). -/
def LLMSession.get_cached_prompt (s : LLMSession) : List Nat := s.cached_prompt_data

/-- Embedding of `LLMSession::has_cached_prompt` (constrained_llm.cpp:502-504). -/
def LLMSession.has_cached_prompt (s : LLMSession) : Bool := s.has_cached

/-- A call of a member function of `LLMSession` that can change the session;
`generate(max_tokens, temperature, var_name)` is `generate` with no stop
sequence (constrained_llm.cpp:146-148). -/
inductive session_op where
  | operator_plus_eq (text : List Char)
  | select (options : List (List Char)) (var_name : List Char)
  | generate (max_tokens : Int) (stop_sequences : List (List Char)) (temperature : Int)
      (var_name : List Char)
  | generate_options (options : GenerateOptions)
  | clear
  | load_context (file : Option (List Nat))
  | load_context_from_memory (data : List Nat)
  | enable_auto_cache (enable : Bool)
deriving DecidableEq, Repr

/-- The session after one call, whether the call returned or threw (the caller
catching the exception); `none` when the process was aborted or the behaviour
of the call is undefined. -/
def LLMSession.step (E : Engine) (H : llama_state) (s : LLMSession) :
    session_op → Option LLMSession
  | .operator_plus_eq text => (s.operator_plus_eq E H text).session
  | .select options var_name => (s.select E options var_name).session
  | .generate max_tokens stop_sequences temperature var_name =>
    (s.generate E max_tokens stop_sequences temperature var_name).session
  | .generate_options options => (s.generate_options E options).session
  | .clear => some s.clear
  | .load_context file => (s.load_context H file).session
  | .load_context_from_memory data => (s.load_context_from_memory H data).session
  | .enable_auto_cache enable => some (s.enable_auto_cache enable)

/-- The session after a sequence of calls, first call first. -/
def LLMSession.run (E : Engine) (H : llama_state) (s : LLMSession) :
    List session_op → Option LLMSession
  | [] => some s
  | op :: ops =>
    match s.step E H op with
    | none => none
    | some s1 => s1.run E H ops

/-! ## A concrete engine for instantiating the theorems -/

/-- A small engine on which the theorems are instantiated: "cat" is the token
`1`, "catalog" the tokens `1 2`; token `1` detokenizes to "cat", token `2` to
"alog"; token `0` is end-of-sequence; the logits always list the tokens `1`
and `2`; the final stage picks the first surviving candidate; decoding always
succeeds; no regular expression compiles. -/
def example_engine : Engine where
  tokenize := fun text _ =>
    if text = "cat".toList then [1]
    else if text = "catalog".toList then [1, 2]
    else []
  token_to_piece := fun token =>
    if token = 1 then "cat".toList
    else if token = 2 then "alog".toList
    else []
  is_eog := fun token => token == 0
  logits := fun _ => [⟨1, 0, 0⟩, ⟨2, 0, 0⟩]
  pick := fun _ _ cur_p => (candidates cur_p).head?.map (fun d => d.id)
  decode := fun _ _ => true
  regex := fun _ => none

/-- The engine `example_engine` with a full context window: every
`llama_decode` fails. -/
def example_engine_full : Engine :=
  { example_engine with decode := fun _ _ => false }

/-- A freshly constructed session. -/
def empty_session : LLMSession :=
  { accumulated_text := [], context_tokens := [], variable_map := [],
    auto_cache_enabled := false, cached_prompt_data := [], has_cached := false,
    decoded := [] }

/-- A character-level engine: a text is tokenized into the code points of its
characters and a positive token detokenizes to the one character it encodes;
token `0` is end-of-sequence.  The logits list the tokens of `x`, `<`, `>` and
end-of-sequence, with `x` first before anything is decoded and `<` first
afterwards; the final stage picks end-of-sequence on its second draw when it is
a candidate, and the first surviving candidate otherwise; decoding always
succeeds; no regular expression compiles. -/
def char_engine : Engine where
  tokenize := fun text _ => text.map (fun c => (c.toNat : Int))
  token_to_piece := fun token => if 0 < token then [Char.ofNat token.toNat] else []
  is_eog := fun token => token == 0
  logits := fun decoded =>
    if decoded.isEmpty then [⟨120, 0, 0⟩, ⟨60, 0, 0⟩, ⟨62, 0, 0⟩, ⟨0, 0, 0⟩]
    else [⟨60, 0, 0⟩, ⟨120, 0, 0⟩, ⟨62, 0, 0⟩, ⟨0, 0, 0⟩]
  pick := fun _ n cur_p =>
    if n = 1 ∧ (candidates cur_p).any (fun d => d.id == 0) then some 0
    else (candidates cur_p).head?.map (fun d => d.id)
  decode := fun _ _ => true
  regex := fun _ => none

/-- A state interface on which the theorems are instantiated: the exported state
is one byte per decoded token (its low byte), and at least one byte; an import
reads the bytes back as tokens and fails on an empty state. -/
def example_state : llama_state where
  get_size := fun decoded => decoded.length + 1
  get_data := fun decoded _ => 255 :: decoded.map (fun t => (t % 256).toNat)
  set_data := fun _ bytes => (bytes.length, (bytes.drop 1).map (fun b => (b : Int)))

/-- A state interface whose export writes nothing. -/
def example_state_empty : llama_state :=
  { example_state with get_data := fun _ _ => [] }

/-- A session with two tokens of history, the text "hi" and one named
variable. -/
def example_session : LLMSession :=
  { accumulated_text := "hi".toList, context_tokens := [5, -1],
    variable_map := [("a".toList, "b".toList)],
    auto_cache_enabled := false, cached_prompt_data := [], has_cached := false,
    decoded := [5, -1] }

/-- The engine `char_engine` with a tokenizer whose document-start marker is the
token `1`, put in front of the tokens of the text when `add_special` is set. -/
def bos_engine : Engine :=
  { char_engine with
    tokenize := fun text add_special =>
      (if add_special then [1] else []) ++ text.map (fun c => (c.toNat : Int)) }

/-- A character-level engine with a faithful tokenizer: the character of code
`n` is the token `n + 1`, which detokenizes to that character; the rest as in
`char_engine`. -/
def faithful_engine : Engine :=
  { char_engine with
    tokenize := fun text _ => text.map (fun c => (c.toNat : Int) + 1)
    token_to_piece := fun token => if 0 < token then [Char.ofNat (token - 1).toNat] else [] }

/-- The session `empty_session` after `enable_auto_cache(true)` and the append of
"a" on `bos_engine` with `example_state`: the blob of that moment is cached. -/
def cached_session : LLMSession :=
  { accumulated_text := "a".toList, context_tokens := [1, 97], variable_map := [],
    auto_cache_enabled := true
    cached_prompt_data :=
      [2, 0, 0, 0, 0, 0, 0, 0, 1, 0, 0, 0, 97, 0, 0, 0,
        1, 0, 0, 0, 0, 0, 0, 0, 97, 3, 0, 0, 0, 0, 0, 0, 0, 255, 1, 97]
    has_cached := true
    decoded := [1, 97] }

theorem filter_loop_take (keep : Int → Bool) :
    ∀ (n i w : Nat) (data : List llama_token_data), w ≤ i →
      (filter_loop keep n i w data).2.take (filter_loop keep n i w data).1
        = data.take w ++ ((data.drop i).take n).filter (fun d => keep d.id) := by
  intro n
  induction n with
  | zero => intro i w data _; simp [filter_loop]
  | succ n ih =>
    intro i w data hwi
    unfold filter_loop
    cases hget : data[i]? with
    | none =>
      have hlen : data.length ≤ i := by
        by_contra hlt
        have hlt2 : i < data.length := Nat.lt_of_not_le hlt
        simp [List.getElem?_eq_getElem hlt2] at hget
      simp [List.drop_eq_nil_of_le hlen]
    | some d =>
      have hi : i < data.length := by
        by_contra hge
        have hge2 : data.length ≤ i := Nat.le_of_not_lt hge
        simp [List.getElem?_eq_none hge2] at hget
      have hd : data[i] = d := by
        rw [List.getElem?_eq_getElem hi] at hget
        exact Option.some.inj hget
      have hdrop : data.drop i = d :: data.drop (i + 1) := by
        rw [List.drop_eq_getElem_cons hi, hd]
      by_cases hk : keep d.id = true
      · simp only [hk, if_true]
        have hset : (if (w != i) = true then data.set w d else data) = data.set w d := by
          by_cases hwi2 : w = i
          · subst hwi2
            simp
            apply List.ext_getElem? ; intro j
            rw [List.getElem?_set]
            by_cases hj : w = j
            · subst hj; simp [hi, hget]
            · simp [hj]
          · simp [hwi2]
        rw [hset, ih (i + 1) (w + 1) (data.set w d) (by omega)]
        have hw : w < data.length := by omega
        have h1 : (data.set w d).take (w + 1) = data.take w ++ [d] := by
          rw [List.take_succ, List.set_take,
            List.set_eq_of_length_le (by rw [List.length_take]; omega)]
          simp [List.getElem?_set, hw]
        have h2 : (data.set w d).drop (i + 1) = data.drop (i + 1) :=
          List.drop_set_of_lt d data (by omega)
        rw [h1, h2, hdrop]
        simp [List.take_succ_cons, hk]
      · have hk2 : keep d.id = false := by simpa using hk
        simp only [hk2, Bool.false_eq_true, if_false]
        rw [ih (i + 1) w data (by omega), hdrop]
        simp [List.take_succ_cons, hk2]

/-- The compaction loop is a stable filter of the logical candidates. -/
theorem candidates_filter_in_place (keep : Int → Bool) (cur_p : llama_token_data_array) :
    candidates (filter_in_place keep cur_p)
      = (candidates cur_p).filter (fun d => keep d.id) := by
  unfold candidates filter_in_place
  simp only
  rw [filter_loop_take keep cur_p.size 0 0 cur_p.data (Nat.le_refl 0)]
  simp

/-! ## Prefix-select: apply and accept -/

theorem getElem?_eq_some_getD {α : Type} (l : List α) (n : Nat) (d : α) (h : n < l.length) :
    l[n]? = some (l.getD n d) := by
  simp [List.getD_eq_getElem?_getD, List.getElem?_eq_getElem h]

theorem mem_allowed_fold (ctx : llama_sampler_prefix_select) (t : Int) :
    ∀ (l : List Nat) (acc : List Int),
      t ∈ l.foldl
          (fun allowed_tokens i =>
            if !(ctx.active_options.getD i false) then allowed_tokens
            else
              let tokens := ctx.option_tokens.getD i []
              if ctx.position < tokens.length then
                allowed_tokens.insert (tokens.getD ctx.position 0)
              else allowed_tokens)
          acc
        ↔ t ∈ acc ∨ ∃ i, i ∈ l ∧ ctx.active_options[i]? = some true ∧
            (ctx.option_tokens.getD i [])[ctx.position]? = some t := by
  intro l
  induction l with
  | nil => intro acc; simp
  | cons a l ih =>
    intro acc
    rw [List.foldl_cons, ih]
    have hact : ctx.active_options.getD a false = true ↔ ctx.active_options[a]? = some true := by
      rw [List.getD_eq_getElem?_getD]
      cases ctx.active_options[a]? <;> simp
    by_cases h1 : ctx.active_options.getD a false = true
    · have h1' := hact.mp h1
      by_cases h2 : ctx.position < (ctx.option_tokens.getD a []).length
      · have hval : (ctx.option_tokens.getD a [])[ctx.position]?
            = some ((ctx.option_tokens.getD a []).getD ctx.position 0) :=
          getElem?_eq_some_getD _ _ _ h2
        simp only [h1, h2, Bool.not_true, Bool.false_eq_true, if_false, if_true, List.mem_insert_iff,
          List.mem_cons]
        constructor
        · rintro ((h | h) | ⟨i, hi, h⟩)
          · exact Or.inr ⟨a, Or.inl rfl, h1', by rw [hval, h]⟩
          · exact Or.inl h
          · exact Or.inr ⟨i, Or.inr hi, h⟩
        · rintro (h | ⟨i, (rfl | hi), ha, hv⟩)
          · exact Or.inl (Or.inr h)
          · rw [hval] at hv
            exact Or.inl (Or.inl (Option.some.inj hv).symm)
          · exact Or.inr ⟨i, hi, ha, hv⟩
      · have hnone : (ctx.option_tokens.getD a [])[ctx.position]? = none :=
          List.getElem?_eq_none (Nat.le_of_not_lt h2)
        simp only [h1, h2, Bool.not_true, Bool.false_eq_true, if_false, List.mem_cons]
        constructor
        · rintro (h | ⟨i, hi, h⟩)
          · exact Or.inl h
          · exact Or.inr ⟨i, Or.inr hi, h⟩
        · rintro (h | ⟨i, (rfl | hi), ha, hv⟩)
          · exact Or.inl h
          · rw [hnone] at hv; cases hv
          · exact Or.inr ⟨i, hi, ha, hv⟩
    · have h1' : ¬ ctx.active_options[a]? = some true := fun h => h1 (hact.mpr h)
      have h1'' : ctx.active_options.getD a false = false := by simpa using h1
      simp only [h1'', Bool.not_false, if_true, List.mem_cons]
      constructor
      · rintro (h | ⟨i, hi, h⟩)
        · exact Or.inl h
        · exact Or.inr ⟨i, Or.inr hi, h⟩
      · rintro (h | ⟨i, (rfl | hi), ha, hv⟩)
        · exact Or.inl h
        · exact absurd ha h1'
        · exact Or.inr ⟨i, hi, ha, hv⟩

theorem mem_prefix_select_allowed (ctx : llama_sampler_prefix_select) (t : Int) :
    t ∈ prefix_select_allowed ctx ↔
      ∃ i, i < ctx.option_tokens.length ∧ ctx.active_options[i]? = some true ∧
        (ctx.option_tokens.getD i [])[ctx.position]? = some t := by
  unfold prefix_select_allowed
  rw [mem_allowed_fold]
  simp [List.mem_range]

/-- C1. Prefix-select apply.  If no alive option has a token at index
`position`, the candidate set (buffer, length and sorted flag) is returned
unchanged; otherwise the resulting candidates are exactly the candidates whose
id is the token at index `position` of some alive option, in their original
order. -/
theorem prefix_select_apply_spec (ctx : llama_sampler_prefix_select)
    (cur_p : llama_token_data_array) :
    ((¬ ∃ i, i < ctx.option_tokens.length ∧ ctx.active_options[i]? = some true ∧
          ctx.position < (ctx.option_tokens.getD i []).length) →
        prefix_select_apply ctx cur_p = cur_p) ∧
    ((∃ i, i < ctx.option_tokens.length ∧ ctx.active_options[i]? = some true ∧
          ctx.position < (ctx.option_tokens.getD i []).length) →
        candidates (prefix_select_apply ctx cur_p)
          = (candidates cur_p).filter (fun d =>
              decide (∃ i, i < ctx.option_tokens.length ∧
                ctx.active_options[i]? = some true ∧
                (ctx.option_tokens.getD i [])[ctx.position]? = some d.id))) := by
  constructor
  · intro hnone
    have hnil : prefix_select_allowed ctx = [] := by
      apply List.eq_nil_iff_forall_not_mem.mpr
      intro t ht
      obtain ⟨i, hi, ha, hv⟩ := (mem_prefix_select_allowed ctx t).mp ht
      refine hnone ⟨i, hi, ha, ?_⟩
      by_contra hge
      rw [List.getElem?_eq_none (Nat.le_of_not_lt hge)] at hv
      cases hv
    simp [prefix_select_apply, hnil]
  · rintro ⟨i, hi, ha, hpos⟩
    have hmem : (ctx.option_tokens.getD i [])[ctx.position] ∈ prefix_select_allowed ctx :=
      (mem_prefix_select_allowed ctx _).mpr ⟨i, hi, ha, List.getElem?_eq_getElem hpos⟩
    have hne : (prefix_select_allowed ctx).isEmpty = false := by
      cases hl : prefix_select_allowed ctx with
      | nil => rw [hl] at hmem; cases hmem
      | cons _ _ => rfl
    unfold prefix_select_apply
    simp only [hne, Bool.false_eq_true, if_false]
    rw [candidates_filter_in_place]
    apply List.filter_congr
    intro d _
    rw [Bool.eq_iff_iff]
    simp only [decide_eq_true_eq]
    rw [← mem_prefix_select_allowed]
    simp

theorem prefix_select_apply_spec_witness :
    (∃ i, i < 2 ∧ [true, true][i]? = some true ∧ 0 < ([[1, 2], [3]].getD i []).length) ∧
    candidates (prefix_select_apply ⟨[[1, 2], [3]], [true, true], 0⟩
        ⟨[⟨3, 0, 0⟩, ⟨5, 0, 0⟩, ⟨1, 0, 0⟩], 3, true⟩)
      = [⟨3, 0, 0⟩, ⟨1, 0, 0⟩] ∧
    prefix_select_apply ⟨[[1, 2], [3]], [false, true], 1⟩
        ⟨[⟨3, 0, 0⟩, ⟨5, 0, 0⟩, ⟨1, 0, 0⟩], 3, true⟩
      = ⟨[⟨3, 0, 0⟩, ⟨5, 0, 0⟩, ⟨1, 0, 0⟩], 3, true⟩ := by
  refine ⟨⟨0, by decide, by decide, by decide⟩, ?_, ?_⟩
  · rw [(prefix_select_apply_spec ⟨[[1, 2], [3]], [true, true], 0⟩
        ⟨[⟨3, 0, 0⟩, ⟨5, 0, 0⟩, ⟨1, 0, 0⟩], 3, true⟩).2 ⟨0, by decide, by decide, by decide⟩]
    decide
  · exact (prefix_select_apply_spec ⟨[[1, 2], [3]], [false, true], 1⟩
        ⟨[⟨3, 0, 0⟩, ⟨5, 0, 0⟩, ⟨1, 0, 0⟩], 3, true⟩).1 (by decide)

theorem accept_step_alive (ctx : llama_sampler_prefix_select) (token : Int)
    (act : List Bool) (a j : Nat) :
    (if !(act.getD a false) then act
      else
        let tokens := ctx.option_tokens.getD a []
        if ctx.position ≥ tokens.length || tokens.getD ctx.position 0 != token then
          act.set a false
        else act)[j]? = some true
      ↔ act[j]? = some true ∧
          (j = a → (ctx.option_tokens.getD a [])[ctx.position]? = some token) := by
  have hact : act.getD a false = true ↔ act[a]? = some true := by
    rw [List.getD_eq_getElem?_getD]
    cases act[a]? <;> simp
  by_cases h1 : act.getD a false = true
  · by_cases h2 : ctx.position < (ctx.option_tokens.getD a []).length
    · have hval := getElem?_eq_some_getD (ctx.option_tokens.getD a []) ctx.position 0 h2
      by_cases h3 : (ctx.option_tokens.getD a []).getD ctx.position 0 = token
      · have hc : (decide (ctx.position ≥ (ctx.option_tokens.getD a []).length) ||
            (ctx.option_tokens.getD a []).getD ctx.position 0 != token) = false := by
          rw [decide_eq_false (Nat.not_le.mpr h2), h3]; simp
        simp only [h1, hc, Bool.not_true, Bool.false_eq_true, if_false]
        constructor
        · intro h; exact ⟨h, fun _ => by rw [hval, h3]⟩
        · intro h; exact h.1
      · have hc : (decide (ctx.position ≥ (ctx.option_tokens.getD a []).length) ||
            (ctx.option_tokens.getD a []).getD ctx.position 0 != token) = true := by
          rw [bne_iff_ne.mpr h3, Bool.or_true]
        simp only [h1, hc, Bool.not_true, Bool.false_eq_true, if_false, if_true]
        rw [List.getElem?_set]
        by_cases hja : a = j
        · subst hja
          constructor
          · intro h; rw [if_pos rfl] at h; split at h <;> simp at h
          · rintro ⟨_, h⟩
            have h' := h rfl
            rw [hval] at h'
            exact absurd (Option.some.inj h') h3
        · simp only [hja, if_false]
          constructor
          · intro h; exact ⟨h, fun e => absurd e.symm hja⟩
          · intro h; exact h.1
    · have hnone : (ctx.option_tokens.getD a [])[ctx.position]? = none :=
        List.getElem?_eq_none (Nat.le_of_not_lt h2)
      have hc : (decide (ctx.position ≥ (ctx.option_tokens.getD a []).length) ||
          (ctx.option_tokens.getD a []).getD ctx.position 0 != token) = true := by
        rw [decide_eq_true (Nat.le_of_not_lt h2), Bool.true_or]
      simp only [h1, hc, Bool.not_true, Bool.false_eq_true, if_false, if_true]
      rw [List.getElem?_set]
      by_cases hja : a = j
      · subst hja
        constructor
        · intro h; rw [if_pos rfl] at h; split at h <;> simp at h
        · rintro ⟨_, h⟩
          have h' := h rfl
          rw [hnone] at h'
          cases h'
      · simp only [hja, if_false]
        constructor
        · intro h; exact ⟨h, fun e => absurd e.symm hja⟩
        · intro h; exact h.1
  · have h1' : act.getD a false = false := by simpa using h1
    simp only [h1', Bool.not_false, if_true]
    constructor
    · intro h
      refine ⟨h, fun e => ?_⟩
      subst e
      exact absurd (hact.mpr h) h1
    · intro h; exact h.1

theorem accept_fold_alive (ctx : llama_sampler_prefix_select) (token : Int) (j : Nat) :
    ∀ (l : List Nat) (act : List Bool),
      (l.foldl
          (fun active_options i =>
            if !(active_options.getD i false) then active_options
            else
              let tokens := ctx.option_tokens.getD i []
              if ctx.position ≥ tokens.length || tokens.getD ctx.position 0 != token then
                active_options.set i false
              else active_options)
          act)[j]? = some true
        ↔ act[j]? = some true ∧
            (j ∈ l → (ctx.option_tokens.getD j [])[ctx.position]? = some token) := by
  intro l
  induction l with
  | nil => intro act; simp
  | cons a l ih =>
    intro act
    rw [List.foldl_cons, ih, accept_step_alive]
    constructor
    · rintro ⟨⟨h1, h2⟩, h3⟩
      refine ⟨h1, fun hm => ?_⟩
      rcases List.mem_cons.mp hm with e | hm
      · have := h2 e; rw [e]; exact this
      · exact h3 hm
    · rintro ⟨h1, h2⟩
      exact ⟨⟨h1, fun e => by rw [← e]; exact h2 (by rw [e]; exact List.mem_cons_self _ _)⟩,
        fun hm => h2 (List.mem_cons_of_mem _ hm)⟩

theorem accept_fold_length (ctx : llama_sampler_prefix_select) (token : Int) :
    ∀ (l : List Nat) (act : List Bool),
      (l.foldl
          (fun active_options i =>
            if !(active_options.getD i false) then active_options
            else
              let tokens := ctx.option_tokens.getD i []
              if ctx.position ≥ tokens.length || tokens.getD ctx.position 0 != token then
                active_options.set i false
              else active_options)
          act).length = act.length := by
  intro l
  induction l with
  | nil => intro act; rfl
  | cons a l ih =>
    intro act
    rw [List.foldl_cons, ih]
    split
    · rfl
    · simp only []
      split <;> simp

/-- C2. Prefix-select accept.  After `accept(t)` the position has grown by
exactly one (whatever the alive flags are), the tokenized options are
untouched, and every option `i` is alive iff it was alive before and has a
token at the old position that equals `t`. -/
theorem prefix_select_accept_spec (ctx : llama_sampler_prefix_select) (t : Int) :
    (prefix_select_accept ctx t).position = ctx.position + 1 ∧
    (prefix_select_accept ctx t).option_tokens = ctx.option_tokens ∧
    (prefix_select_accept ctx t).active_options.length = ctx.active_options.length ∧
    ∀ i, i < ctx.option_tokens.length →
      ((prefix_select_accept ctx t).active_options[i]? = some true ↔
        ctx.active_options[i]? = some true ∧
          (ctx.option_tokens.getD i [])[ctx.position]? = some t) := by
  refine ⟨rfl, rfl, accept_fold_length ctx t _ _, fun i hi => ?_⟩
  unfold prefix_select_accept
  simp only
  rw [accept_fold_alive]
  simp [List.mem_range, hi]

theorem prefix_select_accept_spec_witness :
    (prefix_select_accept ⟨[[1, 2], [1, 3], [4]], [true, true, true], 0⟩ 1).position = 1 ∧
    ((prefix_select_accept ⟨[[1, 2], [1, 3], [4]], [true, true, true], 0⟩ 1).active_options[2]?
        = some true ↔
      [true, true, true][2]? = some true ∧
        (([[1, 2], [1, 3], [4]] : List (List Int)).getD 2 [])[0]? = some 1) :=
  ⟨(prefix_select_accept_spec ⟨[[1, 2], [1, 3], [4]], [true, true, true], 0⟩ 1).1,
   (prefix_select_accept_spec ⟨[[1, 2], [1, 3], [4]], [true, true, true], 0⟩ 1).2.2.2 2
     (by decide)⟩

/-! ## Pattern filter and pattern matcher -/

/-- C5. Pattern-filter apply.  The resulting candidates are exactly, in their
original order, the candidates that are stop tokens or whose detokenized piece
is non-empty and makes `accumulated ++ piece` match the pattern; in particular
a candidate that is a stop token is always kept. -/
theorem pattern_apply_spec (E : Engine) (ctx : llama_sampler_pattern)
    (cur_p : llama_token_data_array) :
    candidates (pattern_apply E ctx cur_p)
      = (candidates cur_p).filter (fun d =>
          decide (d.id ∈ ctx.stop_tokens) ||
            (decide (E.token_to_piece d.id ≠ []) &&
              matches_pattern E.regex (ctx.accumulated ++ E.token_to_piece d.id)
                ctx.pattern ctx.regex_pattern)) ∧
    ∀ d, d ∈ candidates cur_p → d.id ∈ ctx.stop_tokens →
      d ∈ candidates (pattern_apply E ctx cur_p) := by
  have hkeep : ∀ t : Int, pattern_keep E ctx t =
      (decide (t ∈ ctx.stop_tokens) ||
        (decide (E.token_to_piece t ≠ []) &&
          matches_pattern E.regex (ctx.accumulated ++ E.token_to_piece t)
            ctx.pattern ctx.regex_pattern)) := by
    intro t
    unfold pattern_keep
    by_cases hs : t ∈ ctx.stop_tokens
    · simp [hs]
    · cases hp : E.token_to_piece t with
      | nil => simp [hs]
      | cons c cs => simp [hs]
  have heq : candidates (pattern_apply E ctx cur_p)
      = (candidates cur_p).filter (fun d =>
          decide (d.id ∈ ctx.stop_tokens) ||
            (decide (E.token_to_piece d.id ≠ []) &&
              matches_pattern E.regex (ctx.accumulated ++ E.token_to_piece d.id)
                ctx.pattern ctx.regex_pattern)) := by
    unfold pattern_apply
    rw [candidates_filter_in_place]
    apply List.filter_congr
    intro d _
    exact hkeep d.id
  refine ⟨heq, fun d hd hs => ?_⟩
  rw [heq, List.mem_filter]
  exact ⟨hd, by simp [hs]⟩

theorem pattern_apply_spec_witness :
    (⟨7, 0, 0⟩ : llama_token_data) ∈
      candidates (pattern_apply
        ⟨fun _ _ => [], fun _ => "x".toList, fun _ => false, fun _ => [],
          fun _ _ _ => none, fun _ _ => true, fun _ => none⟩
        ⟨PatternType.PATTERN_NUMERIC, [], "12".toList, [7]⟩
        ⟨[⟨5, 0, 0⟩, ⟨7, 0, 0⟩], 2, true⟩) :=
  (pattern_apply_spec
      ⟨fun _ _ => [], fun _ => "x".toList, fun _ => false, fun _ => [],
        fun _ _ _ => none, fun _ _ => true, fun _ => none⟩
      ⟨PatternType.PATTERN_NUMERIC, [], "12".toList, [7]⟩
      ⟨[⟨5, 0, 0⟩, ⟨7, 0, 0⟩], 2, true⟩).2 ⟨7, 0, 0⟩ (by decide) (by decide)

theorem scan_chars_iff (reject : Char → Bool) (text : List Char) :
    scan_chars reject text = true ↔ ∀ c, c ∈ text → reject c = false := by
  induction text with
  | nil => simp [scan_chars]
  | cons a l ih =>
    unfold scan_chars
    by_cases h : reject a = true
    · simp [h]
    · have h' : reject a = false := by simpa using h
      simp [h', ih]

theorem isdigit_iff (c : Char) : isdigit c = true ↔ '0' ≤ c ∧ c ≤ '9' := by
  simp only [isdigit, Char.isDigit, Bool.and_eq_true, decide_eq_true_eq]
  exact Iff.rfl

theorem isupper_iff (c : Char) : isupper c = true ↔ 'A' ≤ c ∧ c ≤ 'Z' := by
  simp only [isupper, Char.isUpper, Bool.and_eq_true, decide_eq_true_eq]
  exact Iff.rfl

theorem islower_iff (c : Char) : islower c = true ↔ 'a' ≤ c ∧ c ≤ 'z' := by
  simp only [islower, Char.isLower, Bool.and_eq_true, decide_eq_true_eq]
  exact Iff.rfl

theorem isalpha_iff (c : Char) :
    isalpha c = true ↔ ('A' ≤ c ∧ c ≤ 'Z') ∨ ('a' ≤ c ∧ c ≤ 'z') := by
  simp only [isalpha, Bool.or_eq_true, isupper_iff, islower_iff]

theorem isalnum_iff (c : Char) :
    isalnum c = true ↔
      (('A' ≤ c ∧ c ≤ 'Z') ∨ ('a' ≤ c ∧ c ≤ 'z')) ∨ ('0' ≤ c ∧ c ≤ '9') := by
  simp only [isalnum, Bool.or_eq_true, isalpha_iff, isdigit_iff]

theorem matches_class_iff (text : List Char) (reject : Char → Bool) (P : Char → Prop)
    (hP : ∀ c, reject c = false ↔ P c) :
    ((if text.isEmpty then false else scan_chars reject text) = true ↔
      text ≠ [] ∧ ∀ c, c ∈ text → P c) := by
  cases text with
  | nil => simp
  | cons a l =>
    simp only [List.isEmpty_cons, Bool.false_eq_true, if_false, ne_eq, not_false_eq_true,
      true_and, reduceCtorEq]
    rw [scan_chars_iff]
    exact forall_congr' fun c => imp_congr_right fun _ => hP c

/-- C6. Character-class predicates.  NUMERIC, ALPHA, ALPHANUMERIC, UPPERCASE
and LOWERCASE accept a string iff it is non-empty and every character is an
ASCII digit, an ASCII letter, an ASCII letter or digit, an upper-case ASCII
letter, a lower-case ASCII letter respectively; the empty string is rejected by
each of them. -/
theorem matches_pattern_char_classes (regex : List Char → Option (List Char → Bool))
    (text rx : List Char) :
    (matches_pattern regex text .PATTERN_NUMERIC rx = true ↔
      text ≠ [] ∧ ∀ c, c ∈ text → '0' ≤ c ∧ c ≤ '9') ∧
    (matches_pattern regex text .PATTERN_ALPHA rx = true ↔
      text ≠ [] ∧ ∀ c, c ∈ text → ('A' ≤ c ∧ c ≤ 'Z') ∨ ('a' ≤ c ∧ c ≤ 'z')) ∧
    (matches_pattern regex text .PATTERN_ALPHANUMERIC rx = true ↔
      text ≠ [] ∧ ∀ c, c ∈ text →
        (('A' ≤ c ∧ c ≤ 'Z') ∨ ('a' ≤ c ∧ c ≤ 'z')) ∨ ('0' ≤ c ∧ c ≤ '9')) ∧
    (matches_pattern regex text .PATTERN_UPPERCASE rx = true ↔
      text ≠ [] ∧ ∀ c, c ∈ text → 'A' ≤ c ∧ c ≤ 'Z') ∧
    (matches_pattern regex text .PATTERN_LOWERCASE rx = true ↔
      text ≠ [] ∧ ∀ c, c ∈ text → 'a' ≤ c ∧ c ≤ 'z') ∧
    matches_pattern regex [] .PATTERN_NUMERIC rx = false ∧
    matches_pattern regex [] .PATTERN_ALPHA rx = false ∧
    matches_pattern regex [] .PATTERN_ALPHANUMERIC rx = false ∧
    matches_pattern regex [] .PATTERN_UPPERCASE rx = false ∧
    matches_pattern regex [] .PATTERN_LOWERCASE rx = false := by
  refine ⟨?_, ?_, ?_, ?_, ?_, rfl, rfl, rfl, rfl, rfl⟩
  · exact matches_class_iff text _ _ (fun c => by
      rw [← isdigit_iff]; cases isdigit c <;> simp)
  · exact matches_class_iff text _ _ (fun c => by
      rw [← isalpha_iff]; cases isalpha c <;> simp)
  · exact matches_class_iff text _ _ (fun c => by
      rw [← isalnum_iff]; cases isalnum c <;> simp)
  · exact matches_class_iff text _ _ (fun c => by
      rw [← isupper_iff]
      have : isalpha c = (isupper c || islower c) := rfl
      rw [this]; cases isupper c <;> simp)
  · exact matches_class_iff text _ _ (fun c => by
      rw [← islower_iff]
      have : isalpha c = (isupper c || islower c) := rfl
      rw [this]; cases islower c <;> simp)

theorem matches_pattern_char_classes_witness :
    matches_pattern (fun _ => none) "2024".toList .PATTERN_NUMERIC [] = true :=
  ((matches_pattern_char_classes (fun _ => none) "2024".toList []).1).mpr
    ⟨by decide, by decide⟩

theorem capitalized_cons (regex : List Char → Option (List Char → Bool))
    (c : Char) (cs rx : List Char) :
    matches_pattern regex (c :: cs) .PATTERN_CAPITALIZED rx
      = (isalpha c && isupper c && scan_chars (fun x => !(isalpha x)) cs) := by
  by_cases ha : isalpha c = true
  · have hscan : first_alpha_scan (c :: cs) (c :: cs).length 0 = 0 := by
      simp [first_alpha_scan, ha]
    simp only [matches_pattern, List.isEmpty_cons, Bool.false_eq_true, if_false, hscan]
    by_cases hu : isupper c = true
    · simp [hu, ha, scan_chars]
    · have hu' : isupper c = false := by simpa using hu
      simp [hu', ha]
  · have ha' : isalpha c = false := by simpa using ha
    simp only [matches_pattern, List.isEmpty_cons, Bool.false_eq_true, if_false, ha',
      Bool.false_and]
    split
    · rfl
    · split
      · rfl
      · simp [scan_chars, ha']

theorem capitalized_all_alpha (regex : List Char → Option (List Char → Bool))
    (text rx : List Char)
    (h : matches_pattern regex text .PATTERN_CAPITALIZED rx = true) :
    ∀ x, x ∈ text → isalpha x = true := by
  cases text with
  | nil => simp
  | cons c cs =>
    rw [capitalized_cons] at h
    simp only [Bool.and_eq_true] at h
    obtain ⟨⟨ha, _⟩, hs⟩ := h
    rw [scan_chars_iff] at hs
    intro x hx
    rcases List.mem_cons.mp hx with rfl | hx
    · exact ha
    · simpa using hs x hx

/-- C7. CAPITALIZED predicate.  A string is accepted iff it is non-empty, its
first alphabetic character (the first character not preceded by a letter-free
prefix only) is an upper-case letter and every character is a letter.  Hence
appending any non-letter to any string gives a rejected string ("John" is
accepted, "John5" is not), and so does a leading non-letter. -/
theorem matches_pattern_capitalized (regex : List Char → Option (List Char → Bool))
    (rx : List Char) :
    (∀ text : List Char,
      matches_pattern regex text .PATTERN_CAPITALIZED rx = true ↔
        text ≠ [] ∧
        (∃ pre c post, text = pre ++ c :: post ∧
          (∀ x, x ∈ pre → ¬ (('A' ≤ x ∧ x ≤ 'Z') ∨ ('a' ≤ x ∧ x ≤ 'z'))) ∧
          ('A' ≤ c ∧ c ≤ 'Z')) ∧
        ∀ x, x ∈ text → ('A' ≤ x ∧ x ≤ 'Z') ∨ ('a' ≤ x ∧ x ≤ 'z')) ∧
    (∀ (s : List Char) (c : Char), ¬ (('A' ≤ c ∧ c ≤ 'Z') ∨ ('a' ≤ c ∧ c ≤ 'z')) →
      matches_pattern regex (s ++ [c]) .PATTERN_CAPITALIZED rx = false) ∧
    (∀ (c : Char) (s : List Char), ¬ (('A' ≤ c ∧ c ≤ 'Z') ∨ ('a' ≤ c ∧ c ≤ 'z')) →
      matches_pattern regex (c :: s) .PATTERN_CAPITALIZED rx = false) ∧
    matches_pattern regex "John".toList .PATTERN_CAPITALIZED rx = true ∧
    matches_pattern regex "John5".toList .PATTERN_CAPITALIZED rx = false := by
  refine ⟨fun text => ⟨fun h => ?_, ?_⟩, fun s c hc => ?_, fun c s hc => ?_, ?_, ?_⟩
  · have hall := capitalized_all_alpha regex text rx h
    cases text with
    | nil => simp [matches_pattern] at h
    | cons c cs =>
      rw [capitalized_cons] at h
      simp only [Bool.and_eq_true] at h
      refine ⟨by simp, ⟨[], c, cs, rfl, by simp, (isupper_iff c).mp h.1.2⟩, fun x hx => ?_⟩
      exact (isalpha_iff x).mp (hall x hx)
  · rintro ⟨hne, ⟨pre, c, post, htext, hpre, hc⟩, hall⟩
    cases pre with
    | cons p ps =>
      exact absurd (hall p (by rw [htext]; simp)) (hpre p (by simp))
    | nil =>
      simp only [List.nil_append] at htext
      subst htext
      rw [capitalized_cons]
      simp only [Bool.and_eq_true]
      refine ⟨⟨(isalpha_iff c).mpr (Or.inl hc), (isupper_iff c).mpr hc⟩, ?_⟩
      rw [scan_chars_iff]
      intro x hx
      have := (isalpha_iff x).mpr (hall x (List.mem_cons_of_mem _ hx))
      simp [this]
  · by_contra hne
    have ht : matches_pattern regex (s ++ [c]) .PATTERN_CAPITALIZED rx = true := by
      simpa using hne
    exact hc ((isalpha_iff c).mp (capitalized_all_alpha regex _ rx ht c (by simp)))
  · by_contra hne
    have ht : matches_pattern regex (c :: s) .PATTERN_CAPITALIZED rx = true := by
      simpa using hne
    exact hc ((isalpha_iff c).mp (capitalized_all_alpha regex _ rx ht c (by simp)))
  · rfl
  · rfl

theorem matches_pattern_capitalized_witness :
    matches_pattern (fun _ => none) ("Ab".toList ++ ['!']) .PATTERN_CAPITALIZED [] = false :=
  (matches_pattern_capitalized (fun _ => none) []).2.1 "Ab".toList '!' (by decide)

/-- C8 as stated fails: the NONE pattern rejects the empty string. -/
theorem none_pattern_rejects_empty :
    ¬ ∀ (regex : List Char → Option (List Char → Bool)) (text rx : List Char),
        matches_pattern regex text .PATTERN_NONE rx = true := by
  intro h
  have := h (fun _ => none) [] []
  simp [matches_pattern] at this

/-- C8, amended.  The NONE pattern accepts exactly the non-empty strings: the
guard `if (text.empty()) return false;` precedes the switch, so the empty string
is rejected by NONE as by every other pattern. -/
theorem matches_pattern_none (regex : List Char → Option (List Char → Bool))
    (text rx : List Char) (pattern : PatternType) :
    (matches_pattern regex text .PATTERN_NONE rx = true ↔ text ≠ []) ∧
    matches_pattern regex [] pattern rx = false := by
  constructor
  · cases text with
    | nil => simp [matches_pattern]
    | cons c cs => simp [matches_pattern]
  · rfl

/-! ## Select: the exact-match check and the sampling loop -/

theorem tokens_match_iff (generated_tokens tokens : List Int)
    (hlen : generated_tokens.length = tokens.length) :
    tokens_match generated_tokens tokens = true ↔ generated_tokens = tokens := by
  unfold tokens_match
  rw [List.all_eq_true]
  constructor
  · intro h
    apply List.ext_getElem hlen
    intro j h1 h2
    have hj := h j (List.mem_range.mpr h1)
    simp only [List.getD_eq_getElem?_getD, List.getElem?_eq_getElem h1,
      List.getElem?_eq_getElem h2, Option.getD_some, beq_iff_eq] at hj
    exact hj
  · rintro rfl j _
    simp

theorem full_match_iff (generated_tokens tokens : List Int) :
    (generated_tokens.length == tokens.length && tokens_match generated_tokens tokens) = true
      ↔ generated_tokens = tokens := by
  rw [Bool.and_eq_true, beq_iff_eq]
  constructor
  · rintro ⟨hlen, hm⟩
    exact (tokens_match_iff _ _ hlen).mp hm
  · rintro rfl
    exact ⟨rfl, (tokens_match_iff _ _ rfl).mpr rfl⟩

theorem select_match_cons (f : List Char → List Int) (g : List Int) (o : List Char)
    (options : List (List Char)) :
    select_match g ((o :: options).zip ((o :: options).map f))
      = if g = f o then o else select_match g (options.zip (options.map f)) := by
  rw [List.map_cons, List.zip_cons_cons, select_match]
  by_cases h : g = f o
  · rw [if_pos ((full_match_iff g (f o)).mpr h), if_pos h]
  · rw [if_neg (fun hm => h ((full_match_iff g (f o)).mp hm)), if_neg h]

theorem select_match_none (f : List Char → List Int) (g : List Int) :
    ∀ options : List (List Char), (∀ o, o ∈ options → f o ≠ g) →
      select_match g (options.zip (options.map f)) = [] := by
  intro options
  induction options with
  | nil => intro _; rfl
  | cons o rest ih =>
    intro h
    rw [select_match_cons, if_neg (fun e => h o (List.mem_cons_self _ _) e.symm)]
    exact ih (fun o' ho' => h o' (List.mem_cons_of_mem _ ho'))

theorem select_match_first (f : List Char → List Int) (g : List Int) :
    ∀ (options : List (List Char)) (k : Nat) (opt : List Char),
      options[k]? = some opt → f opt = g →
      (∀ j, j < k → ∀ o, options[j]? = some o → f o ≠ g) →
      select_match g (options.zip (options.map f)) = opt := by
  intro options
  induction options with
  | nil => intro k opt hk; simp at hk
  | cons o rest ih =>
    intro k opt hk hf hfirst
    rw [select_match_cons]
    cases k with
    | zero =>
      simp only [List.getElem?_cons_zero, Option.some.injEq] at hk
      subst hk
      rw [if_pos hf.symm]
    | succ k =>
      rw [if_neg (fun e => hfirst 0 (Nat.succ_pos k) o (by simp) e.symm)]
      refine ih k opt (by simpa using hk) hf (fun j hj o' ho' => ?_)
      exact hfirst (j + 1) (Nat.succ_lt_succ hj) o' (by simpa using ho')

theorem select_match_mem (f : List Char → List Int) (g : List Int) :
    ∀ options : List (List Char),
      select_match g (options.zip (options.map f)) ≠ [] →
      select_match g (options.zip (options.map f)) ∈ options ∧
        f (select_match g (options.zip (options.map f))) = g := by
  intro options
  induction options with
  | nil => intro h; exact absurd rfl h
  | cons o rest ih =>
    intro h
    rw [select_match_cons] at h ⊢
    by_cases e : g = f o
    · rw [if_pos e]
      exact ⟨List.mem_cons_self _ _, e.symm⟩
    · rw [if_neg e] at h ⊢
      exact ⟨List.mem_cons_of_mem _ (ih h).1, (ih h).2⟩

theorem max_length_ge :
    ∀ (l : List (List Int)) (init : Nat),
      init ≤ l.foldl (fun max_length tokens => max max_length tokens.length) init ∧
      ∀ x, x ∈ l → x.length ≤ l.foldl (fun max_length tokens => max max_length tokens.length) init := by
  intro l
  induction l with
  | nil => intro init; simp
  | cons a l ih =>
    intro init
    rw [List.foldl_cons]
    have h1 := (ih (max init a.length)).1
    refine ⟨le_trans (le_max_left _ _) h1, fun x hx => ?_⟩
    rcases List.mem_cons.mp hx with rfl | hx
    · exact le_trans (le_max_right _ _) h1
    · exact (ih (max init a.length)).2 x hx

theorem take_succ_getD (l : List Int) (n : Nat) (h : n < l.length) :
    l.take n ++ [l.getD n 0] = l.take (n + 1) := by
  rw [List.take_succ]
  simp [List.getD_eq_getElem?_getD, List.getElem?_eq_getElem h]

/-- One iteration of the loop of `select` that completes an option stops the
loop with that option. -/
theorem select_loop_stop (E : Engine) (options : List (List Char)) (n : Nat)
    (smpl smpl1 : llama_sampler_chain) (decoded generated_tokens : List Int) (new_token : Int)
    (opt : List Char) (k : Nat)
    (hs : llama_sampler_sample E smpl decoded = some (new_token, smpl1))
    (heog : E.is_eog new_token = false)
    (hk : options[k]? = some opt)
    (hopt : opt ≠ [])
    (hf : E.tokenize opt false = generated_tokens ++ [new_token])
    (hfirst : ∀ j, j < k → ∀ o, options[j]? = some o →
      E.tokenize o false ≠ generated_tokens ++ [new_token]) :
    select_loop E options (options.map (fun o => E.tokenize o false)) (n + 1) smpl decoded
        generated_tokens
      = .done (generated_tokens ++ [new_token]) opt decoded := by
  have hm := select_match_first (fun o => E.tokenize o false) (generated_tokens ++ [new_token])
    options k opt hk hf hfirst
  unfold select_loop
  simp only [hs, heog, Bool.false_eq_true, if_false, hm]
  cases opt with
  | nil => exact absurd rfl hopt
  | cons c cs => simp

/-- One iteration of the loop of `select` that completes no option decodes the
token and goes on. -/
theorem select_loop_continue (E : Engine) (options : List (List Char)) (n : Nat)
    (smpl smpl1 : llama_sampler_chain) (decoded generated_tokens : List Int) (new_token : Int)
    (hs : llama_sampler_sample E smpl decoded = some (new_token, smpl1))
    (heog : E.is_eog new_token = false)
    (hnone : ∀ o, o ∈ options → E.tokenize o false ≠ generated_tokens ++ [new_token])
    (hdec : E.decode decoded [new_token] = true) :
    select_loop E options (options.map (fun o => E.tokenize o false)) (n + 1) smpl decoded
        generated_tokens
      = select_loop E options (options.map (fun o => E.tokenize o false)) n smpl1
          (decoded ++ [new_token]) (generated_tokens ++ [new_token]) := by
  have hm := select_match_none (fun o => E.tokenize o false) (generated_tokens ++ [new_token])
    options hnone
  conv_lhs => unfold select_loop
  simp only [hs, heog, Bool.false_eq_true, if_false, hm, hdec, if_true, List.isEmpty_nil,
    Bool.not_true]

theorem select_loop_run (E : Engine) (options : List (List Char)) (ts d0 : List Int)
    (c : Nat → llama_sampler_chain) (opt : List Char) (k : Nat)
    (hstep : ∀ i, i < ts.length →
      llama_sampler_sample E (c i) (d0 ++ ts.take i) = some (ts.getD i 0, c (i + 1)))
    (heog : ∀ t, t ∈ ts → E.is_eog t = false)
    (hdec : ∀ i, i + 1 < ts.length → E.decode (d0 ++ ts.take i) [ts.getD i 0] = true)
    (hnone : ∀ i, 0 < i → i < ts.length → ∀ o, o ∈ options → E.tokenize o false ≠ ts.take i)
    (hk : options[k]? = some opt) (hopt : opt ≠ [])
    (hf : E.tokenize opt false = ts)
    (hfirst : ∀ j, j < k → ∀ o, options[j]? = some o → E.tokenize o false ≠ ts) :
    ∀ (m i n : Nat), i + m + 1 = ts.length → m + 1 ≤ n →
      select_loop E options (options.map (fun o => E.tokenize o false)) n (c i)
          (d0 ++ ts.take i) (ts.take i)
        = .done ts opt (d0 ++ ts.take (ts.length - 1)) := by
  intro m
  induction m with
  | zero =>
    intro i n hi hn
    obtain ⟨n, rfl⟩ : ∃ n', n = n' + 1 := ⟨n - 1, by omega⟩
    have hlt : i < ts.length := by omega
    have htake : ts.take i ++ [ts.getD i 0] = ts := by
      rw [take_succ_getD ts i hlt, List.take_of_length_le (by omega)]
    have hmem : ts.getD i 0 ∈ ts := by
      rw [List.getD_eq_getElem?_getD, List.getElem?_eq_getElem hlt]
      exact List.getElem_mem hlt
    rw [select_loop_stop E options n (c i) (c (i + 1)) (d0 ++ ts.take i) (ts.take i)
      (ts.getD i 0) opt k (hstep i hlt) (heog _ hmem) hk hopt (by rw [htake]; exact hf)
      (by rw [htake]; exact hfirst)]
    rw [htake]
    have : ts.length - 1 = i := by omega
    rw [this]
  | succ m ih =>
    intro i n hi hn
    obtain ⟨n, rfl⟩ : ∃ n', n = n' + 1 := ⟨n - 1, by omega⟩
    have hlt : i < ts.length := by omega
    have htake : ts.take i ++ [ts.getD i 0] = ts.take (i + 1) := take_succ_getD ts i hlt
    have hmem : ts.getD i 0 ∈ ts := by
      rw [List.getD_eq_getElem?_getD, List.getElem?_eq_getElem hlt]
      exact List.getElem_mem hlt
    rw [select_loop_continue E options n (c i) (c (i + 1)) (d0 ++ ts.take i) (ts.take i)
      (ts.getD i 0) (hstep i hlt) (heog _ hmem)
      (by rw [htake]; exact hnone (i + 1) (Nat.succ_pos i) (by omega))
      (hdec i (by omega))]
    rw [List.append_assoc, htake]
    exact ih (i + 1) n (by omega) (by omega)

/-- C3. Select exact termination.  Take any run of the sampling loop of
`select`: the chain states `c 0, c 1, ...` and the sampled tokens `ts`, none of
them end-of-sequence, each but the last decoded successfully.  If `ts` is the
token sequence of some option, `opt` is the first such option in list order, and
no shorter non-empty prefix of `ts` is the token sequence of an option, then
`select` stops after exactly these tokens and returns `opt`; a longer option
extending `ts` is never waited for.  The tokenizer is assumed to give no token
for the empty text. -/
theorem select_exact_termination (E : Engine) (s : LLMSession) (options : List (List Char))
    (var_name : List Char) (ts : List Int) (c : Nat → llama_sampler_chain)
    (opt : List Char) (k : Nat)
    (htok : E.tokenize [] false = [])
    (hts : ts ≠ [])
    (hc0 : c 0 =
      { samplers := [Sampler.prefix_select (llama_sampler_init_prefix_select E options)]
        temperature := 0
        n_draws := 0 })
    (hstep : ∀ i, i < ts.length →
      llama_sampler_sample E (c i) (s.decoded ++ ts.take i) = some (ts.getD i 0, c (i + 1)))
    (heog : ∀ t, t ∈ ts → E.is_eog t = false)
    (hdec : ∀ i, i + 1 < ts.length → E.decode (s.decoded ++ ts.take i) [ts.getD i 0] = true)
    (hnone : ∀ i, 0 < i → i < ts.length → ∀ o, o ∈ options → E.tokenize o false ≠ ts.take i)
    (hk : options[k]? = some opt)
    (hf : E.tokenize opt false = ts)
    (hfirst : ∀ j, j < k → ∀ o, options[j]? = some o → E.tokenize o false ≠ ts) :
    LLMSession.select E s options var_name
      = .returned opt
          { s with
            decoded := s.decoded ++ ts.take (ts.length - 1)
            context_tokens := s.context_tokens ++ ts
            accumulated_text := s.accumulated_text ++ opt
            variable_map :=
              if !var_name.isEmpty then map_assign s.variable_map var_name opt
              else s.variable_map } := by
  have hopt : opt ≠ [] := by
    rintro rfl
    exact hts (by rw [← hf, htok])
  have hlen : 0 < ts.length := List.length_pos.mpr hts
  have hmem : opt ∈ options := by
    obtain ⟨hlt, he⟩ := List.getElem?_eq_some.mp hk
    rw [← he]
    exact List.getElem_mem hlt
  have hmax : ts.length ≤
      (options.map (fun o => E.tokenize o false)).foldl
        (fun max_length tokens => max max_length tokens.length) 0 := by
    apply (max_length_ge _ 0).2
    rw [← hf]
    exact List.mem_map_of_mem _ hmem
  have hrun := select_loop_run E options ts s.decoded c opt k hstep heog hdec hnone hk hopt hf
    hfirst (ts.length - 1) 0
    ((options.map (fun o => E.tokenize o false)).foldl
        (fun max_length tokens => max max_length tokens.length) 0)
    (by omega) (by omega)
  simp only [List.take_zero, List.append_nil] at hrun
  unfold LLMSession.select
  simp only [← hc0, hrun]

theorem select_exact_termination_witness :
    LLMSession.select example_engine empty_session ["cat".toList, "catalog".toList] []
      = .returned "cat".toList
          { empty_session with
            context_tokens := [1]
            accumulated_text := "cat".toList } :=
  select_exact_termination example_engine empty_session ["cat".toList, "catalog".toList] []
    [1]
    (fun i =>
      match i with
      | 0 =>
        { samplers :=
            [Sampler.prefix_select
              (llama_sampler_init_prefix_select example_engine
                ["cat".toList, "catalog".toList])]
          temperature := 0
          n_draws := 0 }
      | _ =>
        { samplers :=
            [Sampler.prefix_select
              (prefix_select_accept
                (llama_sampler_init_prefix_select example_engine
                  ["cat".toList, "catalog".toList]) 1)]
          temperature := 0
          n_draws := 1 })
    "cat".toList 0
    (by decide) (by decide) rfl
    (fun i hi => by
      obtain rfl : i = 0 := by simpa using hi
      decide)
    (by decide)
    (fun i hi => by simp at hi)
    (fun i h0 hi => by simp at hi; omega)
    (by decide) (by decide)
    (fun j hj => by omega)

/-! ## Select: total correctness under a cooperative engine -/

theorem prefix_select_apply_candidates (ctx : llama_sampler_prefix_select)
    (cur_p : llama_token_data_array) (t : Int) (ht : t ∈ prefix_select_allowed ctx) :
    candidates (prefix_select_apply ctx cur_p)
      = (candidates cur_p).filter (fun d => decide (d.id ∈ prefix_select_allowed ctx)) := by
  have hne : (prefix_select_allowed ctx).isEmpty = false := by
    cases hl : prefix_select_allowed ctx with
    | nil => rw [hl] at ht; cases ht
    | cons _ _ => rfl
  unfold prefix_select_apply
  simp only [hne, Bool.false_eq_true, if_false]
  rw [candidates_filter_in_place]
  apply List.filter_congr
  intro d _
  simp

theorem prefix_select_accept_alive (ctx : llama_sampler_prefix_select) (t : Int) (i : Nat)
    (hi : i < ctx.option_tokens.length) :
    (prefix_select_accept ctx t).active_options[i]? = some true ↔
      ctx.active_options[i]? = some true ∧
        (ctx.option_tokens.getD i [])[ctx.position]? = some t := by
  unfold prefix_select_accept
  simp only
  rw [accept_fold_alive]
  simp [List.mem_range, hi]

theorem getD_mem {α : Type} (l : List α) (n : Nat) (d : α) (h : n < l.length) :
    l.getD n d ∈ l := by
  rw [List.getD_eq_getElem?_getD, List.getElem?_eq_getElem h]
  exact List.getElem_mem h

theorem mem_of_getElem?_eq_some {α : Type} (l : List α) (n : Nat) (a : α)
    (h : l[n]? = some a) : a ∈ l := by
  obtain ⟨hlt, he⟩ := List.getElem?_eq_some.mp h
  rw [← he]
  exact List.getElem_mem hlt

theorem prefix_snoc_iff (g l : List Int) (t : Int) :
    g ++ [t] <+: l ↔ g <+: l ∧ l[g.length]? = some t := by
  constructor
  · rintro ⟨r, rfl⟩
    refine ⟨⟨[t] ++ r, by simp⟩, ?_⟩
    rw [List.append_assoc, List.getElem?_append_right (Nat.le_refl _)]
    simp
  · rintro ⟨⟨r, rfl⟩, h⟩
    rw [List.getElem?_append_right (Nat.le_refl _)] at h
    cases r with
    | nil => simp at h
    | cons a r =>
      simp at h
      subst h
      exact ⟨r, by simp⟩

theorem select_match_ne_nil (f : List Char → List Int) (g : List Int) :
    ∀ options : List (List Char), (∀ o, o ∈ options → o ≠ []) →
      (∃ o, o ∈ options ∧ f o = g) →
      select_match g (options.zip (options.map f)) ≠ [] := by
  intro options
  induction options with
  | nil => rintro _ ⟨o, ho, _⟩; cases ho
  | cons a rest ih =>
    intro hne hex
    rw [select_match_cons]
    by_cases e : g = f a
    · rw [if_pos e]; exact hne a (List.mem_cons_self _ _)
    · rw [if_neg e]
      obtain ⟨o, ho, hfo⟩ := hex
      rcases List.mem_cons.mp ho with rfl | ho
      · exact absurd hfo.symm e
      · exact ih (fun o' ho' => hne o' (List.mem_cons_of_mem _ ho')) ⟨o, ho, hfo⟩

/-- Loop invariant of `select`: the filter state tracks the emitted tokens. -/
theorem select_step (E : Engine) (options : List (List Char))
    (hopts : ∀ o, o ∈ options → ∀ t, t ∈ E.tokenize o false → E.is_eog t = false)
    (hcand : ∀ decoded o t, o ∈ options → t ∈ E.tokenize o false →
      ∃ d, d ∈ E.logits decoded ∧ d.id = t)
    (hpick : ∀ temperature n cur_p, candidates cur_p ≠ [] →
      ∃ d, d ∈ candidates cur_p ∧ E.pick temperature n cur_p = some d.id)
    (ctx : llama_sampler_prefix_select) (g decoded : List Int) (nd : Nat)
    (hot : ctx.option_tokens = options.map (fun o => E.tokenize o false))
    (hpos : ctx.position = g.length)
    (halive : ∀ i, i < ctx.option_tokens.length →
      (ctx.active_options[i]? = some true ↔ g <+: ctx.option_tokens.getD i []))
    (hsome : ∃ i, i < ctx.option_tokens.length ∧ ctx.active_options[i]? = some true)
    (hnomatch : ∀ o, o ∈ options → E.tokenize o false ≠ g) :
    ∃ t,
      llama_sampler_sample E ⟨[Sampler.prefix_select ctx], 0, nd⟩ decoded
        = some (t, ⟨[Sampler.prefix_select (prefix_select_accept ctx t)], 0, nd + 1⟩) ∧
      E.is_eog t = false ∧
      (∀ i, i < ctx.option_tokens.length →
        ((prefix_select_accept ctx t).active_options[i]? = some true ↔
          g ++ [t] <+: ctx.option_tokens.getD i [])) ∧
      (∃ i, i < ctx.option_tokens.length ∧
        (prefix_select_accept ctx t).active_options[i]? = some true) := by
  -- every entry of `option_tokens` is the tokenization of an option
  have hentry : ∀ i, i < ctx.option_tokens.length →
      ∃ o, o ∈ options ∧ ctx.option_tokens.getD i [] = E.tokenize o false := by
    intro i hi
    have hmem : ctx.option_tokens.getD i [] ∈ ctx.option_tokens := getD_mem _ _ _ hi
    have hmem2 : ctx.option_tokens.getD i [] ∈ options.map (fun o => E.tokenize o false) := by
      rw [← hot]; exact hmem
    obtain ⟨o, ho, he⟩ := List.mem_map.mp hmem2
    exact ⟨o, ho, he.symm⟩
  -- an alive option is strictly longer than the emitted tokens
  obtain ⟨i0, hi0, ha0⟩ := hsome
  have hpre0 := (halive i0 hi0).mp ha0
  obtain ⟨o0, ho0, he0⟩ := hentry i0 hi0
  have hlt0 : ctx.position < (ctx.option_tokens.getD i0 []).length := by
    rw [hpos]
    rcases Nat.lt_or_ge g.length (ctx.option_tokens.getD i0 []).length with h | h
    · exact h
    · exfalso
      apply hnomatch o0 ho0
      rw [← he0]
      exact (List.IsPrefix.eq_of_length_le hpre0 h).symm
  have hmem0 : (ctx.option_tokens.getD i0 []).getD ctx.position 0 ∈ prefix_select_allowed ctx :=
    (mem_prefix_select_allowed ctx _).mpr ⟨i0, hi0, ha0, getElem?_eq_some_getD _ _ _ hlt0⟩
  -- the filtered candidate set
  have hcands : candidates
      (prefix_select_apply ctx ⟨E.logits decoded, (E.logits decoded).length, false⟩)
        = (E.logits decoded).filter (fun d => decide (d.id ∈ prefix_select_allowed ctx)) := by
    rw [prefix_select_apply_candidates ctx _ _ hmem0]
    simp [candidates]
  have htok0 : (ctx.option_tokens.getD i0 []).getD ctx.position 0 ∈ E.tokenize o0 false := by
    rw [← he0]
    exact getD_mem _ _ _ hlt0
  obtain ⟨d0, hd0, hid0⟩ := hcand decoded o0 _ ho0 htok0
  have hne : candidates
      (prefix_select_apply ctx ⟨E.logits decoded, (E.logits decoded).length, false⟩) ≠ [] := by
    rw [hcands]
    apply List.ne_nil_of_mem (a := d0)
    rw [List.mem_filter]
    exact ⟨hd0, by rw [hid0]; simpa using hmem0⟩
  obtain ⟨d, hd, hp⟩ := hpick 0 nd _ hne
  rw [hcands, List.mem_filter] at hd
  have hdallowed : d.id ∈ prefix_select_allowed ctx := by simpa using hd.2
  obtain ⟨i1, hi1, ha1, hv1⟩ := (mem_prefix_select_allowed ctx d.id).mp hdallowed
  refine ⟨d.id, ?_, ?_, ?_, ?_⟩
  · unfold llama_sampler_sample
    simp only [List.foldl_cons, List.foldl_nil, Sampler.apply, hp, List.map_cons, List.map_nil,
      Sampler.accept]
  · obtain ⟨o1, ho1, he1⟩ := hentry i1 hi1
    apply hopts o1 ho1
    rw [← he1]
    exact mem_of_getElem?_eq_some _ _ _ hv1
  · intro i hi
    rw [prefix_select_accept_alive ctx d.id i hi, prefix_snoc_iff, halive i hi, hpos]
  · exact ⟨i1, hi1, (prefix_select_accept_alive ctx d.id i1 hi1).mpr ⟨ha1, hv1⟩⟩

theorem select_loop_total (E : Engine) (options : List (List Char))
    (hstr : ∀ o, o ∈ options → o ≠ [])
    (hopts : ∀ o, o ∈ options → ∀ t, t ∈ E.tokenize o false → E.is_eog t = false)
    (hcand : ∀ decoded o t, o ∈ options → t ∈ E.tokenize o false →
      ∃ d, d ∈ E.logits decoded ∧ d.id = t)
    (hpick : ∀ temperature n cur_p, candidates cur_p ≠ [] →
      ∃ d, d ∈ candidates cur_p ∧ E.pick temperature n cur_p = some d.id)
    (hdec : ∀ decoded t, E.decode decoded [t] = true) :
    ∀ (n : Nat) (ctx : llama_sampler_prefix_select) (g decoded : List Int) (nd : Nat),
      ctx.option_tokens = options.map (fun o => E.tokenize o false) →
      ctx.position = g.length →
      (∀ i, i < ctx.option_tokens.length →
        (ctx.active_options[i]? = some true ↔ g <+: ctx.option_tokens.getD i [])) →
      (∃ i, i < ctx.option_tokens.length ∧ ctx.active_options[i]? = some true) →
      (∀ o, o ∈ options → E.tokenize o false ≠ g) →
      n + g.length =
        (options.map (fun o => E.tokenize o false)).foldl
          (fun max_length tokens => max max_length tokens.length) 0 →
      ∃ opt d,
        select_loop E options (options.map (fun o => E.tokenize o false)) n
            ⟨[Sampler.prefix_select ctx], 0, nd⟩ decoded g
          = .done (E.tokenize opt false) opt d ∧
        opt ∈ options := by
  intro n
  induction n with
  | zero =>
    intro ctx g decoded nd hot hpos halive hsome hnomatch hfuel
    exfalso
    obtain ⟨i0, hi0, ha0⟩ := hsome
    have hpre0 := (halive i0 hi0).mp ha0
    have hmem : ctx.option_tokens.getD i0 [] ∈ options.map (fun o => E.tokenize o false) := by
      rw [← hot]; exact getD_mem _ _ _ hi0
    have hle := (max_length_ge _ 0).2 _ hmem
    obtain ⟨o, ho, he⟩ := List.mem_map.mp hmem
    apply hnomatch o ho
    rw [he]
    exact (List.IsPrefix.eq_of_length_le hpre0 (by omega)).symm
  | succ n ih =>
    intro ctx g decoded nd hot hpos halive hsome hnomatch hfuel
    obtain ⟨t, hs, heog, halive1, hsome1⟩ :=
      select_step E options hopts hcand hpick ctx g decoded nd hot hpos halive hsome hnomatch
    by_cases hm : select_match (g ++ [t])
        (options.zip (options.map (fun o => E.tokenize o false))) = []
    · have hnone : ∀ o, o ∈ options → E.tokenize o false ≠ g ++ [t] := by
        intro o ho he
        exact select_match_ne_nil (fun o => E.tokenize o false) (g ++ [t]) options hstr
          ⟨o, ho, he⟩ hm
      rw [select_loop_continue E options n _ _ decoded g t hs heog hnone (hdec decoded t)]
      exact ih (prefix_select_accept ctx t) (g ++ [t]) (decoded ++ [t]) (nd + 1) hot
        (by simp [prefix_select_accept, hpos]) halive1 hsome1 hnone
        (by rw [List.length_append, List.length_singleton]; omega)
    · obtain ⟨hmem, hf⟩ :=
        select_match_mem (fun o => E.tokenize o false) (g ++ [t]) options hm
      refine ⟨_, decoded, ?_, hmem⟩
      unfold select_loop
      simp only [hs, heog, Bool.false_eq_true, if_false]
      have hne : (select_match (g ++ [t])
          (options.zip (options.map (fun o => E.tokenize o false)))).isEmpty = false := by
        cases hsel : select_match (g ++ [t])
            (options.zip (options.map (fun o => E.tokenize o false))) with
        | nil => exact absurd hsel hm
        | cons _ _ => rfl
      simp only [hne, Bool.not_false, if_true]
      rw [hf]

/-- C4 as stated fails: with a full context window (`llama_decode` fails) and
the single two-token option "catalog", every hypothesis of C4 holds, yet
`select` throws after the first token instead of returning an option. -/
theorem select_decode_failure :
    (["catalog".toList] : List (List Char)) ≠ [] ∧
    (∀ o, o ∈ ["catalog".toList] →
      o ≠ [] ∧ example_engine_full.tokenize o false ≠ [] ∧
        ∀ t, t ∈ example_engine_full.tokenize o false → example_engine_full.is_eog t = false) ∧
    (∀ decoded o t, o ∈ ["catalog".toList] → t ∈ example_engine_full.tokenize o false →
      ∃ d, d ∈ example_engine_full.logits decoded ∧ d.id = t) ∧
    (∀ temperature n cur_p, candidates cur_p ≠ [] →
      ∃ d, d ∈ candidates cur_p ∧ example_engine_full.pick temperature n cur_p = some d.id) ∧
    LLMSession.select example_engine_full empty_session ["catalog".toList] []
      = .thrown empty_session := by
  refine ⟨by decide, ?_, ?_, ?_, by decide⟩
  · intro o ho
    rw [List.mem_singleton] at ho
    subst ho
    decide
  · intro decoded o t ho ht
    rw [List.mem_singleton] at ho
    subst ho
    have ht2 : t ∈ ([1, 2] : List Int) := ht
    simp only [List.mem_cons, List.mem_singleton, List.not_mem_nil, or_false] at ht2
    rcases ht2 with rfl | rfl
    · exact ⟨⟨1, 0, 0⟩,
        show (⟨1, 0, 0⟩ : llama_token_data) ∈ [⟨1, 0, 0⟩, ⟨2, 0, 0⟩] by decide, rfl⟩
    · exact ⟨⟨2, 0, 0⟩,
        show (⟨2, 0, 0⟩ : llama_token_data) ∈ [⟨1, 0, 0⟩, ⟨2, 0, 0⟩] by decide, rfl⟩
  · intro temperature n cur_p hne
    cases hc : candidates cur_p with
    | nil => exact absurd hc hne
    | cons d rest =>
      refine ⟨d, List.mem_cons_self _ _, ?_⟩
      show (candidates cur_p).head?.map (fun d => d.id) = some d.id
      rw [hc]; rfl

/-- C4, amended.  For a non-empty list of non-empty options whose tokenizations
are non-empty and free of end-of-sequence tokens, if the engine's candidate set
always contains every option token, the final sampler always returns a member
of a non-empty filtered candidate set, and every `llama_decode` of an emitted
token succeeds, then `select` returns a member of the option list (not the
empty string), the tokens it emitted are exactly that option's token sequence
(so it stopped within max-option-length steps), and it records the option. -/
theorem select_returns_option (E : Engine) (s : LLMSession) (options : List (List Char))
    (var_name : List Char)
    (hne : options ≠ [])
    (hopts : ∀ o, o ∈ options →
      o ≠ [] ∧ E.tokenize o false ≠ [] ∧ ∀ t, t ∈ E.tokenize o false → E.is_eog t = false)
    (hcand : ∀ decoded o t, o ∈ options → t ∈ E.tokenize o false →
      ∃ d, d ∈ E.logits decoded ∧ d.id = t)
    (hpick : ∀ temperature n cur_p, candidates cur_p ≠ [] →
      ∃ d, d ∈ candidates cur_p ∧ E.pick temperature n cur_p = some d.id)
    (hdec : ∀ decoded t, E.decode decoded [t] = true) :
    ∃ opt s1,
      LLMSession.select E s options var_name = .returned opt s1 ∧
      opt ∈ options ∧ opt ≠ [] ∧
      s1.context_tokens = s.context_tokens ++ E.tokenize opt false ∧
      s1.accumulated_text = s.accumulated_text ++ opt ∧
      (E.tokenize opt false).length ≤
        (options.map (fun o => E.tokenize o false)).foldl
          (fun max_length tokens => max max_length tokens.length) 0 := by
  have hinit_len : (llama_sampler_init_prefix_select E options).option_tokens.length
      = options.length := by
    simp [llama_sampler_init_prefix_select]
  have hpos : 0 < options.length := List.length_pos.mpr hne
  obtain ⟨opt, d, hloop, hmem⟩ :=
    select_loop_total E options (fun o ho => (hopts o ho).1) (fun o ho => (hopts o ho).2.2)
      hcand hpick hdec
      ((options.map (fun o => E.tokenize o false)).foldl
          (fun max_length tokens => max max_length tokens.length) 0)
      (llama_sampler_init_prefix_select E options) [] s.decoded 0 rfl rfl
      (fun i hi => by
        rw [hinit_len] at hi
        simp [llama_sampler_init_prefix_select, List.getElem?_replicate, hi])
      ⟨0, by rw [hinit_len]; exact hpos, by
        simp [llama_sampler_init_prefix_select, List.getElem?_replicate, hpos]⟩
      (fun o ho => (hopts o ho).2.1) (by simp)
  refine ⟨opt,
    { s with
      decoded := d
      context_tokens := s.context_tokens ++ E.tokenize opt false
      accumulated_text := s.accumulated_text ++ opt
      variable_map :=
        if !var_name.isEmpty then map_assign s.variable_map var_name opt
        else s.variable_map },
    ?_, hmem, (hopts opt hmem).1, ?_, ?_, ?_⟩
  · unfold LLMSession.select
    simp only [hloop]
  · rfl
  · rfl
  · exact (max_length_ge _ 0).2 _ (List.mem_map_of_mem _ hmem)

theorem select_returns_option_witness :
    ∃ opt s1,
      LLMSession.select example_engine empty_session ["cat".toList, "catalog".toList] []
        = .returned opt s1 ∧
      opt ∈ ["cat".toList, "catalog".toList] ∧ opt ≠ [] ∧
      s1.context_tokens = empty_session.context_tokens ++ example_engine.tokenize opt false ∧
      s1.accumulated_text = empty_session.accumulated_text ++ opt ∧
      (example_engine.tokenize opt false).length ≤
        (["cat".toList, "catalog".toList].map (fun o => example_engine.tokenize o false)).foldl
          (fun max_length tokens => max max_length tokens.length) 0 :=
  select_returns_option example_engine empty_session ["cat".toList, "catalog".toList] []
    (by decide)
    (fun o ho => by
      simp only [List.mem_cons, List.mem_singleton, List.not_mem_nil, or_false] at ho
      rcases ho with rfl | rfl <;> decide)
    (fun decoded o t ho ht => by
      have ht2 : t = 1 ∨ t = 2 := by
        simp only [List.mem_cons, List.mem_singleton, List.not_mem_nil, or_false] at ho
        rcases ho with rfl | rfl
        · have h : t ∈ ([1] : List Int) := ht
          simp at h
          exact Or.inl h
        · have h : t ∈ ([1, 2] : List Int) := ht
          simpa using h
      rcases ht2 with rfl | rfl
      · exact ⟨⟨1, 0, 0⟩,
          show (⟨1, 0, 0⟩ : llama_token_data) ∈ [⟨1, 0, 0⟩, ⟨2, 0, 0⟩] by decide, rfl⟩
      · exact ⟨⟨2, 0, 0⟩,
          show (⟨2, 0, 0⟩ : llama_token_data) ∈ [⟨1, 0, 0⟩, ⟨2, 0, 0⟩] by decide, rfl⟩)
    (fun temperature n cur_p hne => by
      cases hc : candidates cur_p with
      | nil => exact absurd hc hne
      | cons d rest =>
        refine ⟨d, List.mem_cons_self _ _, ?_⟩
        show (candidates cur_p).head?.map (fun d => d.id) = some d.id
        rw [hc]; rfl)
    (fun _ _ => rfl)

/-! ## Stop sequences in the driver -/

theorem find_occurs :
    ∀ (s needle : List Char) (pos : Nat), find s needle = some pos →
      ∃ post, s = s.take pos ++ needle ++ post := by
  intro s
  induction s with
  | nil =>
    intro needle pos h
    cases needle with
    | nil => exact ⟨[], by simp⟩
    | cons a l => simp [find] at h
  | cons c cs ih =>
    intro needle pos h
    unfold find at h
    by_cases hp : needle.isPrefixOf (c :: cs) = true
    · rw [if_pos hp] at h
      obtain ⟨post, hpost⟩ := List.isPrefixOf_iff_prefix.mp hp
      have : pos = 0 := (Option.some.inj h).symm
      subst this
      exact ⟨post, by simp [hpost]⟩
    · rw [if_neg hp] at h
      cases hq : find cs needle with
      | none => rw [hq] at h; simp at h
      | some q =>
        rw [hq] at h
        have : pos = q + 1 := by simpa using h.symm
        subst this
        obtain ⟨post, hpost⟩ := ih needle q hq
        refine ⟨post, ?_⟩
        rw [List.take_succ_cons, List.cons_append, List.cons_append, ← hpost]

theorem find_first :
    ∀ (s needle : List Char) (pos : Nat), find s needle = some pos →
      ∀ pre post, s = pre ++ needle ++ post → pos ≤ pre.length := by
  intro s
  induction s with
  | nil =>
    intro needle pos h pre post _
    cases needle with
    | nil => simp [find] at h; omega
    | cons a l => simp [find] at h
  | cons c cs ih =>
    intro needle pos h pre post hs
    unfold find at h
    by_cases hp : needle.isPrefixOf (c :: cs) = true
    · rw [if_pos hp] at h
      have : pos = 0 := (Option.some.inj h).symm
      omega
    · rw [if_neg hp] at h
      cases hq : find cs needle with
      | none => rw [hq] at h; simp at h
      | some q =>
        rw [hq] at h
        have hpos : pos = q + 1 := by simpa using h.symm
        cases pre with
        | nil =>
          exfalso
          apply hp
          rw [List.isPrefixOf_iff_prefix]
          exact ⟨post, by simpa using hs.symm⟩
        | cons a pre1 =>
          have hcs : cs = pre1 ++ needle ++ post := by
            simp only [List.cons_append, List.cons.injEq] at hs
            exact hs.2
          have := ih needle q hq pre1 post hcs
          simp only [List.length_cons]
          omega

theorem find_isSome_of_occurs :
    ∀ (s needle pre post : List Char), s = pre ++ needle ++ post →
      (find s needle).isSome = true := by
  intro s
  induction s with
  | nil =>
    intro needle pre post hs
    have : needle = [] := by
      cases needle with
      | nil => rfl
      | cons a l => cases pre <;> simp at hs
    subst this
    simp [find]
  | cons c cs ih =>
    intro needle pre post hs
    unfold find
    by_cases hp : needle.isPrefixOf (c :: cs) = true
    · rw [if_pos hp]; rfl
    · rw [if_neg hp]
      cases pre with
      | nil =>
        exfalso
        apply hp
        rw [List.isPrefixOf_iff_prefix]
        exact ⟨post, by simpa using hs.symm⟩
      | cons a pre1 =>
        have hcs : cs = pre1 ++ needle ++ post := by
          simp only [List.cons_append, List.cons.injEq] at hs
          exact hs.2
        have := ih needle pre1 post hcs
        cases hq : find cs needle with
        | none => rw [hq] at this; simp at this
        | some q => rfl

theorem infix_iff_split (needle s : List Char) :
    needle <:+: s ↔ ∃ pre post, s = pre ++ needle ++ post := by
  constructor
  · rintro ⟨pre, post, h⟩
    exact ⟨pre, post, h.symm⟩
  · rintro ⟨pre, post, h⟩
    exact ⟨pre, post, h.symm⟩

theorem check_stop_sequence_some (text : List Char) :
    ∀ (seqs : List (List Char)) (seq : List Char),
      check_stop_sequence text seqs = some seq →
      ∃ k : Nat, seqs[k]? = some seq ∧ (find text seq).isSome = true ∧
        ∀ j : Nat, j < k → ∀ s1, seqs[j]? = some s1 → ¬ s1 <:+: text := by
  intro seqs
  induction seqs with
  | nil => intro seq h; simp [check_stop_sequence] at h
  | cons a rest ih =>
    intro seq h
    unfold check_stop_sequence at h
    by_cases hf : (find text a).isSome = true
    · rw [if_pos hf] at h
      have : a = seq := Option.some.inj h
      subst this
      exact ⟨0, by simp, hf, fun j hj => by omega⟩
    · rw [if_neg hf] at h
      obtain ⟨k, hk, hfound, hfirst⟩ := ih seq h
      refine ⟨k + 1, by simpa using hk, hfound, fun j hj s1 hs1 => ?_⟩
      cases j with
      | zero =>
        simp only [List.getElem?_cons_zero, Option.some.injEq] at hs1
        subst hs1
        intro hin
        obtain ⟨pre, post, hsplit⟩ := (infix_iff_split _ _).mp hin
        exact hf (find_isSome_of_occurs text _ pre post hsplit)
      | succ j =>
        exact hfirst j (by omega) s1 (by simpa using hs1)

theorem check_stop_sequence_isSome (text : List Char) :
    ∀ (seqs : List (List Char)), (∃ seq, seq ∈ seqs ∧ seq <:+: text) →
      ∃ seq, check_stop_sequence text seqs = some seq := by
  intro seqs
  induction seqs with
  | nil => rintro ⟨seq, hmem, _⟩; cases hmem
  | cons a rest ih =>
    rintro ⟨seq, hmem, hin⟩
    unfold check_stop_sequence
    by_cases hf : (find text a).isSome = true
    · exact ⟨a, by rw [if_pos hf]⟩
    · rw [if_neg hf]
      rcases List.mem_cons.mp hmem with rfl | hmem
      · exfalso
        obtain ⟨pre, post, hsplit⟩ := (infix_iff_split _ _).mp hin
        exact hf (find_isSome_of_occurs text _ pre post hsplit)
      · exact ih ⟨seq, hmem, hin⟩

/-- C9. Stop detection and truncation in the driver.  In any iteration of the
decode loop, if the sampled token is not end-of-sequence, has a non-empty piece
and the text with that piece appended contains a registered stop sequence, then
the loop ends at that token (it is recorded but not decoded, and no further
token is sampled) with `stopped_by_sequence` set, `stop_sequence` the first
sequence in list order that occurs in the text, and `text` cut at the first
occurrence of that sequence. -/
theorem generate_stop_detection (E : Engine) (params : generate_params) (n : Nat)
    (smpl smpl1 : llama_sampler_chain) (decoded : List Int) (result : generate_result)
    (new_token : Int)
    (hs : llama_sampler_sample E smpl decoded = some (new_token, smpl1))
    (heog : E.is_eog new_token = false)
    (hpiece : E.token_to_piece new_token ≠ [])
    (hstop : ∃ seq, seq ∈ params.stop_sequences ∧
      seq <:+: result.text ++ E.token_to_piece new_token) :
    ∃ (k : Nat) (seq pre post : List Char),
      params.stop_sequences[k]? = some seq ∧
      (∀ j : Nat, j < k → ∀ s1, params.stop_sequences[j]? = some s1 →
        ¬ s1 <:+: result.text ++ E.token_to_piece new_token) ∧
      result.text ++ E.token_to_piece new_token = pre ++ seq ++ post ∧
      (∀ pre1 post1, result.text ++ E.token_to_piece new_token = pre1 ++ seq ++ post1 →
        pre.length ≤ pre1.length) ∧
      generate_loop E params (n + 1) smpl decoded result
        = some
            ({ text := pre
               tokens := result.tokens ++ [new_token]
               stopped_by_sequence := true
               stop_sequence := seq
               tokens_generated := result.tokens_generated + 1 },
              decoded, smpl1) := by
  obtain ⟨seq, hcheck⟩ := check_stop_sequence_isSome _ params.stop_sequences hstop
  obtain ⟨k, hk, hfound, hfirst⟩ := check_stop_sequence_some _ _ _ hcheck
  obtain ⟨pos, hpos⟩ := Option.isSome_iff_exists.mp hfound
  obtain ⟨post, hpost⟩ := find_occurs _ _ _ hpos
  have hle : pos ≤ (result.text ++ E.token_to_piece new_token).length := by
    have := find_first _ _ _ hpos _ _ hpost
    rw [List.length_take] at this
    omega
  refine ⟨k, seq, (result.text ++ E.token_to_piece new_token).take pos, post, hk, hfirst,
    hpost, fun pre1 post1 h1 => ?_, ?_⟩
  · rw [List.length_take, Nat.min_eq_left hle]
    exact find_first _ _ _ hpos pre1 post1 h1
  · have hlen : (E.token_to_piece new_token).length > 0 := List.length_pos.mpr hpiece
    have hnonempty : params.stop_sequences.isEmpty = false := by
      obtain ⟨s1, hmem, _⟩ := hstop
      cases hl : params.stop_sequences with
      | nil => rw [hl] at hmem; cases hmem
      | cons _ _ => rfl
    unfold generate_loop
    simp only [hs, heog, Bool.false_eq_true, if_false, hlen, if_true, hnonempty, Bool.not_false,
      hcheck, hpos]

theorem generate_stop_detection_witness :
    ∃ (k : Nat) (seq pre post : List Char),
      ["at".toList, "c".toList][k]? = some seq ∧
      (∀ j : Nat, j < k → ∀ s1, ["at".toList, "c".toList][j]? = some s1 →
        ¬ s1 <:+: [] ++ example_engine.token_to_piece 1) ∧
      [] ++ example_engine.token_to_piece 1 = pre ++ seq ++ post ∧
      (∀ pre1 post1, [] ++ example_engine.token_to_piece 1 = pre1 ++ seq ++ post1 →
        pre.length ≤ pre1.length) ∧
      generate_loop example_engine ⟨5, 0, ["at".toList, "c".toList], none⟩ (4 + 1)
          ⟨[Sampler.stop_sequence ⟨["at".toList, "c".toList], []⟩], 0, 0⟩ []
          ⟨[], [], false, [], 0⟩
        = some
            ({ text := pre
               tokens := [] ++ [1]
               stopped_by_sequence := true
               stop_sequence := seq
               tokens_generated := 0 + 1 },
              [], ⟨[Sampler.stop_sequence ⟨["at".toList, "c".toList], "cat".toList⟩], 0, 1⟩) :=
  generate_stop_detection example_engine ⟨5, 0, ["at".toList, "c".toList], none⟩ 4
    ⟨[Sampler.stop_sequence ⟨["at".toList, "c".toList], []⟩], 0, 0⟩
    ⟨[Sampler.stop_sequence ⟨["at".toList, "c".toList], "cat".toList⟩], 0, 1⟩
    [] ⟨[], [], false, [], 0⟩ 1
    (by decide) (by decide) (by decide)
    ⟨"at".toList, by decide, ⟨"c".toList, [], by decide⟩⟩

theorem generate_loop_stopped (E : Engine) (params : generate_params) :
    ∀ (n : Nat) (smpl : llama_sampler_chain) (decoded : List Int) (result r : generate_result)
      (d : List Int) (c : llama_sampler_chain),
      generate_loop E params n smpl decoded result = some (r, d, c) →
      result.stopped_by_sequence = false →
      r.stopped_by_sequence = true →
      ∃ post, ∀ pre1 post1,
        r.text ++ r.stop_sequence ++ post = pre1 ++ r.stop_sequence ++ post1 →
        r.text.length ≤ pre1.length := by
  intro n
  induction n with
  | zero =>
    intro smpl decoded result r d c h hres hr
    simp only [generate_loop, Option.some.injEq, Prod.mk.injEq] at h
    rw [← h.1, hres] at hr
    cases hr
  | succ n ih =>
    intro smpl decoded result r d c h hres hr
    unfold generate_loop at h
    cases hs : llama_sampler_sample E smpl decoded with
    | none => rw [hs] at h; simp at h
    | some ts =>
      obtain ⟨new_token, smpl1⟩ := ts
      rw [hs] at h
      simp only at h
      by_cases heog : E.is_eog new_token = true
      · rw [if_pos heog] at h
        simp only [Option.some.injEq, Prod.mk.injEq] at h
        rw [← h.1, hres] at hr
        cases hr
      · rw [if_neg heog] at h
        by_cases hlen : (E.token_to_piece new_token).length > 0
        · rw [if_pos hlen] at h
          cases hfound :
              (if (!params.stop_sequences.isEmpty) = true then
                check_stop_sequence (result.text ++ E.token_to_piece new_token)
                  params.stop_sequences
              else none) with
          | some seq =>
            rw [hfound] at h
            simp only [Option.some.injEq, Prod.mk.injEq] at h
            have hcheck : check_stop_sequence (result.text ++ E.token_to_piece new_token)
                params.stop_sequences = some seq := by
              split at hfound
              · exact hfound
              · cases hfound
            obtain ⟨k, _, hsome, _⟩ := check_stop_sequence_some _ _ _ hcheck
            obtain ⟨pos, hpos⟩ := Option.isSome_iff_exists.mp hsome
            obtain ⟨post, hpost⟩ := find_occurs _ _ _ hpos
            have hle : pos ≤ (result.text ++ E.token_to_piece new_token).length := by
              have := find_first _ _ _ hpos _ _ hpost
              rw [List.length_take] at this
              omega
            rw [hpos] at h
            refine ⟨post, fun pre1 post1 h1 => ?_⟩
            rw [← h.1] at h1 ⊢
            simp only at h1 ⊢
            rw [← hpost] at h1
            rw [List.length_take, Nat.min_eq_left hle]
            exact find_first _ _ _ hpos pre1 post1 h1
          | none =>
            rw [hfound] at h
            simp only at h
            by_cases hdec : E.decode decoded [new_token] = true
            · rw [if_pos hdec] at h
              exact ih _ _ _ r d c h hres hr
            · rw [if_neg hdec] at h
              simp only [Option.some.injEq, Prod.mk.injEq] at h
              rw [← h.1] at hr
              simp only at hr
              rw [hres] at hr
              cases hr
        · rw [if_neg hlen] at h
          exact ih _ _ _ r d c h hres hr

theorem not_infix_of_first (t s post : List Char) (hs : s ≠ [])
    (hfirst : ∀ pre1 post1, t ++ s ++ post = pre1 ++ s ++ post1 → t.length ≤ pre1.length) :
    ¬ s <:+: t := by
  intro hin
  obtain ⟨a, b, hab⟩ := (infix_iff_split _ _).mp hin
  have h1 := hfirst a (b ++ s ++ post) (by rw [hab]; simp [List.append_assoc])
  have h2 := congrArg List.length hab
  have h3 : 0 < s.length := List.length_pos.mpr hs
  simp only [List.length_append] at h2
  omega

theorem unique_occurrence (t s post : List Char)
    (hfirst : ∀ pre1 post1, t ++ s ++ post = pre1 ++ s ++ post1 → t.length ≤ pre1.length) :
    ∀ pre post1, t ++ s = pre ++ s ++ post1 → pre = t ∧ post1 = [] := by
  intro pre post1 h
  have h1 := hfirst pre (post1 ++ post) (by rw [h]; simp [List.append_assoc])
  have h2 := congrArg List.length h
  simp only [List.length_append] at h2
  have h3 : post1 = [] := List.length_eq_zero.mp (by omega)
  subst h3
  rw [List.append_nil] at h
  exact ⟨(List.append_cancel_right h).symm, rfl⟩

/-- C10. Stop sequence excluded from the result and committed exactly once.
Let the driver pass of `LLMSession::generate` stop on a non-empty stop sequence
`seq`.  If the decode of the stop sequence succeeds the call returns; and
whenever the call returns, the returned text is the driver's text and does not
contain `seq`, and the display text (`get_output`) has grown by exactly
`text ++ seq`, in which `seq` occurs exactly once, as the suffix. -/
theorem generate_stop_committed_once (E : Engine) (s : LLMSession) (max_tokens : Int)
    (stop_sequences : List (List Char)) (temperature : Int) (var_name : List Char)
    (r : generate_result) (d : List Int) (c : llama_sampler_chain) (seq : List Char)
    (hgen : generate E ⟨max_tokens, temperature, stop_sequences, none⟩ s.decoded
      = some (r, d, c))
    (hstop : r.stopped_by_sequence = true)
    (hseq : r.stop_sequence = seq)
    (hne : seq ≠ []) :
    (E.decode d (E.tokenize seq (s.context_tokens ++ r.tokens).isEmpty) = true →
      ∃ s1, LLMSession.generate E s max_tokens stop_sequences temperature var_name
        = .returned r.text s1) ∧
    (∀ text s1,
      LLMSession.generate E s max_tokens stop_sequences temperature var_name
          = .returned text s1 →
        text = r.text ∧
        ¬ seq <:+: text ∧
        s1.get_output = s.get_output ++ (text ++ seq) ∧
        ∀ pre post, text ++ seq = pre ++ seq ++ post → pre = text ∧ post = []) := by
  obtain ⟨post, hfirst⟩ := generate_loop_stopped E _ _ _ _ _ r d c hgen rfl hstop
  subst hseq
  have hcond : (r.stopped_by_sequence && !r.stop_sequence.isEmpty) = true := by
    rw [hstop]
    cases hl : r.stop_sequence with
    | nil => exact absurd hl hne
    | cons _ _ => rfl
  by_cases hdec :
      E.decode d (E.tokenize r.stop_sequence (s.context_tokens ++ r.tokens).isEmpty) = true
  · have hcall : LLMSession.generate E s max_tokens stop_sequences temperature var_name
        = .returned r.text
            { accumulated_text := s.accumulated_text ++ r.text ++ r.stop_sequence
              context_tokens :=
                s.context_tokens ++ r.tokens ++
                  E.tokenize r.stop_sequence (s.context_tokens ++ r.tokens).isEmpty
              variable_map :=
                if !var_name.isEmpty then map_assign s.variable_map var_name r.text
                else s.variable_map
              auto_cache_enabled := s.auto_cache_enabled
              cached_prompt_data := s.cached_prompt_data
              has_cached := s.has_cached
              decoded :=
                d ++ E.tokenize r.stop_sequence (s.context_tokens ++ r.tokens).isEmpty } := by
      unfold LLMSession.generate
      simp only [hgen, hcond, if_true, encode_and_eval, hdec]
    refine ⟨fun _ => ⟨_, hcall⟩, fun text s1 hret => ?_⟩
    rw [hcall] at hret
    simp only [Outcome.returned.injEq] at hret
    obtain ⟨htext, hs1⟩ := hret
    subst htext
    refine ⟨rfl, not_infix_of_first _ _ post hne hfirst, ?_, unique_occurrence _ _ post hfirst⟩
    rw [← hs1]
    simp [LLMSession.get_output, List.append_assoc]
  · refine ⟨fun h => absurd h hdec, fun text s1 hret => ?_⟩
    exfalso
    unfold LLMSession.generate at hret
    simp only [hgen, hcond, if_true, encode_and_eval, hdec, Bool.false_eq_true,
      if_false] at hret
    cases hret

theorem generate_stop_committed_once_witness :
    (example_engine.decode []
        (example_engine.tokenize "at".toList (([] : List Int) ++ [1]).isEmpty) = true →
      ∃ s1, LLMSession.generate example_engine empty_session 5 ["at".toList] 0 []
        = .returned "c".toList s1) ∧
    (∀ text s1,
      LLMSession.generate example_engine empty_session 5 ["at".toList] 0 []
          = .returned text s1 →
        text = "c".toList ∧
        ¬ "at".toList <:+: text ∧
        s1.get_output = empty_session.get_output ++ (text ++ "at".toList) ∧
        ∀ pre post, text ++ "at".toList = pre ++ "at".toList ++ post →
          pre = text ∧ post = []) :=
  generate_stop_committed_once example_engine empty_session 5 ["at".toList] 0 []
    ⟨"c".toList, [1], true, "at".toList, 1⟩ []
    ⟨[Sampler.stop_sequence ⟨["at".toList], "cat".toList⟩], 0, 1⟩ "at".toList
    (by decide) rfl rfl (by decide)

/-! ## Stop-sequence guard -/

theorem ends_with_iff (p acc : List Char) :
    (acc.length ≥ p.length ∧ (acc.drop (acc.length - p.length) == p) = true) ↔ p <:+ acc := by
  constructor
  · rintro ⟨_, h⟩
    rw [List.suffix_iff_eq_drop]
    exact (beq_iff_eq.mp h).symm
  · intro h
    refine ⟨List.IsSuffix.length_le h, ?_⟩
    rw [beq_iff_eq]
    exact (List.suffix_iff_eq_drop.mp h).symm

theorem partial_loop_hit (E : Engine) (ctx : llama_sampler_stop_sequence) (seq : List Char)
    (cur_p : llama_token_data_array) (m : Nat)
    (h1 : seq.take (m + 2) <:+ ctx.accumulated)
    (h2 : stop_sequence_allowed E (seq.drop (m + 2)) ≠ []) :
    stop_sequence_partial_loop E ctx seq cur_p (m + 2)
      = some (filter_in_place
          (fun id => (stop_sequence_allowed E (seq.drop (m + 2))).contains id) cur_p) := by
  obtain ⟨hlen, heq⟩ := (ends_with_iff _ _).mpr h1
  have hne : (stop_sequence_allowed E (seq.drop (m + 2))).isEmpty = false := by
    cases hl : stop_sequence_allowed E (seq.drop (m + 2)) with
    | nil => exact absurd hl h2
    | cons _ _ => rfl
  unfold stop_sequence_partial_loop
  simp only [hlen, heq, hne, if_true, Bool.not_false]

theorem partial_loop_miss (E : Engine) (ctx : llama_sampler_stop_sequence) (seq : List Char)
    (cur_p : llama_token_data_array) (m : Nat)
    (h : seq.take (m + 2) <:+ ctx.accumulated →
      stop_sequence_allowed E (seq.drop (m + 2)) = []) :
    stop_sequence_partial_loop E ctx seq cur_p (m + 2)
      = stop_sequence_partial_loop E ctx seq cur_p (m + 1) := by
  conv_lhs => unfold stop_sequence_partial_loop
  simp only
  by_cases hlen : ctx.accumulated.length ≥ (seq.take (m + 2)).length
  · rw [if_pos hlen]
    by_cases heq : (ctx.accumulated.drop (ctx.accumulated.length - (seq.take (m + 2)).length)
        == seq.take (m + 2)) = true
    · rw [if_pos heq, h ((ends_with_iff _ _).mp ⟨hlen, heq⟩)]
      simp
    · rw [if_neg heq]
  · rw [if_neg hlen]

theorem partial_loop_none (E : Engine) (ctx : llama_sampler_stop_sequence) (seq : List Char)
    (cur_p : llama_token_data_array) :
    ∀ m : Nat,
      (∀ k, 2 ≤ k → k ≤ m → seq.take k <:+ ctx.accumulated →
        stop_sequence_allowed E (seq.drop k) = []) →
      stop_sequence_partial_loop E ctx seq cur_p m = none := by
  intro m
  induction m with
  | zero => intro _; rfl
  | succ m ih =>
    intro h
    cases m with
    | zero => rfl
    | succ m =>
      rw [partial_loop_miss E ctx seq cur_p m (h (m + 2) (by omega) (by omega))]
      exact ih (fun k hk hkm => h k hk (by omega))

theorem partial_loop_first (E : Engine) (ctx : llama_sampler_stop_sequence) (seq : List Char)
    (cur_p : llama_token_data_array) (k : Nat) (hk : 2 ≤ k)
    (h1 : seq.take k <:+ ctx.accumulated)
    (h2 : stop_sequence_allowed E (seq.drop k) ≠ []) :
    ∀ m : Nat, k ≤ m →
      (∀ j, k < j → j ≤ m → seq.take j <:+ ctx.accumulated →
        stop_sequence_allowed E (seq.drop j) = []) →
      stop_sequence_partial_loop E ctx seq cur_p m
        = some (filter_in_place
            (fun id => (stop_sequence_allowed E (seq.drop k)).contains id) cur_p) := by
  intro m
  induction m with
  | zero => intro hkm; omega
  | succ m ih =>
    intro hkm hlonger
    cases m with
    | zero => omega
    | succ m =>
      by_cases he : k = m + 2
      · subst he
        exact partial_loop_hit E ctx seq cur_p m h1 h2
      · rw [partial_loop_miss E ctx seq cur_p m (hlonger (m + 2) (by omega) (by omega))]
        exact ih (by omega) (fun j hj hjm => hlonger j hj (by omega))

theorem partial_loop_some (E : Engine) (ctx : llama_sampler_stop_sequence) (seq : List Char)
    (cur_p : llama_token_data_array) :
    ∀ (m : Nat) (out : llama_token_data_array),
      stop_sequence_partial_loop E ctx seq cur_p m = some out →
      ∃ k, 2 ≤ k ∧ k ≤ m ∧ seq.take k <:+ ctx.accumulated ∧
        stop_sequence_allowed E (seq.drop k) ≠ [] ∧
        out = filter_in_place
          (fun id => (stop_sequence_allowed E (seq.drop k)).contains id) cur_p := by
  intro m
  induction m with
  | zero => intro out h; simp [stop_sequence_partial_loop] at h
  | succ m ih =>
    intro out h
    cases m with
    | zero => simp [stop_sequence_partial_loop] at h
    | succ m =>
      by_cases hit : seq.take (m + 2) <:+ ctx.accumulated ∧
          stop_sequence_allowed E (seq.drop (m + 2)) ≠ []
      · rw [partial_loop_hit E ctx seq cur_p m hit.1 hit.2] at h
        exact ⟨m + 2, by omega, Nat.le_refl _, hit.1, hit.2, (Option.some.inj h).symm⟩
      · rw [partial_loop_miss E ctx seq cur_p m (fun h1 => by
          by_contra h2; exact hit ⟨h1, h2⟩)] at h
        obtain ⟨k, hk, hkm, r⟩ := ih out h
        exact ⟨k, hk, by omega, r⟩

theorem seq_loop_some (E : Engine) (ctx : llama_sampler_stop_sequence)
    (cur_p : llama_token_data_array) :
    ∀ (seqs : List (List Char)) (out : llama_token_data_array),
      stop_sequence_seq_loop E ctx cur_p seqs = some out →
      ∃ s k, s ∈ seqs ∧ s.getLast? = some '>' ∧ 2 ≤ k ∧ k < s.length ∧
        s.take k <:+ ctx.accumulated ∧
        stop_sequence_allowed E (s.drop k) ≠ [] ∧
        out = filter_in_place
          (fun id => (stop_sequence_allowed E (s.drop k)).contains id) cur_p := by
  intro seqs
  induction seqs with
  | nil => intro out h; simp [stop_sequence_seq_loop] at h
  | cons a rest ih =>
    intro out h
    unfold stop_sequence_seq_loop at h
    simp only at h
    by_cases hg : (decide (a.length > 1) && (a.getLast? == some '>')) = true
    · rw [if_pos hg] at h
      cases hp : stop_sequence_partial_loop E ctx a cur_p (a.length - 1) with
      | some o =>
        rw [hp] at h
        simp only [Option.some.injEq] at h
        subst h
        obtain ⟨k, hk, hkm, h1, h2, h3⟩ := partial_loop_some E ctx a cur_p _ _ hp
        simp only [Bool.and_eq_true, decide_eq_true_eq, beq_iff_eq] at hg
        exact ⟨a, k, List.mem_cons_self _ _, hg.2, hk, by omega, h1, h2, h3⟩
      | none =>
        rw [hp] at h
        obtain ⟨s1, k, hm, r⟩ := ih out h
        exact ⟨s1, k, List.mem_cons_of_mem _ hm, r⟩
    · rw [if_neg hg] at h
      obtain ⟨s1, k, hm, r⟩ := ih out h
      exact ⟨s1, k, List.mem_cons_of_mem _ hm, r⟩

theorem seq_loop_skip (E : Engine) (ctx : llama_sampler_stop_sequence)
    (cur_p : llama_token_data_array) (a : List Char) (rest : List (List Char))
    (h : a.getLast? = some '>' → ∀ k, 2 ≤ k → k < a.length →
      a.take k <:+ ctx.accumulated → stop_sequence_allowed E (a.drop k) = []) :
    stop_sequence_seq_loop E ctx cur_p (a :: rest) = stop_sequence_seq_loop E ctx cur_p rest := by
  conv_lhs => unfold stop_sequence_seq_loop
  simp only
  by_cases hg : (decide (a.length > 1) && (a.getLast? == some '>')) = true
  · rw [if_pos hg]
    simp only [Bool.and_eq_true, decide_eq_true_eq, beq_iff_eq] at hg
    rw [partial_loop_none E ctx a cur_p (a.length - 1)
      (fun k hk hkm => h hg.2 k hk (by omega))]
  · rw [if_neg hg]

theorem seq_loop_none (E : Engine) (ctx : llama_sampler_stop_sequence)
    (cur_p : llama_token_data_array) :
    ∀ seqs : List (List Char),
      (∀ s, s ∈ seqs → s.getLast? = some '>' → ∀ k, 2 ≤ k → k < s.length →
        s.take k <:+ ctx.accumulated → stop_sequence_allowed E (s.drop k) = []) →
      stop_sequence_seq_loop E ctx cur_p seqs = none := by
  intro seqs
  induction seqs with
  | nil => intro _; rfl
  | cons a rest ih =>
    intro h
    rw [seq_loop_skip E ctx cur_p a rest (h a (List.mem_cons_self _ _))]
    exact ih (fun s1 hs1 => h s1 (List.mem_cons_of_mem _ hs1))

theorem seq_loop_first (E : Engine) (ctx : llama_sampler_stop_sequence)
    (cur_p : llama_token_data_array) (s : List Char) (post : List (List Char)) (k : Nat)
    (hlast : s.getLast? = some '>') (hk : 2 ≤ k) (hk2 : k < s.length)
    (hpend : s.take k <:+ ctx.accumulated)
    (hallowed : stop_sequence_allowed E (s.drop k) ≠ [])
    (hlonger : ∀ j, k < j → j < s.length → s.take j <:+ ctx.accumulated →
      stop_sequence_allowed E (s.drop j) = []) :
    ∀ pre : List (List Char),
      (∀ s1, s1 ∈ pre → s1.getLast? = some '>' → ∀ j, 2 ≤ j → j < s1.length →
        s1.take j <:+ ctx.accumulated → stop_sequence_allowed E (s1.drop j) = []) →
      stop_sequence_seq_loop E ctx cur_p (pre ++ s :: post)
        = some (filter_in_place
            (fun id => (stop_sequence_allowed E (s.drop k)).contains id) cur_p) := by
  intro pre
  induction pre with
  | nil =>
    intro _
    rw [List.nil_append]
    unfold stop_sequence_seq_loop
    have hg : (decide (s.length > 1) && (s.getLast? == some '>')) = true := by
      simp only [Bool.and_eq_true, decide_eq_true_eq, beq_iff_eq]
      exact ⟨by omega, hlast⟩
    simp only [hg, if_true]
    rw [partial_loop_first E ctx s cur_p k hk hpend hallowed (s.length - 1) (by omega)
      (fun j hj hjm => hlonger j hj (by omega))]
  | cons a rest ih =>
    intro h
    rw [List.cons_append, seq_loop_skip E ctx cur_p a _ (h a (List.mem_cons_self _ _))]
    exact ih (fun s1 hs1 => h s1 (List.mem_cons_of_mem _ hs1))

theorem mem_stop_sequence_allowed (E : Engine) (remaining : List Char) (t : Int) :
    t ∈ stop_sequence_allowed E remaining ↔
      ∃ i, 1 ≤ i ∧ i ≤ remaining.length ∧
        (E.tokenize (remaining.take i) false).head? = some t := by
  unfold stop_sequence_allowed
  have hfold : ∀ (l : List Nat) (acc : List Int),
      t ∈ l.foldl
          (fun allowed_tokens i =>
            match E.tokenize (remaining.take i) false with
            | token :: _ => allowed_tokens.insert token
            | [] => allowed_tokens)
          acc
        ↔ t ∈ acc ∨ ∃ i, i ∈ l ∧ (E.tokenize (remaining.take i) false).head? = some t := by
    intro l
    induction l with
    | nil => intro acc; simp
    | cons a l ih =>
      intro acc
      rw [List.foldl_cons, ih]
      cases htk : E.tokenize (remaining.take a) false with
      | nil =>
        simp only [List.mem_cons]
        constructor
        · rintro (h | ⟨i, hi, h⟩)
          · exact Or.inl h
          · exact Or.inr ⟨i, Or.inr hi, h⟩
        · rintro (h | ⟨i, (rfl | hi), h⟩)
          · exact Or.inl h
          · rw [htk] at h; cases h
          · exact Or.inr ⟨i, hi, h⟩
      | cons tok rest =>
        simp only [List.mem_insert_iff, List.mem_cons]
        constructor
        · rintro ((h | h) | ⟨i, hi, h⟩)
          · exact Or.inr ⟨a, Or.inl rfl, by rw [htk, h]; rfl⟩
          · exact Or.inl h
          · exact Or.inr ⟨i, Or.inr hi, h⟩
        · rintro (h | ⟨i, (rfl | hi), h⟩)
          · exact Or.inl (Or.inr h)
          · rw [htk] at h
            exact Or.inl (Or.inl (Option.some.inj h).symm)
          · exact Or.inr ⟨i, hi, h⟩
  rw [hfold]
  simp only [List.not_mem_nil, false_or, List.mem_range'_1]
  constructor
  · rintro ⟨i, ⟨h1, h2⟩, h⟩
    exact ⟨i, h1, by omega, h⟩
  · rintro ⟨i, h1, h2, h⟩
    exact ⟨i, ⟨h1, by omega⟩, h⟩

/-- C11 as stated fails: the registered stop string "abcd" does not end in `>`;
the accumulated text "ab" ends with its first two characters and the candidate
`c` begins the remaining "cd", yet the guard removes nothing: the candidate `x`,
which does not continue "abcd", is still there. -/
theorem stop_guard_ignores_plain_strings :
    "abcd".toList ∈ (⟨["abcd".toList], "ab".toList⟩ : llama_sampler_stop_sequence).stop_sequences ∧
    "abcd".toList.take 2 <:+
      (⟨["abcd".toList], "ab".toList⟩ : llama_sampler_stop_sequence).accumulated ∧
    (∃ d, d ∈ candidates ⟨[⟨99, 0, 0⟩, ⟨120, 0, 0⟩], 2, true⟩ ∧
      char_engine.token_to_piece d.id <+: "abcd".toList.drop 2) ∧
    stop_sequence_apply char_engine ⟨["abcd".toList], "ab".toList⟩
        ⟨[⟨99, 0, 0⟩, ⟨120, 0, 0⟩], 2, true⟩
      = ⟨[⟨99, 0, 0⟩, ⟨120, 0, 0⟩], 2, true⟩ ∧
    ¬ char_engine.token_to_piece 120 <+: "abcd".toList.drop 2 := by
  refine ⟨by decide, by decide, ⟨⟨99, 0, 0⟩, by decide, by decide⟩, by decide, by decide⟩

/-- C11, amended.  Let `s` be a registered stop string ending in `>` and
`2 ≤ k < |s|`, let the accumulated text end with the first `k` characters of
`s`, and let the tokenizer give a first token for at least one non-empty prefix
of the remaining suffix `s[k..]` (the allowed set is non-empty).  If no
registered string before `s` in list order and no longer partial length of `s`
is pending with a non-empty allowed set, then `apply` keeps exactly the
candidates whose id is in the allowed set of `s[k..]`, in their order, and
clears the sorted flag; the allowed set consists of the first tokens of the
tokenizations of the non-empty prefixes of `s[k..]`. -/
theorem stop_sequence_apply_trigger (E : Engine) (ctx : llama_sampler_stop_sequence)
    (cur_p : llama_token_data_array) (pre post : List (List Char)) (s : List Char) (k : Nat)
    (hlist : ctx.stop_sequences = pre ++ s :: post)
    (hlast : s.getLast? = some '>')
    (hk : 2 ≤ k) (hk2 : k < s.length)
    (hpend : s.take k <:+ ctx.accumulated)
    (hallowed : stop_sequence_allowed E (s.drop k) ≠ [])
    (hlonger : ∀ j, k < j → j < s.length → s.take j <:+ ctx.accumulated →
      stop_sequence_allowed E (s.drop j) = [])
    (hearlier : ∀ s1, s1 ∈ pre → s1.getLast? = some '>' → ∀ j, 2 ≤ j → j < s1.length →
      s1.take j <:+ ctx.accumulated → stop_sequence_allowed E (s1.drop j) = []) :
    candidates (stop_sequence_apply E ctx cur_p)
      = (candidates cur_p).filter
          (fun d => decide (d.id ∈ stop_sequence_allowed E (s.drop k))) ∧
    (stop_sequence_apply E ctx cur_p).sorted = false ∧
    ∀ t, t ∈ stop_sequence_allowed E (s.drop k) ↔
      ∃ i, 1 ≤ i ∧ i ≤ (s.drop k).length ∧
        (E.tokenize ((s.drop k).take i) false).head? = some t := by
  have happly : stop_sequence_apply E ctx cur_p
      = filter_in_place (fun id => (stop_sequence_allowed E (s.drop k)).contains id) cur_p := by
    unfold stop_sequence_apply
    rw [hlist, seq_loop_first E ctx cur_p s post k hlast hk hk2 hpend hallowed hlonger pre
      hearlier]
    rfl
  refine ⟨?_, ?_, mem_stop_sequence_allowed E (s.drop k)⟩
  · rw [happly, candidates_filter_in_place]
    apply List.filter_congr
    intro d _
    simp
  · rw [happly]
    rfl

theorem stop_sequence_apply_trigger_witness :
    candidates (stop_sequence_apply char_engine ⟨["ab>".toList], "ab".toList⟩
        ⟨[⟨120, 0, 0⟩, ⟨62, 0, 0⟩], 2, true⟩)
      = [⟨62, 0, 0⟩] := by
  rw [(stop_sequence_apply_trigger char_engine ⟨["ab>".toList], "ab".toList⟩
    ⟨[⟨120, 0, 0⟩, ⟨62, 0, 0⟩], 2, true⟩ [] [] "ab>".toList 2 rfl (by decide) (by decide)
    (by decide) (by decide) (by decide)
    (fun j h1 h2 => by simp at h2; omega)
    (fun s1 hs1 => by cases hs1)).1]
  decide

/-- C12 as stated fails: the partial marker "ab" of "ab>" is pending, the only
candidate `x` does not continue it, and the guard empties the candidate set
instead of leaving it unfiltered. -/
theorem stop_guard_can_empty :
    candidates ⟨[⟨120, 0, 0⟩], 1, true⟩ ≠ [] ∧
    "ab>".toList.take 2 <:+ "ab".toList ∧
    candidates (stop_sequence_apply char_engine ⟨["ab>".toList], "ab".toList⟩
        ⟨[⟨120, 0, 0⟩], 1, true⟩) = [] := by
  refine ⟨by decide, by decide, by decide⟩

theorem stop_sequence_apply_cases (E : Engine) (ctx : llama_sampler_stop_sequence)
    (cur_p : llama_token_data_array) :
    stop_sequence_apply E ctx cur_p = cur_p ∨
    ∃ s k, s ∈ ctx.stop_sequences ∧ s.getLast? = some '>' ∧ 2 ≤ k ∧ k < s.length ∧
      s.take k <:+ ctx.accumulated ∧
      stop_sequence_allowed E (s.drop k) ≠ [] ∧
      stop_sequence_apply E ctx cur_p = filter_in_place
        (fun id => (stop_sequence_allowed E (s.drop k)).contains id) cur_p := by
  unfold stop_sequence_apply
  cases h : stop_sequence_seq_loop E ctx cur_p ctx.stop_sequences with
  | none => exact Or.inl rfl
  | some out =>
    obtain ⟨s1, k, hm, hl, hk, hk2, hp, ha, ho⟩ := seq_loop_some E ctx cur_p _ _ h
    exact Or.inr ⟨s1, k, hm, hl, hk, hk2, hp, ha, by rw [ho]; rfl⟩

/-- C12, amended.  The guard returns a non-empty candidate list for every
non-empty candidate list which, for each pending partial marker with a
non-empty allowed set, holds at least one allowed token; and when every pending
partial marker (of a registered string ending in `>`) has an empty allowed set,
the candidate set is returned unchanged. -/
theorem stop_sequence_apply_nonempty (E : Engine) (ctx : llama_sampler_stop_sequence)
    (cur_p : llama_token_data_array) :
    ((∀ s, s ∈ ctx.stop_sequences → s.getLast? = some '>' → ∀ k, 2 ≤ k → k < s.length →
        s.take k <:+ ctx.accumulated →
        stop_sequence_allowed E (s.drop k) ≠ [] →
        ∃ d, d ∈ candidates cur_p ∧ d.id ∈ stop_sequence_allowed E (s.drop k)) →
      candidates cur_p ≠ [] →
      candidates (stop_sequence_apply E ctx cur_p) ≠ []) ∧
    ((∀ s, s ∈ ctx.stop_sequences → s.getLast? = some '>' → ∀ k, 2 ≤ k → k < s.length →
        s.take k <:+ ctx.accumulated → stop_sequence_allowed E (s.drop k) = []) →
      stop_sequence_apply E ctx cur_p = cur_p) := by
  constructor
  · intro hcover hne
    rcases stop_sequence_apply_cases E ctx cur_p with h | ⟨s1, k, hm, hl, hk, hk2, hp, ha, ho⟩
    · rw [h]; exact hne
    · obtain ⟨d, hd, hda⟩ := hcover s1 hm hl k hk hk2 hp ha
      rw [ho, candidates_filter_in_place]
      apply List.ne_nil_of_mem (a := d)
      rw [List.mem_filter]
      exact ⟨hd, by simpa using hda⟩
  · intro hnone
    unfold stop_sequence_apply
    rw [seq_loop_none E ctx cur_p _ hnone]
    rfl

theorem stop_sequence_apply_nonempty_witness :
    candidates (stop_sequence_apply char_engine ⟨["ab>".toList], "ab".toList⟩
        ⟨[⟨120, 0, 0⟩, ⟨62, 0, 0⟩], 2, true⟩) ≠ [] :=
  (stop_sequence_apply_nonempty char_engine ⟨["ab>".toList], "ab".toList⟩
      ⟨[⟨120, 0, 0⟩, ⟨62, 0, 0⟩], 2, true⟩).1
    (fun s hs _ k hk hk2 _ _ => by
      rw [List.mem_singleton] at hs
      subst hs
      have hk3 : k = 2 := by
        have : "ab>".toList.length = 3 := rfl
        omega
      subst hk3
      exact ⟨⟨62, 0, 0⟩, by decide, by decide⟩)
    (by decide)

/-! ## Token filter and the candidate-set invariant -/

/-- C18. Token filter.  `apply` returns exactly the candidates (whole entries:
id and scores) whose id is in the configured set in allow mode, or is not in it
in deny mode, in their original order; when no candidate qualifies the result
is empty. -/
theorem token_filter_apply_spec (ctx : llama_sampler_token_filter)
    (cur_p : llama_token_data_array) :
    candidates (token_filter_apply ctx cur_p)
      = (candidates cur_p).filter (fun d =>
          if ctx.is_allowlist then decide (d.id ∈ ctx.token_set)
          else decide (d.id ∉ ctx.token_set)) ∧
    ((∀ d, d ∈ candidates cur_p →
        ¬ (if ctx.is_allowlist then d.id ∈ ctx.token_set else d.id ∉ ctx.token_set)) →
      candidates (token_filter_apply ctx cur_p) = []) := by
  have heq : candidates (token_filter_apply ctx cur_p)
      = (candidates cur_p).filter (fun d =>
          if ctx.is_allowlist then decide (d.id ∈ ctx.token_set)
          else decide (d.id ∉ ctx.token_set)) := by
    unfold token_filter_apply
    by_cases ha : ctx.is_allowlist = true
    · simp only [ha, if_true]
      rw [candidates_filter_in_place]
      apply List.filter_congr
      intro d _
      simp
    · have ha2 : ctx.is_allowlist = false := by simpa using ha
      simp only [ha2, Bool.false_eq_true, if_false]
      rw [candidates_filter_in_place]
      apply List.filter_congr
      intro d _
      simp
  refine ⟨heq, fun hnone => ?_⟩
  rw [heq, List.filter_eq_nil_iff]
  intro d hd
  have := hnone d hd
  by_cases ha : ctx.is_allowlist = true
  · simp only [ha, if_true] at this ⊢
    simpa using this
  · have ha2 : ctx.is_allowlist = false := by simpa using ha
    simp only [ha2, Bool.false_eq_true, if_false] at this ⊢
    simpa using this

theorem token_filter_apply_spec_witness :
    candidates (token_filter_apply ⟨[7, 9], false⟩ ⟨[⟨7, 1, 2⟩, ⟨9, 3, 4⟩], 2, true⟩) = [] :=
  (token_filter_apply_spec ⟨[7, 9], false⟩ ⟨[⟨7, 1, 2⟩, ⟨9, 3, 4⟩], 2, true⟩).2 (by decide)

theorem filter_in_place_invariant (keep : Int → Bool) (cur_p : llama_token_data_array) :
    (candidates (filter_in_place keep cur_p)).Sublist (candidates cur_p) ∧
    (filter_in_place keep cur_p).sorted = false := by
  refine ⟨?_, rfl⟩
  rw [candidates_filter_in_place]
  exact List.filter_sublist _

/-- C19. Candidate-set invariant for the four filters (token filter,
prefix-select, pattern, stop guard): the candidates after `apply` are a sublist
of the candidates before (entries unchanged, order kept), and whenever `apply`
removes a candidate the sorted flag is false afterwards. -/
theorem apply_candidate_invariant (E : Engine) (cur_p : llama_token_data_array) :
    (∀ ctx : llama_sampler_token_filter,
      (candidates (token_filter_apply ctx cur_p)).Sublist (candidates cur_p) ∧
      (candidates (token_filter_apply ctx cur_p) ≠ candidates cur_p →
        (token_filter_apply ctx cur_p).sorted = false)) ∧
    (∀ ctx : llama_sampler_prefix_select,
      (candidates (prefix_select_apply ctx cur_p)).Sublist (candidates cur_p) ∧
      (candidates (prefix_select_apply ctx cur_p) ≠ candidates cur_p →
        (prefix_select_apply ctx cur_p).sorted = false)) ∧
    (∀ ctx : llama_sampler_pattern,
      (candidates (pattern_apply E ctx cur_p)).Sublist (candidates cur_p) ∧
      (candidates (pattern_apply E ctx cur_p) ≠ candidates cur_p →
        (pattern_apply E ctx cur_p).sorted = false)) ∧
    (∀ ctx : llama_sampler_stop_sequence,
      (candidates (stop_sequence_apply E ctx cur_p)).Sublist (candidates cur_p) ∧
      (candidates (stop_sequence_apply E ctx cur_p) ≠ candidates cur_p →
        (stop_sequence_apply E ctx cur_p).sorted = false)) := by
  refine ⟨fun ctx => ?_, fun ctx => ?_, fun ctx => ?_, fun ctx => ?_⟩
  · unfold token_filter_apply
    split
    · exact ⟨(filter_in_place_invariant _ cur_p).1, fun _ => rfl⟩
    · exact ⟨(filter_in_place_invariant _ cur_p).1, fun _ => rfl⟩
  · unfold prefix_select_apply
    simp only
    split
    · exact ⟨List.Sublist.refl _, fun h => absurd rfl h⟩
    · exact ⟨(filter_in_place_invariant _ cur_p).1, fun _ => rfl⟩
  · unfold pattern_apply
    exact ⟨(filter_in_place_invariant _ cur_p).1, fun _ => rfl⟩
  · rcases stop_sequence_apply_cases E ctx cur_p with h | ⟨s1, k, _, _, _, _, _, _, ho⟩
    · rw [h]
      exact ⟨List.Sublist.refl _, fun h => absurd rfl h⟩
    · rw [ho]
      exact ⟨(filter_in_place_invariant _ cur_p).1, fun _ => rfl⟩

theorem apply_candidate_invariant_witness :
    (token_filter_apply ⟨[7], true⟩ ⟨[⟨7, 1, 2⟩, ⟨9, 3, 4⟩], 2, true⟩).sorted = false :=
  ((apply_candidate_invariant example_engine ⟨[⟨7, 1, 2⟩, ⟨9, 3, 4⟩], 2, true⟩).1
    ⟨[7], true⟩).2 (by decide)

/-! ## Prefix-select: state invariant along operation sequences -/

theorem prefix_select_accept_once_dead (ctx : llama_sampler_prefix_select) (t : Int) (i : Nat) :
    ((prefix_select_accept ctx t).active_options[i]? = some true →
      ctx.active_options[i]? = some true) ∧
    (prefix_select_accept ctx t).active_options.length = ctx.active_options.length := by
  constructor
  · intro h
    unfold prefix_select_accept at h
    simp only at h
    rw [accept_fold_alive] at h
    exact h.1
  · exact accept_fold_length ctx t _ _

theorem prefix_select_run_facts :
    ∀ (ops : List prefix_select_op) (ctx : llama_sampler_prefix_select),
      (prefix_select_run ctx ops).position
        = ctx.position + ops.countP (fun op =>
            match op with
            | .accept _ => true
            | .apply _ => false) ∧
      (prefix_select_run ctx ops).option_tokens = ctx.option_tokens ∧
      (prefix_select_run ctx ops).active_options.length = ctx.active_options.length ∧
      ∀ i : Nat, (prefix_select_run ctx ops).active_options[i]? = some true →
        ctx.active_options[i]? = some true := by
  intro ops
  induction ops with
  | nil => intro ctx; simp [prefix_select_run]
  | cons op ops ih =>
    intro ctx
    cases op with
    | apply cur_p =>
      obtain ⟨h1, h2, h3, h4⟩ := ih ctx
      refine ⟨?_, h2, h3, h4⟩
      rw [prefix_select_run, h1, List.countP_cons_of_neg]
      simp
    | accept token =>
      obtain ⟨h1, h2, h3, h4⟩ := ih (prefix_select_accept ctx token)
      refine ⟨?_, ?_, ?_, fun i hi => ?_⟩
      · rw [prefix_select_run, h1, List.countP_cons_of_pos]
        · show ctx.position + 1 + _ = _
          omega
        · rfl
      · rw [prefix_select_run, h2]; rfl
      · rw [prefix_select_run, h3]
        exact (prefix_select_accept_once_dead ctx token 0).2
      · rw [prefix_select_run] at hi
        exact (prefix_select_accept_once_dead ctx token i).1 (h4 i hi)

theorem prefix_select_run_append :
    ∀ (ops1 ops2 : List prefix_select_op) (ctx : llama_sampler_prefix_select),
      prefix_select_run ctx (ops1 ++ ops2)
        = prefix_select_run (prefix_select_run ctx ops1) ops2 := by
  intro ops1
  induction ops1 with
  | nil => intro ops2 ctx; rfl
  | cons op ops ih =>
    intro ops2 ctx
    cases op with
    | apply cur_p => rw [List.cons_append, prefix_select_run, prefix_select_run, ih]
    | accept token => rw [List.cons_append, prefix_select_run, prefix_select_run, ih]

/-- C20. Prefix-select state invariant.  Along any sequence of `apply` and
`accept` calls (no reset), going from the state after `ops1` to the state after
`ops1 ++ ops2`: the position does not decrease (it grows by the number of
accepts in `ops2`; one accept adds one, an apply adds nothing), an option whose
alive flag is false stays false, and the tokenized options are unchanged. -/
theorem prefix_select_state_invariant (ctx : llama_sampler_prefix_select)
    (ops1 ops2 : List prefix_select_op) :
    (prefix_select_run ctx ops1).position ≤ (prefix_select_run ctx (ops1 ++ ops2)).position ∧
    (prefix_select_run ctx (ops1 ++ ops2)).position
      = (prefix_select_run ctx ops1).position + ops2.countP (fun op =>
          match op with
          | .accept _ => true
          | .apply _ => false) ∧
    (∀ cur_p, (prefix_select_run ctx (ops1 ++ [.apply cur_p])).position
      = (prefix_select_run ctx ops1).position) ∧
    (∀ token, (prefix_select_run ctx (ops1 ++ [.accept token])).position
      = (prefix_select_run ctx ops1).position + 1) ∧
    (∀ i : Nat, (prefix_select_run ctx ops1).active_options[i]? = some false →
      (prefix_select_run ctx (ops1 ++ ops2)).active_options[i]? = some false) ∧
    (prefix_select_run ctx (ops1 ++ ops2)).option_tokens = ctx.option_tokens := by
  have hrun := prefix_select_run_facts ops2 (prefix_select_run ctx ops1)
  rw [← prefix_select_run_append] at hrun
  obtain ⟨h1, h2, h3, h4⟩ := hrun
  refine ⟨by omega, h1, fun cur_p => ?_, fun token => ?_, fun i hi => ?_, ?_⟩
  · rw [prefix_select_run_append]; rfl
  · rw [prefix_select_run_append]; rfl
  · have hlt : i < (prefix_select_run ctx ops1).active_options.length := by
      by_contra hge
      rw [List.getElem?_eq_none (Nat.le_of_not_lt hge)] at hi
      cases hi
    have hlt2 : i < (prefix_select_run ctx (ops1 ++ ops2)).active_options.length := by
      rw [h3]; exact hlt
    cases hb : (prefix_select_run ctx (ops1 ++ ops2)).active_options[i]? with
    | none =>
      rw [List.getElem?_eq_getElem hlt2] at hb
      cases hb
    | some b =>
      cases b with
      | false => rfl
      | true =>
        have := h4 i hb
        rw [hi] at this
        cases this
  · rw [h2]
    exact (prefix_select_run_facts ops1 ctx).2.1

theorem prefix_select_state_invariant_witness :
    (prefix_select_run ⟨[[1, 2], [3]], [true, true], 0⟩
        ([.accept 1] ++ [.apply ⟨[], 0, true⟩, .accept 3])).active_options[1]? = some false :=
  (prefix_select_state_invariant ⟨[[1, 2], [3]], [true, true], 0⟩
      [.accept 1] [.apply ⟨[], 0, true⟩, .accept 3]).2.2.2.2.1 1 (by decide)

/-! ## Auto-completion of a partial stop sequence -/

theorem scan_test_iff (text seq : List Char) (i : Nat) (hi : i + 1 ≤ seq.length) :
    (text.length ≥ i + 1 ∧ (text.drop (text.length - (i + 1)) == seq.take (i + 1)) = true)
      ↔ seq.take (i + 1) <:+ text := by
  have hlen : (seq.take (i + 1)).length = i + 1 := by
    rw [List.length_take]; omega
  have := ends_with_iff (seq.take (i + 1)) text
  rw [hlen] at this
  exact this

theorem scan_hit (text seq : List Char) (i : Nat) (hi : i + 1 ≤ seq.length)
    (h : seq.take (i + 1) <:+ text) :
    auto_complete_scan text seq (i + 1) = some (seq.drop (i + 1)) := by
  obtain ⟨h1, h2⟩ := (scan_test_iff text seq i hi).mpr h
  unfold auto_complete_scan
  simp only [h1, h2, if_true]

theorem scan_miss (text seq : List Char) (i : Nat) (hi : i + 1 ≤ seq.length)
    (h : ¬ seq.take (i + 1) <:+ text) :
    auto_complete_scan text seq (i + 1) = auto_complete_scan text seq i := by
  conv_lhs => unfold auto_complete_scan
  simp only
  by_cases h1 : text.length ≥ i + 1
  · rw [if_pos h1]
    by_cases h2 : (text.drop (text.length - (i + 1)) == seq.take (i + 1)) = true
    · exact absurd ((scan_test_iff text seq i hi).mp ⟨h1, h2⟩) h
    · rw [if_neg h2]
  · rw [if_neg h1]

theorem scan_some (text seq : List Char) :
    ∀ (m : Nat) (rem : List Char), m ≤ seq.length →
      auto_complete_scan text seq m = some rem →
      ∃ i, 1 ≤ i ∧ i ≤ m ∧ seq.take i <:+ text ∧ rem = seq.drop i ∧
        ∀ j, i < j → j ≤ m → ¬ seq.take j <:+ text := by
  intro m
  induction m with
  | zero => intro rem _ h; simp [auto_complete_scan] at h
  | succ m ih =>
    intro rem hm h
    by_cases hit : seq.take (m + 1) <:+ text
    · rw [scan_hit text seq m hm hit] at h
      exact ⟨m + 1, by omega, Nat.le_refl _, hit, (Option.some.inj h).symm,
        fun j h1 h2 => by omega⟩
    · rw [scan_miss text seq m hm hit] at h
      obtain ⟨i, h1, h2, h3, h4, h5⟩ := ih rem (by omega) h
      refine ⟨i, h1, by omega, h3, h4, fun j hj hjm => ?_⟩
      by_cases he : j = m + 1
      · subst he; exact hit
      · exact h5 j hj (by omega)

theorem scan_none (text seq : List Char) :
    ∀ (m : Nat), m ≤ seq.length →
      auto_complete_scan text seq m = none →
      ∀ i, 1 ≤ i → i ≤ m → ¬ seq.take i <:+ text := by
  intro m
  induction m with
  | zero => intro _ _ i h1 h2; omega
  | succ m ih =>
    intro hm h i h1 h2
    by_cases hit : seq.take (m + 1) <:+ text
    · rw [scan_hit text seq m hm hit] at h
      cases h
    · rw [scan_miss text seq m hm hit] at h
      by_cases he : i = m + 1
      · subst he; exact hit
      · exact ih (by omega) h i h1 (by omega)

theorem auto_complete_remainder_some (text : List Char) :
    ∀ (seqs : List (List Char)) (rem : List Char),
      auto_complete_remainder text seqs = some rem →
      ∃ (k : Nat) (seq : List Char) (i : Nat),
        seqs[k]? = some seq ∧ 1 ≤ i ∧ i < seq.length ∧ seq.take i <:+ text ∧
        rem = seq.drop i ∧
        (∀ j, i < j → j < seq.length → ¬ seq.take j <:+ text) ∧
        ∀ k1 : Nat, k1 < k → ∀ seq1, seqs[k1]? = some seq1 →
          ∀ j, 1 ≤ j → j < seq1.length → ¬ seq1.take j <:+ text := by
  intro seqs
  induction seqs with
  | nil => intro rem h; simp [auto_complete_remainder] at h
  | cons a rest ih =>
    intro rem h
    unfold auto_complete_remainder at h
    cases hs : auto_complete_scan text a (a.length - 1) with
    | some r =>
      rw [hs] at h
      simp only [Option.some.injEq] at h
      subst h
      obtain ⟨i, h1, h2, h3, h4, h5⟩ := scan_some text a _ _ (by omega) hs
      exact ⟨0, a, i, by simp, h1, by omega, h3, h4, fun j hj hjl => h5 j hj (by omega),
        fun k1 hk1 => by omega⟩
    | none =>
      rw [hs] at h
      obtain ⟨k, seq, i, hk, h1, h2, h3, h4, h5, h6⟩ := ih rem h
      refine ⟨k + 1, seq, i, by simpa using hk, h1, h2, h3, h4, h5, fun k1 hk1 seq1 hseq1 => ?_⟩
      cases k1 with
      | zero =>
        simp only [List.getElem?_cons_zero, Option.some.injEq] at hseq1
        subst hseq1
        intro j hj hjl
        exact scan_none text _ _ (by omega) hs j hj (by omega)
      | succ k1 => exact h6 k1 (by omega) seq1 (by simpa using hseq1)

theorem auto_complete_remainder_isSome (text : List Char) :
    ∀ (seqs : List (List Char)),
      (∃ seq i, seq ∈ seqs ∧ 1 ≤ i ∧ i < seq.length ∧ seq.take i <:+ text) →
      ∃ rem, auto_complete_remainder text seqs = some rem := by
  intro seqs
  induction seqs with
  | nil => rintro ⟨seq, i, hm, _⟩; cases hm
  | cons a rest ih =>
    rintro ⟨seq, i, hm, h1, h2, h3⟩
    unfold auto_complete_remainder
    cases hs : auto_complete_scan text a (a.length - 1) with
    | some r => exact ⟨r, rfl⟩
    | none =>
      simp only
      rcases List.mem_cons.mp hm with rfl | hm
      · exact absurd h3 (scan_none text _ _ (by omega) hs i h1 (by omega))
      · exact ih ⟨seq, i, hm, h1, h2, h3⟩

/-- C14 as stated fails: with the registered sequences "/x" and "</think>" and
a result text ending in "</", the scan completes the one-character marker "/"
of the first sequence (remainder "x"), although "</" is a longer suffix of the
text that is a proper prefix of a registered sequence. -/
theorem auto_complete_prefers_list_order :
    auto_complete_remainder "ab</".toList ["/x".toList, "</think>".toList]
      = some ("/x".toList.drop 1) ∧
    "</think>".toList.take 2 <:+ "ab</".toList ∧
    ("/x".toList.take 1).length < ("</think>".toList.take 2).length := by
  refine ⟨by decide, by decide, by decide⟩

/-- C14, amended.  The partial marker that is completed belongs to the first
registered stop sequence, in list order, that has any partial match (a
non-empty proper prefix of it that is a suffix of the result text), and is the
longest such prefix of that sequence; a remainder is produced whenever some
registered sequence has a partial match. -/
theorem auto_complete_longest_of_first (text : List Char) (seqs : List (List Char)) :
    (∀ rem, auto_complete_remainder text seqs = some rem →
      ∃ (k : Nat) (seq : List Char) (i : Nat),
        seqs[k]? = some seq ∧ 1 ≤ i ∧ i < seq.length ∧ seq.take i <:+ text ∧
        rem = seq.drop i ∧
        (∀ j, i < j → j < seq.length → ¬ seq.take j <:+ text) ∧
        ∀ k1 : Nat, k1 < k → ∀ seq1, seqs[k1]? = some seq1 →
          ∀ j, 1 ≤ j → j < seq1.length → ¬ seq1.take j <:+ text) ∧
    ((∃ seq i, seq ∈ seqs ∧ 1 ≤ i ∧ i < seq.length ∧ seq.take i <:+ text) →
      ∃ rem, auto_complete_remainder text seqs = some rem) := by
  constructor
  · intro rem h
    exact auto_complete_remainder_some text seqs rem h
  · intro h
    exact auto_complete_remainder_isSome text seqs h

theorem auto_complete_longest_of_first_witness :
    ∃ rem, auto_complete_remainder "ab</thi".toList ["</think>".toList] = some rem :=
  (auto_complete_longest_of_first "ab</thi".toList ["</think>".toList]).2
    ⟨"</think>".toList, 5, by decide, by decide, by decide, by decide⟩

theorem auto_complete_marker (text : List Char) (seqs : List (List Char)) (rem : List Char)
    (h : auto_complete_remainder text seqs = some rem) :
    seqs ≠ [] ∧
    ∃ seq p, seq ∈ seqs ∧ p ≠ [] ∧ rem ≠ [] ∧ p ++ rem = seq ∧ p <:+ text := by
  constructor
  · rintro rfl
    simp [auto_complete_remainder] at h
  · obtain ⟨k, seq, i, hk, h1, h2, h3, h4, _, _⟩ := auto_complete_remainder_some text seqs rem h
    refine ⟨seq, seq.take i, mem_of_getElem?_eq_some _ _ _ hk, ?_, ?_, ?_, h3⟩
    · intro he
      have := congrArg List.length he
      rw [List.length_take, List.length_nil] at this
      omega
    · rw [h4]
      intro he
      have := congrArg List.length he
      rw [List.length_drop, List.length_nil] at this
      omega
    · rw [h4]
      exact List.take_append_drop i seq

theorem ends_with_marker (out text p rem seq : List Char) (hp : p <:+ text)
    (hseq : p ++ rem = seq) : seq <:+ out ++ (text ++ rem) := by
  obtain ⟨a, ha⟩ := hp
  refine ⟨out ++ a, ?_⟩
  rw [← ha, ← hseq]
  simp [List.append_assoc]

theorem generate_loop_count (E : Engine) (params : generate_params) :
    ∀ (n : Nat) (smpl : llama_sampler_chain) (decoded : List Int) (result r : generate_result)
      (d : List Int) (c : llama_sampler_chain),
      generate_loop E params n smpl decoded result = some (r, d, c) →
      result.tokens_generated ≤ r.tokens_generated ∧
      r.tokens_generated ≤ result.tokens_generated + n := by
  intro n
  induction n with
  | zero =>
    intro smpl decoded result r d c h
    simp only [generate_loop, Option.some.injEq, Prod.mk.injEq] at h
    rw [← h.1]
    simp
  | succ n ih =>
    intro smpl decoded result r d c h
    unfold generate_loop at h
    cases hs : llama_sampler_sample E smpl decoded with
    | none => rw [hs] at h; simp at h
    | some ts =>
      obtain ⟨new_token, smpl1⟩ := ts
      rw [hs] at h
      simp only at h
      by_cases heog : E.is_eog new_token = true
      · rw [if_pos heog] at h
        simp only [Option.some.injEq, Prod.mk.injEq] at h
        rw [← h.1]
        push_cast
        omega
      · rw [if_neg heog] at h
        by_cases hlen : (E.token_to_piece new_token).length > 0
        · rw [if_pos hlen] at h
          cases hfound :
              (if (!params.stop_sequences.isEmpty) = true then
                check_stop_sequence (result.text ++ E.token_to_piece new_token)
                  params.stop_sequences
              else none) with
          | some seq =>
            rw [hfound] at h
            simp only [Option.some.injEq, Prod.mk.injEq] at h
            rw [← h.1]
            simp only
            push_cast
            omega
          | none =>
            rw [hfound] at h
            simp only at h
            by_cases hdec : E.decode decoded [new_token] = true
            · rw [if_pos hdec] at h
              have := ih _ _ _ r d c h
              simp only at this
              push_cast
              omega
            · rw [if_neg hdec] at h
              simp only [Option.some.injEq, Prod.mk.injEq] at h
              rw [← h.1]
              simp only
              push_cast
              omega
        · rw [if_neg hlen] at h
          have := ih _ _ _ r d c h
          push_cast
          omega

theorem generate_count (E : Engine) (params : generate_params) (decoded : List Int)
    (r : generate_result) (d : List Int) (c : llama_sampler_chain)
    (h : generate E params decoded = some (r, d, c)) :
    0 ≤ r.tokens_generated ∧ r.tokens_generated ≤ params.max_tokens.toNat := by
  unfold generate at h
  have := generate_loop_count E params _ _ _ _ r d c h
  simp only at this
  omega

/-- The limit left in `params.max_tokens` when the driver calls of
`LLMSession::generate(const GenerateOptions &)` complete: the caller's
`max_tokens` when no extension pass ran, and the shortfall, at most `min_tokens`,
when one ran. -/
theorem generate_options_passes_limit (E : Engine) (options : GenerateOptions)
    (decoded : List Int) (passes : generate_passes)
    (h : generate_options_passes E options decoded = .completed passes) :
    (passes.additional = none ∧ passes.params.max_tokens = options.max_tokens) ∨
    (passes.additional ≠ none ∧ passes.params.max_tokens ≤ options.min_tokens) := by
  unfold generate_options_passes at h
  simp only at h
  cases h1 : generate E (generate_options_params E options) decoded with
  | none => rw [h1] at h; cases h
  | some t =>
    obtain ⟨result, d1, c1⟩ := t
    rw [h1] at h
    simp only at h
    have hcount := (generate_count E _ decoded result d1 c1 h1).1
    split at h
    · cases h2 : (generate_extension_params (generate_options_params E options) options
          result).custom_sampler with
      | some c => rw [h2] at h; cases h
      | none =>
        rw [h2] at h
        simp only at h
        cases h3 : generate E
            (generate_extension_params (generate_options_params E options) options result)
            d1 with
        | none => rw [h3] at h; cases h
        | some t2 =>
          obtain ⟨additional, d2, c2⟩ := t2
          rw [h3] at h
          simp only [passes_outcome.completed.injEq] at h
          right
          rw [← h]
          refine ⟨by simp, ?_⟩
          show options.min_tokens - result.tokens_generated ≤ options.min_tokens
          omega
    · simp only [passes_outcome.completed.injEq] at h
      left
      rw [← h]
      exact ⟨rfl, rfl⟩

/-- Auto-completion correctness where the limit tested is the caller's: for both
overloads of `LLMSession::generate` with stop sequences; for the overload taking
`GenerateOptions`, when no extension pass ran or `min_tokens` is at most
`max_tokens`.  Let the driver pass(es) complete without a stop sequence firing,
with at least the caller's `max_tokens` tokens generated, and let the completion
scan pick the remainder `rem`.  Then `rem` is the non-empty rest of a registered
stop sequence `seq = p ++ rem` whose non-empty proper prefix `p` ends the result
text; if the decode of `rem` succeeds the call returns; and whenever it returns,
the returned text is the result text, `get_output` has grown by exactly
`text ++ rem` and ends with the complete `seq`. -/
theorem auto_complete_correct (E : Engine) (s : LLMSession) :
    (∀ (max_tokens : Int) (stop_sequences : List (List Char)) (temperature : Int)
        (var_name : List Char) (r : generate_result) (d : List Int)
        (c : llama_sampler_chain) (rem : List Char),
      generate E ⟨max_tokens, temperature, stop_sequences, none⟩ s.decoded = some (r, d, c) →
      r.stopped_by_sequence = false →
      r.tokens_generated ≥ max_tokens →
      auto_complete_remainder r.text stop_sequences = some rem →
      ∃ seq p, seq ∈ stop_sequences ∧ p ≠ [] ∧ rem ≠ [] ∧ p ++ rem = seq ∧ p <:+ r.text ∧
        (E.decode d (E.tokenize rem (s.context_tokens ++ r.tokens).isEmpty) = true →
          ∃ s1, LLMSession.generate E s max_tokens stop_sequences temperature var_name
            = .returned r.text s1) ∧
        ∀ text s1,
          LLMSession.generate E s max_tokens stop_sequences temperature var_name
              = .returned text s1 →
            text = r.text ∧
            s1.get_output = s.get_output ++ (text ++ rem) ∧
            seq <:+ s1.get_output) ∧
    (∀ (options : GenerateOptions) (passes : generate_passes) (rem : List Char),
      generate_options_passes E options s.decoded = .completed passes →
      (passes.additional = none ∨ options.min_tokens ≤ options.max_tokens) →
      passes.result.stopped_by_sequence = false →
      passes.result.tokens_generated ≥ options.max_tokens →
      auto_complete_remainder passes.result.text options.stop_sequences = some rem →
      ∃ seq p, seq ∈ options.stop_sequences ∧ p ≠ [] ∧ rem ≠ [] ∧ p ++ rem = seq ∧
        p <:+ passes.result.text ∧
        (E.decode passes.decoded
            (E.tokenize rem
              (s.context_tokens ++
                (match passes.additional with
                  | some additional => additional.tokens
                  | none => []) ++
                passes.result.tokens).isEmpty) = true →
          ∃ s1, LLMSession.generate_options E s options = .returned passes.result.text s1) ∧
        ∀ text s1,
          LLMSession.generate_options E s options = .returned text s1 →
            text = passes.result.text ∧
            s1.get_output = s.get_output ++ (text ++ rem) ∧
            seq <:+ s1.get_output) := by
  constructor
  · intro max_tokens stop_sequences temperature var_name r d c rem hgen hstop hlimit hscan
    obtain ⟨hne, seq, p, hmem, hp, hrem, hseq, hsuf⟩ := auto_complete_marker _ _ _ hscan
    refine ⟨seq, p, hmem, hp, hrem, hseq, hsuf, ?_⟩
    have hc1 : (r.stopped_by_sequence && !r.stop_sequence.isEmpty) = false := by
      rw [hstop]; rfl
    have hc2 : (!stop_sequences.isEmpty && decide (r.tokens_generated ≥ max_tokens)) = true := by
      have : stop_sequences.isEmpty = false := by
        cases hl : stop_sequences with
        | nil => exact absurd hl hne
        | cons _ _ => rfl
      rw [this, decide_eq_true hlimit]; rfl
    by_cases hdec : E.decode d (E.tokenize rem (s.context_tokens ++ r.tokens).isEmpty) = true
    · have hcall : LLMSession.generate E s max_tokens stop_sequences temperature var_name
          = .returned r.text
              { accumulated_text := s.accumulated_text ++ r.text ++ rem
                context_tokens :=
                  s.context_tokens ++ r.tokens ++
                    E.tokenize rem (s.context_tokens ++ r.tokens).isEmpty
                variable_map :=
                  if !var_name.isEmpty then map_assign s.variable_map var_name r.text
                  else s.variable_map
                auto_cache_enabled := s.auto_cache_enabled
                cached_prompt_data := s.cached_prompt_data
                has_cached := s.has_cached
                decoded := d ++ E.tokenize rem (s.context_tokens ++ r.tokens).isEmpty } := by
        unfold LLMSession.generate
        simp only [hgen, hc1, hc2, Bool.false_eq_true, if_false, if_true, hscan,
          encode_and_eval, hdec]
      refine ⟨fun _ => ⟨_, hcall⟩, fun text s1 hret => ?_⟩
      rw [hcall] at hret
      simp only [Outcome.returned.injEq] at hret
      obtain ⟨htext, hs1⟩ := hret
      subst htext
      have hout : s1.get_output = s.get_output ++ (r.text ++ rem) := by
        rw [← hs1]
        simp [LLMSession.get_output, List.append_assoc]
      exact ⟨rfl, hout, by rw [hout]; exact ends_with_marker _ _ p rem seq hsuf hseq⟩
    · refine ⟨fun h => absurd h hdec, fun text s1 hret => ?_⟩
      exfalso
      unfold LLMSession.generate at hret
      simp only [hgen, hc1, hc2, Bool.false_eq_true, if_false, if_true, hscan,
        encode_and_eval, hdec] at hret
      cases hret
  · intro options passes rem hpass hext hstop hmax hscan
    have hlimit : passes.result.tokens_generated ≥ passes.params.max_tokens := by
      rcases generate_options_passes_limit E options s.decoded passes hpass with h | h
      · rw [h.2]; exact hmax
      · rcases hext with h0 | h0
        · exact absurd h0 h.1
        · have := h.2
          omega
    obtain ⟨hne, seq, p, hmem, hp, hrem, hseq, hsuf⟩ := auto_complete_marker _ _ _ hscan
    refine ⟨seq, p, hmem, hp, hrem, hseq, hsuf, ?_⟩
    have hc1 : (passes.result.stopped_by_sequence && !passes.result.stop_sequence.isEmpty)
        = false := by
      rw [hstop]; rfl
    have hc2 : (!options.stop_sequences.isEmpty &&
        decide (passes.result.tokens_generated ≥ passes.params.max_tokens)) = true := by
      have : options.stop_sequences.isEmpty = false := by
        cases hl : options.stop_sequences with
        | nil => exact absurd hl hne
        | cons _ _ => rfl
      rw [this, decide_eq_true hlimit]; rfl
    by_cases hdec : E.decode passes.decoded
        (E.tokenize rem
          (s.context_tokens ++
            (match passes.additional with
              | some additional => additional.tokens
              | none => []) ++
            passes.result.tokens).isEmpty) = true
    · have hcall : LLMSession.generate_options E s options
          = .returned passes.result.text
              { accumulated_text := s.accumulated_text ++ passes.result.text ++ rem
                context_tokens :=
                  s.context_tokens ++
                    (match passes.additional with
                      | some additional => additional.tokens
                      | none => []) ++
                    passes.result.tokens ++
                    E.tokenize rem
                      (s.context_tokens ++
                        (match passes.additional with
                          | some additional => additional.tokens
                          | none => []) ++
                        passes.result.tokens).isEmpty
                variable_map :=
                  if !options.var_name.isEmpty then
                    map_assign s.variable_map options.var_name passes.result.text
                  else s.variable_map
                auto_cache_enabled := s.auto_cache_enabled
                cached_prompt_data := s.cached_prompt_data
                has_cached := s.has_cached
                decoded :=
                  passes.decoded ++
                    E.tokenize rem
                      (s.context_tokens ++
                        (match passes.additional with
                          | some additional => additional.tokens
                          | none => []) ++
                        passes.result.tokens).isEmpty } := by
        unfold LLMSession.generate_options
        simp only [hpass, hc1, hc2, Bool.false_eq_true, if_false, if_true, hscan,
          encode_and_eval, hdec]
      refine ⟨fun _ => ⟨_, hcall⟩, fun text s1 hret => ?_⟩
      rw [hcall] at hret
      simp only [Outcome.returned.injEq] at hret
      obtain ⟨htext, hs1⟩ := hret
      subst htext
      have hout : s1.get_output = s.get_output ++ (passes.result.text ++ rem) := by
        rw [← hs1]
        simp [LLMSession.get_output, List.append_assoc]
      exact ⟨rfl, hout, by rw [hout]; exact ends_with_marker _ _ p rem seq hsuf hseq⟩
    · refine ⟨fun h => absurd h hdec, fun text s1 hret => ?_⟩
      exfalso
      unfold LLMSession.generate_options at hret
      simp only [hpass, hc1, hc2, Bool.false_eq_true, if_false, if_true, hscan,
        encode_and_eval, hdec] at hret
      cases hret

theorem auto_complete_correct_witness :
    (∃ seq p, seq ∈ ["x<a>".toList] ∧ p ≠ [] ∧ "<a>".toList ≠ [] ∧ p ++ "<a>".toList = seq ∧
      p <:+ "x".toList ∧
      (char_engine.decode [120]
          (char_engine.tokenize "<a>".toList (empty_session.context_tokens ++ [120]).isEmpty)
            = true →
        ∃ s1, LLMSession.generate char_engine empty_session 1 ["x<a>".toList] 0 []
          = .returned "x".toList s1) ∧
      ∀ text s1,
        LLMSession.generate char_engine empty_session 1 ["x<a>".toList] 0 []
            = .returned text s1 →
          text = "x".toList ∧
          s1.get_output = empty_session.get_output ++ (text ++ "<a>".toList) ∧
          seq <:+ s1.get_output) ∧
    (∃ seq p, seq ∈ ["x<a>".toList] ∧ p ≠ [] ∧ "<a>".toList ≠ [] ∧ p ++ "<a>".toList = seq ∧
      p <:+ "x".toList ∧
      (char_engine.decode [120]
          (char_engine.tokenize "<a>".toList
            (empty_session.context_tokens ++ [] ++ [120]).isEmpty) = true →
        ∃ s1, LLMSession.generate_options char_engine empty_session
            ⟨0, 1, 0, ["x<a>".toList], [], .PATTERN_NONE, []⟩
          = .returned "x".toList s1) ∧
      ∀ text s1,
        LLMSession.generate_options char_engine empty_session
            ⟨0, 1, 0, ["x<a>".toList], [], .PATTERN_NONE, []⟩
            = .returned text s1 →
          text = "x".toList ∧
          s1.get_output = empty_session.get_output ++ (text ++ "<a>".toList) ∧
          seq <:+ s1.get_output) :=
  ⟨(auto_complete_correct char_engine empty_session).1 1 ["x<a>".toList] 0 []
      ⟨"x".toList, [120], false, [], 1⟩ [120]
      ⟨[Sampler.stop_sequence ⟨["x<a>".toList], "x".toList⟩], 0, 1⟩ "<a>".toList
      (by decide) rfl (by decide) (by decide),
    (auto_complete_correct char_engine empty_session).2
      ⟨0, 1, 0, ["x<a>".toList], [], .PATTERN_NONE, []⟩
      { params := ⟨1, 0, ["x<a>".toList], none⟩
        result := ⟨"x".toList, [120], false, [], 1⟩
        additional := none
        decoded := [120] }
      "<a>".toList (by decide) (Or.inl rfl) rfl (by decide) (by decide)⟩

/-! ## Generation from `GenerateOptions`: the min-tokens extension -/

/-- C15, the code at a failing input.  With `min_tokens = 2`, `max_tokens = 50`
and the stop sequence "<a>", the first pass emits `x` and ends on
end-of-sequence, the extension pass emits `<`; the call has produced 2 tokens,
fewer than `max_tokens`, and yet the remainder "a>" is auto-completed into the
session text, because the limit tested is the extension budget left in
`params.max_tokens`. -/
theorem auto_complete_after_extension :
    generate_options_passes char_engine ⟨2, 50, 0, ["<a>".toList], [], .PATTERN_NONE, []⟩ []
      = .completed
          { params := ⟨1, 0, [], none⟩
            result := ⟨"x<".toList, [120], false, [], 2⟩
            additional := some ⟨"<".toList, [60], false, [], 1⟩
            decoded := [120, 60] } ∧
    (2 : Int) < 50 ∧
    LLMSession.generate_options char_engine empty_session
        ⟨2, 50, 0, ["<a>".toList], [], .PATTERN_NONE, []⟩
      = .returned "x<".toList
          { empty_session with
            accumulated_text := "x<a>".toList
            context_tokens := [60, 120, 97, 62]
            decoded := [120, 60, 97, 62] } := by
  refine ⟨by decide, by decide, by decide⟩

/-- C16 as stated fails: with `min_tokens = 5` and the stop sequence "at", the
first pass stops on the stop sequence after one token; no extension pass runs
and the result has one token. -/
theorem min_tokens_not_enforced_after_stop :
    generate_options_passes example_engine ⟨5, 50, 0, ["at".toList], [], .PATTERN_NONE, []⟩ []
      = .completed
          { params := ⟨50, 0, ["at".toList], none⟩
            result := ⟨"c".toList, [1], true, "at".toList, 1⟩
            additional := none
            decoded := [] } ∧
    (1 : Int) < 5 := by
  refine ⟨by decide, by decide⟩

/-- C16, amended.  Let the first pass end with `n` tokens.  If it stopped on a
stop sequence (or `n` is already at least `min_tokens`), no extension pass runs
and the result keeps the `n` tokens.  If no pattern is set (`PATTERN_NONE`) and
the first pass ended after `n < min_tokens` tokens without a stop sequence
firing, an extension pass runs without the original stop sequences (its
stop-sequence list is empty) for up to `min_tokens - n` tokens; the result has
`n` plus the tokens of that pass, at most `min_tokens` in total, and
`min_tokens` exactly when that pass generates its whole budget. -/
theorem min_tokens_extension_total (E : Engine) (options : GenerateOptions)
    (decoded : List Int) (first : generate_result) (d : List Int) (c : llama_sampler_chain)
    (hfirst : generate E (generate_options_params E options) decoded = some (first, d, c)) :
    ((first.stopped_by_sequence = true ∨ options.min_tokens ≤ first.tokens_generated) →
      generate_options_passes E options decoded
        = .completed ⟨generate_options_params E options, first, none, d⟩) ∧
    (options.pattern = .PATTERN_NONE →
      first.stopped_by_sequence = false → first.tokens_generated < options.min_tokens →
      (generate E ⟨options.min_tokens - first.tokens_generated, options.temperature, [], none⟩ d
          = none →
        generate_options_passes E options decoded = .aborted) ∧
      ∀ (additional : generate_result) (d2 : List Int) (c2 : llama_sampler_chain),
        generate E ⟨options.min_tokens - first.tokens_generated, options.temperature, [], none⟩ d
          = some (additional, d2, c2) →
        ∃ passes, generate_options_passes E options decoded = .completed passes ∧
          passes.additional = some additional ∧
          passes.params.stop_sequences = [] ∧
          passes.params.max_tokens = options.min_tokens - first.tokens_generated ∧
          passes.result.tokens_generated
            = first.tokens_generated + additional.tokens_generated ∧
          passes.result.tokens_generated ≤ options.min_tokens ∧
          (passes.result.tokens_generated ≥ options.min_tokens ↔
            additional.tokens_generated = options.min_tokens - first.tokens_generated)) := by
  constructor
  · intro h
    have hcond : (decide (first.tokens_generated < options.min_tokens) &&
        !first.stopped_by_sequence) = false := by
      rcases h with h | h
      · rw [h]; simp
      · rw [decide_eq_false (by omega)]; rfl
    unfold generate_options_passes
    simp only [hfirst, hcond, Bool.false_eq_true, if_false]
  · intro hpat hns hlt
    have hcond : (decide (first.tokens_generated < options.min_tokens) &&
        !first.stopped_by_sequence) = true := by
      rw [hns, decide_eq_true hlt]; rfl
    have hparams : generate_extension_params (generate_options_params E options) options first
        = ⟨options.min_tokens - first.tokens_generated, options.temperature, [], none⟩ := by
      simp [generate_extension_params, generate_options_params, hpat]
    refine ⟨fun hext => ?_, fun additional d2 c2 hext => ?_⟩
    · unfold generate_options_passes
      simp only [hfirst, hcond, if_true, hparams, hext]
    have hcount := generate_count E _ _ _ _ _ hext
    simp only at hcount
    refine ⟨
      { params := ⟨options.min_tokens - first.tokens_generated, options.temperature, [], none⟩
        result :=
          { first with
            text := first.text ++ additional.text
            tokens_generated := first.tokens_generated + additional.tokens_generated }
        additional := some additional
        decoded := d2 }, ?_, rfl, rfl, rfl, rfl, ?_, ?_⟩
    · unfold generate_options_passes
      simp only [hfirst, hcond, if_true, hparams, hext]
    · simp only
      omega
    · simp only
      omega

theorem min_tokens_extension_total_witness :
    ∃ passes,
      generate_options_passes char_engine ⟨2, 50, 0, ["<a>".toList], [], .PATTERN_NONE, []⟩ []
        = .completed passes ∧
      passes.additional = some ⟨"<".toList, [60], false, [], 1⟩ ∧
      passes.params.stop_sequences = [] ∧
      passes.params.max_tokens = 2 - 1 ∧
      passes.result.tokens_generated = 1 + 1 ∧
      passes.result.tokens_generated ≤ 2 ∧
      (passes.result.tokens_generated ≥ 2 ↔ (1 : Int) = 2 - 1) :=
  ((min_tokens_extension_total char_engine ⟨2, 50, 0, ["<a>".toList], [], .PATTERN_NONE, []⟩
      [] ⟨"x".toList, [120], false, [], 1⟩ [120]
      ⟨[Sampler.stop_sequence ⟨["<a>".toList], "x".toList⟩], 0, 2⟩ (by decide)).2
    rfl rfl (by decide)).2 ⟨"<".toList, [60], false, [], 1⟩ [120, 60] ⟨[], 0, 1⟩ (by decide)

/-- C17, the code at failing inputs.  With a pattern set, the first driver call
is handed the pattern sampler in `params.custom_sampler` and frees it with its
chain.  When the first pass ends with fewer than `min_tokens` tokens and no stop
sequence fired (here after one token: the context is full and the decode fails,
with `min_tokens = 3` and `max_tokens = 10`; or `max_tokens = 1` is reached,
with `min_tokens = 2`), the additional driver call is made with the same
`custom_sampler`, the freed object: the behaviour of the call is undefined, and
there is no text or token count of it to append.  Without a pattern the same
call returns the texts of both passes. -/
theorem min_tokens_extension_uses_freed_sampler :
    (generate example_engine_full
        (generate_options_params example_engine_full
          ⟨3, 10, 0, [], [], .PATTERN_LOWERCASE, []⟩) []).map (fun x => (x.1, x.2.1))
      = some (⟨"cat".toList, [1], false, [], 1⟩, []) ∧
    (generate_extension_params
        (generate_options_params example_engine_full ⟨3, 10, 0, [], [], .PATTERN_LOWERCASE, []⟩)
        ⟨3, 10, 0, [], [], .PATTERN_LOWERCASE, []⟩ ⟨"cat".toList, [1], false, [], 1⟩)
      = ⟨2, 0, [], some (Sampler.pattern ⟨.PATTERN_LOWERCASE, [], [], []⟩)⟩ ∧
    generate_options_passes example_engine_full ⟨3, 10, 0, [], [], .PATTERN_LOWERCASE, []⟩ []
      = .undefined ∧
    LLMSession.generate_options example_engine_full empty_session
        ⟨3, 10, 0, [], [], .PATTERN_LOWERCASE, []⟩
      = .undefined ∧
    (generate char_engine
        (generate_options_params char_engine
          ⟨2, 1, 0, [], [], .PATTERN_LOWERCASE, []⟩) []).map (fun x => (x.1, x.2.1))
      = some (⟨"x".toList, [120], false, [], 1⟩, [120]) ∧
    LLMSession.generate_options char_engine empty_session
        ⟨2, 1, 0, [], [], .PATTERN_LOWERCASE, []⟩
      = .undefined ∧
    LLMSession.generate_options char_engine empty_session ⟨2, 1, 0, [], [], .PATTERN_NONE, []⟩
      = .returned "x<".toList
          { empty_session with
            accumulated_text := "x<".toList
            context_tokens := [60, 120]
            decoded := [120, 60] } := by
  refine ⟨by decide, by decide, by decide, by decide, by decide, by decide, by decide⟩

/-! ## Prefix-select: reset -/

theorem prefix_select_accept_length (ctx : llama_sampler_prefix_select) (token : Int) :
    (prefix_select_accept ctx token).active_options.length = ctx.active_options.length := by
  unfold prefix_select_accept
  exact accept_fold_length ctx token _ _

theorem prefix_select_reset_eq_init (E : Engine) (options : List (List Char))
    (ctx : llama_sampler_prefix_select)
    (htok : ctx.option_tokens = options.map (fun option => E.tokenize option false))
    (hlen : ctx.active_options.length = options.length) :
    prefix_select_reset ctx = llama_sampler_init_prefix_select E options := by
  unfold prefix_select_reset llama_sampler_init_prefix_select
  rw [htok, ← hlen]
  congr 1
  exact List.map_const' ctx.active_options true

theorem prefix_select_calls_facts (E : Engine) (options : List (List Char)) :
    ∀ (cs : List sampler_call) (ctx : llama_sampler_prefix_select),
      ctx.option_tokens = options.map (fun option => E.tokenize option false) →
      ctx.active_options.length = options.length →
      ∃ ctx1 : llama_sampler_prefix_select,
        Sampler.calls E (.prefix_select ctx) cs = .prefix_select ctx1 ∧
        ctx1.option_tokens = options.map (fun option => E.tokenize option false) ∧
        ctx1.active_options.length = options.length := by
  intro cs
  induction cs with
  | nil => intro ctx htok hlen; exact ⟨ctx, rfl, htok, hlen⟩
  | cons c cs ih =>
    intro ctx htok hlen
    cases c with
    | apply cur_p => exact ih ctx htok hlen
    | accept token =>
      have := ih (prefix_select_accept ctx token) htok
        (by rw [prefix_select_accept_length]; exact hlen)
      exact this
    | reset =>
      have := ih (prefix_select_reset ctx) htok (by simp [prefix_select_reset, hlen])
      exact this

/-- C21. Prefix-select reset.  From every state reached from construction on
`options` by any sequence of apply, accept and reset calls, reset yields exactly
the state that constructing the filter on the same options produces: every
option alive, position zero, the tokenized options unchanged.  Reset is
idempotent on every state. -/
theorem prefix_select_reset_spec (E : Engine) (options : List (List Char))
    (cs : List sampler_call) :
    Sampler.reset
        (Sampler.calls E (.prefix_select (llama_sampler_init_prefix_select E options)) cs)
      = .prefix_select (llama_sampler_init_prefix_select E options) ∧
    (llama_sampler_init_prefix_select E options).active_options
      = List.replicate options.length true ∧
    (llama_sampler_init_prefix_select E options).position = 0 ∧
    (llama_sampler_init_prefix_select E options).option_tokens
      = options.map (fun option => E.tokenize option false) ∧
    ∀ s : Sampler, Sampler.reset (Sampler.reset s) = Sampler.reset s := by
  refine ⟨?_, rfl, rfl, rfl, ?_⟩
  · obtain ⟨ctx1, h1, htok, hlen⟩ :=
      prefix_select_calls_facts E options cs (llama_sampler_init_prefix_select E options)
        rfl (by simp [llama_sampler_init_prefix_select])
    rw [h1]
    simp only [Sampler.reset]
    rw [prefix_select_reset_eq_init E options ctx1 htok hlen]
  · intro s
    cases s with
    | token_filter ctx => rfl
    | prefix_select ctx =>
      simp [Sampler.reset, prefix_select_reset]
    | pattern ctx => rfl
    | stop_sequence ctx => rfl

/-! ## Accumulated text of the pattern filter and the stop-sequence guard -/

/-- C22. Accumulated text is mutated only by accept.  For the pattern filter
and for the stop-sequence guard: apply leaves the whole filter state as it was,
for every candidate list; accept of a token appends the token's piece to the
accumulated text and changes no other field; reset empties the accumulated text
and changes no other field. -/
theorem accumulated_mutated_only_by_accept (E : Engine) :
    (∀ (ctx : llama_sampler_pattern) (cur_p : llama_token_data_array) (token : Int),
      Sampler.call E (.pattern ctx) (.apply cur_p) = .pattern ctx ∧
      Sampler.call E (.pattern ctx) (.accept token)
        = .pattern { ctx with accumulated := ctx.accumulated ++ E.token_to_piece token } ∧
      Sampler.call E (.pattern ctx) .reset = .pattern { ctx with accumulated := [] }) ∧
    (∀ (ctx : llama_sampler_stop_sequence) (cur_p : llama_token_data_array) (token : Int),
      Sampler.call E (.stop_sequence ctx) (.apply cur_p) = .stop_sequence ctx ∧
      Sampler.call E (.stop_sequence ctx) (.accept token)
        = .stop_sequence
            { ctx with accumulated := ctx.accumulated ++ E.token_to_piece token } ∧
      Sampler.call E (.stop_sequence ctx) .reset
        = .stop_sequence { ctx with accumulated := [] }) := by
  refine ⟨fun ctx cur_p token => ⟨rfl, ?_, rfl⟩, fun ctx cur_p token => ⟨rfl, ?_, rfl⟩⟩
  · simp only [Sampler.call, Sampler.accept, pattern_accept]
    cases hp : E.token_to_piece token with
    | nil => simp
    | cons c cs => simp
  · simp only [Sampler.call, Sampler.accept, stop_sequence_accept]
    cases hp : E.token_to_piece token with
    | nil => simp
    | cons c cs => simp

/-! ## Malformed regular expressions -/

/-- C29. Malformed regex is non-matching, not an error.  For `PATTERN_REGEX`
with a non-empty expression whose construction throws, `matches_pattern` is
false on every text (the exception is caught inside, the value is a boolean),
and the pattern filter keeps exactly the candidates that are stop tokens, in
their original order. -/
theorem malformed_regex_non_matching (E : Engine) (regex_pattern : List Char)
    (hne : regex_pattern ≠ []) (hbad : E.regex regex_pattern = none) :
    (∀ text : List Char,
      matches_pattern E.regex text .PATTERN_REGEX regex_pattern = false) ∧
    ∀ (accumulated : List Char) (stop_tokens : List Int) (cur_p : llama_token_data_array),
      candidates (pattern_apply E ⟨.PATTERN_REGEX, regex_pattern, accumulated, stop_tokens⟩
          cur_p)
        = (candidates cur_p).filter (fun d => decide (d.id ∈ stop_tokens)) := by
  have hm : ∀ text : List Char,
      matches_pattern E.regex text .PATTERN_REGEX regex_pattern = false := by
    intro text
    unfold matches_pattern
    cases regex_pattern with
    | nil => exact absurd rfl hne
    | cons c cs =>
      rw [hbad]
      cases text <;> simp
  refine ⟨hm, fun accumulated stop_tokens cur_p => ?_⟩
  unfold pattern_apply
  rw [candidates_filter_in_place]
  apply List.filter_congr
  intro d _
  unfold pattern_keep
  by_cases hs : d.id ∈ stop_tokens
  · simp [hs]
  · simp [hs, hm]

theorem malformed_regex_non_matching_witness :
    matches_pattern example_engine.regex "abc".toList .PATTERN_REGEX "[a".toList = false ∧
    candidates (pattern_apply example_engine
        ⟨.PATTERN_REGEX, "[a".toList, "ca".toList, [2]⟩ ⟨[⟨1, 0, 0⟩, ⟨2, 0, 0⟩], 2, false⟩)
      = [⟨2, 0, 0⟩] :=
  ⟨(malformed_regex_non_matching example_engine "[a".toList (by decide) rfl).1 "abc".toList,
   (malformed_regex_non_matching example_engine "[a".toList (by decide) rfl).2
      "ca".toList [2] ⟨[⟨1, 0, 0⟩, ⟨2, 0, 0⟩], 2, false⟩⟩

/-! ## Token budget of the driver -/

theorem generate_loop_tokens (E : Engine) (params : generate_params) :
    ∀ (n : Nat) (smpl : llama_sampler_chain) (decoded : List Int) (result r : generate_result)
      (d : List Int) (c : llama_sampler_chain),
      generate_loop E params n smpl decoded result = some (r, d, c) →
      result.tokens_generated = result.tokens.length →
      r.tokens_generated = r.tokens.length := by
  intro n
  induction n with
  | zero =>
    intro smpl decoded result r d c h hinv
    simp only [generate_loop, Option.some.injEq, Prod.mk.injEq] at h
    rw [← h.1]
    exact hinv
  | succ n ih =>
    intro smpl decoded result r d c h hinv
    unfold generate_loop at h
    cases hs : llama_sampler_sample E smpl decoded with
    | none => rw [hs] at h; simp at h
    | some ts =>
      obtain ⟨new_token, smpl1⟩ := ts
      rw [hs] at h
      simp only at h
      by_cases heog : E.is_eog new_token = true
      · rw [if_pos heog] at h
        simp only [Option.some.injEq, Prod.mk.injEq] at h
        rw [← h.1]
        exact hinv
      · rw [if_neg heog] at h
        by_cases hlen : (E.token_to_piece new_token).length > 0
        · rw [if_pos hlen] at h
          cases hfound :
              (if (!params.stop_sequences.isEmpty) = true then
                check_stop_sequence (result.text ++ E.token_to_piece new_token)
                  params.stop_sequences
              else none) with
          | some seq =>
            rw [hfound] at h
            simp only [Option.some.injEq, Prod.mk.injEq] at h
            rw [← h.1]
            simp only [List.length_append, List.length_singleton]
            push_cast
            omega
          | none =>
            rw [hfound] at h
            simp only at h
            by_cases hdec : E.decode decoded [new_token] = true
            · rw [if_pos hdec] at h
              refine ih _ _ _ r d c h ?_
              simp only [List.length_append, List.length_singleton]
              push_cast
              omega
            · rw [if_neg hdec] at h
              simp only [Option.some.injEq, Prod.mk.injEq] at h
              rw [← h.1]
              simp only [List.length_append, List.length_singleton]
              push_cast
              omega
        · rw [if_neg hlen] at h
          exact ih _ _ _ r d c h hinv

/-- C30. Token budget.  Whatever the engine does, a result returned by the
driver has `tokens_generated` equal to the number of tokens in `result.tokens`,
and that number is at most `max(max_tokens, 0)`; with `max_tokens ≤ 0` the
driver returns, without running the loop body, the result with empty text, no
tokens and `stopped_by_sequence = false`. -/
theorem generate_token_budget (E : Engine) (params : generate_params) (decoded : List Int) :
    (∀ (r : generate_result) (d : List Int) (c : llama_sampler_chain),
      generate E params decoded = some (r, d, c) →
      r.tokens_generated = r.tokens.length ∧
      (r.tokens.length : Int) ≤ max params.max_tokens 0) ∧
    (params.max_tokens ≤ 0 →
      ∃ c : llama_sampler_chain,
        generate E params decoded = some (⟨[], [], false, [], 0⟩, decoded, c)) := by
  constructor
  · intro r d c h
    have hcount := generate_count E params decoded r d c h
    unfold generate at h
    have htok := generate_loop_tokens E params _ _ _ _ r d c h rfl
    refine ⟨htok, ?_⟩
    rw [← htok]
    have : (params.max_tokens.toNat : Int) = max params.max_tokens 0 := Int.toNat_eq_max _
    omega
  · intro hle
    have h0 : params.max_tokens.toNat = 0 := Int.toNat_eq_zero.mpr hle
    unfold generate
    simp only [h0, generate_loop]
    exact ⟨_, rfl⟩

theorem generate_token_budget_witness :
    ((1 : Int) = ([120] : List Int).length ∧
      ((([120] : List Int).length : Nat) : Int) ≤ max (5 : Int) 0) ∧
    ∃ c : llama_sampler_chain,
      generate char_engine ⟨-3, 0, [], none⟩ [7]
        = some (⟨[], [], false, [], 0⟩, [7], c) :=
  ⟨(generate_token_budget char_engine ⟨5, 0, [], none⟩ []).1
      ⟨"x".toList, [120], false, [], 1⟩ [120] ⟨[], 0, 2⟩ (by decide),
   (generate_token_budget char_engine ⟨-3, 0, [], none⟩ [7]).2 (by decide)⟩

/-! ## Persistence: byte images -/

theorem le_bytes_length : ∀ (w n : Nat), (le_bytes w n).length = w := by
  intro w
  induction w with
  | zero => intro n; rfl
  | succ w ih => intro n; simp [le_bytes, ih]

theorem le_value_le_bytes : ∀ (w n : Nat), le_value (le_bytes w n) = n % 256 ^ w := by
  intro w
  induction w with
  | zero => intro n; simp [le_bytes, le_value, Nat.mod_one]
  | succ w ih =>
    intro n
    simp only [le_bytes, le_value, ih, Nat.mod_mod]
    rw [pow_succ', Nat.mod_mul]

theorem le_value_lt : ∀ bytes : List Nat, le_value bytes < 256 ^ bytes.length := by
  intro bytes
  induction bytes with
  | nil => simp [le_value]
  | cons b bytes ih =>
    simp only [le_value, List.length_cons, pow_succ']
    have := Nat.mod_lt b (show 256 > 0 by decide)
    omega

theorem le_bytes_getElem? : ∀ (w n i : Nat), i < w →
    (le_bytes w n)[i]? = some (n / 256 ^ i % 256) := by
  intro w
  induction w with
  | zero => intro n i h; omega
  | succ w ih =>
    intro n i h
    cases i with
    | zero => simp [le_bytes]
    | succ i =>
      simp only [le_bytes, List.getElem?_cons_succ]
      rw [ih (n / 256) i (by omega), Nat.div_div_eq_div_mul, pow_succ']

theorem token_bytes_length (token : Int) : (token_bytes token).length = 4 :=
  le_bytes_length 4 _

theorem bytes_token_token_bytes (token : Int) (h1 : -2 ^ 31 ≤ token) (h2 : token < 2 ^ 31) :
    bytes_token (token_bytes token) = token := by
  unfold bytes_token token_bytes
  rw [le_value_le_bytes]
  have hm : (token % 2 ^ 32).toNat % 256 ^ 4 = (token % 2 ^ 32).toNat := by
    apply Nat.mod_eq_of_lt
    have : token % 2 ^ 32 < 2 ^ 32 := Int.emod_lt_of_pos _ (by norm_num)
    have h0 : 0 ≤ token % 2 ^ 32 := Int.emod_nonneg _ (by norm_num)
    norm_num at this ⊢
    omega
  rw [hm]
  have h0 : 0 ≤ token % 2 ^ 32 := Int.emod_nonneg _ (by norm_num)
  have hcast : ((token % 2 ^ 32).toNat : Int) = token % 2 ^ 32 := Int.toNat_of_nonneg h0
  norm_num at h1 h2 hcast h0 ⊢
  split
  · omega
  · omega

theorem tokens_bytes_length (tokens : List Int) :
    (tokens_bytes tokens).length = 4 * tokens.length := by
  induction tokens with
  | nil => rfl
  | cons t ts ih =>
    simp only [tokens_bytes, List.flatMap_cons, List.length_append, List.length_cons] at ih ⊢
    rw [ih, token_bytes_length]
    omega

theorem bytes_tokens_length : ∀ (n : Nat) (bytes : List Nat),
    (bytes_tokens n bytes).length = n := by
  intro n
  induction n with
  | zero => intro bytes; rfl
  | succ n ih => intro bytes; simp [bytes_tokens, ih]

theorem bytes_tokens_tokens_bytes : ∀ (tokens : List Int) (rest : List Nat),
    (∀ token, token ∈ tokens → -2 ^ 31 ≤ token ∧ token < 2 ^ 31) →
    bytes_tokens tokens.length (tokens_bytes tokens ++ rest) = tokens := by
  intro tokens
  induction tokens with
  | nil => intro rest _; rfl
  | cons t ts ih =>
    intro rest h
    have ht := h t (List.mem_cons_self t ts)
    have hts : ∀ token, token ∈ ts → -2 ^ 31 ≤ token ∧ token < 2 ^ 31 :=
      fun token hm => h token (List.mem_cons_of_mem t hm)
    simp only [tokens_bytes, List.flatMap_cons, List.length_cons, bytes_tokens,
      List.append_assoc]
    rw [List.take_left' (token_bytes_length t), List.drop_left' (token_bytes_length t),
      bytes_token_token_bytes t ht.1 ht.2]
    have := ih rest hts
    simp only [tokens_bytes] at this
    rw [this]

theorem bytes_text_text_bytes (text : List Char) : bytes_text (text_bytes text) = text := by
  unfold bytes_text text_bytes
  induction text with
  | nil => rfl
  | cons c cs ih =>
    simp only [List.map_cons, List.map_map] at ih ⊢
    rw [ih]
    congr 1
    exact Char.ofNat_toNat c

theorem resize_length {α : Type} (l : List α) (n : Nat) (fill : α) :
    (resize l n fill).length = n := by
  unfold resize
  simp only [List.length_append, List.length_take, List.length_replicate]
  omega

/-! ## Persistence: the memory loader without wrap-around -/

theorem read_data_eq (data : List Nat) (offset size : Nat) (hlen : data.length < 2 ^ 63)
    (hoff : offset ≤ data.length) (hsize : size < 2 ^ 63) :
    read_data data offset size
      = if offset + size ≤ data.length then
          some ((data.drop offset).take size, offset + size)
        else none := by
  unfold read_data
  have hmod : (offset + size) % 2 ^ 64 = offset + size := by
    apply Nat.mod_eq_of_lt
    norm_num at hlen hsize ⊢
    omega
  rw [hmod]
  by_cases h : offset + size ≤ data.length
  · rw [if_neg (by omega), if_pos h]
  · rw [if_pos (by omega), if_neg h]

theorem le_value_take_lt (bytes : List Nat) : le_value (bytes.take 8) < 2 ^ 64 := by
  have h := le_value_lt (bytes.take 8)
  have hl : (bytes.take 8).length ≤ 8 := by
    rw [List.length_take]
    omega
  have : 256 ^ (bytes.take 8).length ≤ 256 ^ 8 := Nat.pow_le_pow_right (by decide) hl
  have h8 : (256 : Nat) ^ 8 = 2 ^ 64 := by norm_num
  omega

theorem load_context_from_memory_eq (H : llama_state) (s : LLMSession) (data : List Nat)
    (hlen : data.length < 2 ^ 63) :
    LLMSession.load_context_from_memory H s data = load_context_from_memory_plain H s data := by
  unfold LLMSession.load_context_from_memory load_context_from_memory_plain
  have h63 : (2 : Nat) ^ 63 = 9223372036854775808 := by norm_num
  have h64 : (2 : Nat) ^ 64 = 18446744073709551616 := by norm_num
  by_cases h8 : data.length < 8
  · simp only [h8, if_true]
    cases data with
    | nil => rfl
    | cons b bs =>
      simp only [List.isEmpty_cons, Bool.false_eq_true, if_false]
      rw [read_data_eq _ _ _ hlen (Nat.zero_le _) (by norm_num)]
      rw [if_neg (by omega)]
  · have hne : data.isEmpty = false := by
      cases data with
      | nil => simp at h8
      | cons b bs => rfl
    simp only [hne, Bool.false_eq_true, if_false, h8]
    rw [read_data_eq _ _ _ hlen (Nat.zero_le _) (by norm_num), if_pos (by omega)]
    simp only [List.drop_zero, Nat.zero_add]
    generalize hN : le_value (List.take 8 data) = N
    by_cases hthrow : 2 ^ 63 ≤ 4 * N
    · have : N * 4 ≥ 2 ^ 63 := by omega
      simp only [this, hthrow, if_true]
    · have hN4 : ¬ (N * 4 ≥ 2 ^ 63) := by omega
      have hmod : N * 4 % 2 ^ 64 = 4 * N := by
        rw [Nat.mod_eq_of_lt (by omega)]
        omega
      simp only [hN4, hthrow, if_false, hmod]
      have hread : ∃ bytesT : List Nat,
          (if N > 0 then read_data data 8 (4 * N)
            else some (tokens_bytes (resize s.context_tokens N 0), 8))
            = (if 8 + 4 * N ≤ data.length then some (bytesT, 8 + 4 * N) else none) ∧
          bytes_tokens N bytesT = bytes_tokens N (List.take (4 * N) (List.drop 8 data)) := by
        by_cases hN0 : N > 0
        · refine ⟨List.take (4 * N) (List.drop 8 data), ?_, rfl⟩
          rw [if_pos hN0, read_data_eq _ _ _ hlen (by omega) (by omega)]
        · have hz : N = 0 := by omega
          subst hz
          refine ⟨tokens_bytes (resize s.context_tokens 0 0), ?_, rfl⟩
          rw [if_neg hN0, if_pos (by omega)]
      obtain ⟨bytesT, hreadT, hbT⟩ := hread
      rw [hreadT]
      by_cases hfitT : 8 + 4 * N ≤ data.length
      · rw [if_pos hfitT]
        simp only [hbT]
        rw [if_neg (by omega)]
        rw [read_data_eq _ _ _ hlen hfitT (by norm_num)]
        by_cases hfitM : 8 + 4 * N + 8 ≤ data.length
        · rw [if_pos hfitM, if_neg (by omega)]
          simp only
          generalize hM : le_value (List.take 8 (List.drop (8 + 4 * N) data)) = M
          by_cases hthrowM : 2 ^ 63 ≤ M
          · have : M ≥ 2 ^ 63 := hthrowM
            simp only [this, hthrowM, if_true]
          · have hM' : ¬ (M ≥ 2 ^ 63) := hthrowM
            simp only [hM', hthrowM, if_false]
            have hreadX : ∃ bytesX : List Nat,
                (if M > 0 then read_data data (8 + 4 * N + 8) M
                  else some (text_bytes (resize s.accumulated_text M (Char.ofNat 0)),
                    8 + 4 * N + 8))
                  = (if 8 + 4 * N + 8 + M ≤ data.length then
                      some (bytesX, 8 + 4 * N + 8 + M) else none) ∧
                bytes_text bytesX
                  = bytes_text (List.take M (List.drop (16 + 4 * N) data)) := by
              by_cases hM0 : M > 0
              · refine ⟨List.take M (List.drop (8 + 4 * N + 8) data), ?_, ?_⟩
                · rw [if_pos hM0, read_data_eq _ _ _ hlen hfitM (by omega)]
                · rw [show 8 + 4 * N + 8 = 16 + 4 * N by omega]
              · have hz : M = 0 := by omega
                subst hz
                refine ⟨text_bytes (resize s.accumulated_text 0 (Char.ofNat 0)), ?_, ?_⟩
                · rw [if_neg hM0, if_pos (by omega)]
                · simp [resize, text_bytes]
            obtain ⟨bytesX, hreadX, hbX⟩ := hreadX
            rw [hreadX]
            by_cases hfitX : 8 + 4 * N + 8 + M ≤ data.length
            · rw [if_pos hfitX]
              simp only [hbX]
              rw [if_neg (by omega)]
              rw [read_data_eq _ _ _ hlen hfitX (by norm_num)]
              by_cases hfitS : 8 + 4 * N + 8 + M + 8 ≤ data.length
              · rw [if_pos hfitS, if_neg (by omega)]
                simp only
                rw [show 8 + 4 * N + 8 + M = 16 + 4 * N + M by omega]
                generalize hS : le_value (List.take 8 (List.drop (16 + 4 * N + M) data)) = S
                have hSlt : S < 2 ^ 64 := by
                  rw [← hS]
                  exact le_value_take_lt _
                by_cases hexact : data.length = 24 + 4 * N + M + S
                · have hmodS : (16 + 4 * N + M + 8 + S) % 2 ^ 64 = data.length := by
                    rw [Nat.mod_eq_of_lt (by omega)]
                    omega
                  have htake : List.take S (List.drop (16 + 4 * N + M + 8) data)
                      = List.drop (24 + 4 * N + M) data := by
                    rw [show 16 + 4 * N + M + 8 = 24 + 4 * N + M by omega]
                    apply List.take_of_length_le
                    rw [List.length_drop]
                    omega
                  simp only [hmodS, bne_self_eq_false, Bool.false_eq_true, if_false, htake,
                    hexact, ne_eq, not_true_eq_false, beq_iff_eq]
                · have hmodS : ¬ ((16 + 4 * N + M + 8 + S) % 2 ^ 64 = data.length) := by
                    intro hc
                    rw [h64] at hc hSlt
                    rw [h63] at hlen
                    omega
                  have hb : ((16 + 4 * N + M + 8 + S) % 2 ^ 64 != data.length) = true :=
                    bne_iff_ne.mpr hmodS
                  simp only [hb, if_true, ne_eq, hexact, not_false_eq_true]
              · rw [if_neg hfitS, if_pos (by omega)]
            · rw [if_neg hfitX, if_pos (by omega)]
        · rw [if_neg hfitM, if_pos (by omega)]
      · rw [if_neg hfitT, if_pos (by omega)]

/-! ## Persistence: the saved blob -/

theorem save_context_to_memory_eq (H : llama_state) (s : LLMSession)
    (h : H.get_data s.decoded (H.get_size s.decoded) ≠ []) :
    LLMSession.save_context_to_memory H s
      = context_blob s.context_tokens s.accumulated_text
          (H.get_data s.decoded (H.get_size s.decoded)) := by
  unfold LLMSession.save_context_to_memory context_blob
  have hw : ((H.get_data s.decoded (H.get_size s.decoded)).length == 0) = false := by
    cases hd : H.get_data s.decoded (H.get_size s.decoded) with
    | nil => exact absurd hd h
    | cons b bs => rfl
  simp only [hw, Bool.false_eq_true, if_false]
  have ht : (if s.context_tokens.length > 0 then tokens_bytes s.context_tokens else [])
      = s.context_tokens.flatMap (fun token => le_bytes 4 (token % 2 ^ 32).toNat) := by
    cases hc : s.context_tokens with
    | nil => rfl
    | cons t ts =>
      rw [if_pos (by simp)]
      rfl
  have hx : (if s.accumulated_text.length > 0 then text_bytes s.accumulated_text else [])
      = s.accumulated_text.map (fun c => c.toNat) := by
    cases hc : s.accumulated_text with
    | nil => rfl
    | cons c cs =>
      rw [if_pos (by simp)]
      rfl
  rw [ht, hx]
  simp only [List.append_assoc]

theorem context_blob_length (tokens : List Int) (text : List Char) (state : List Nat) :
    (context_blob tokens text state).length
      = 24 + 4 * tokens.length + text.length + state.length := by
  unfold context_blob
  have := tokens_bytes_length tokens
  unfold tokens_bytes token_bytes at this
  simp only [List.length_append, le_bytes_length, List.length_map, this]
  omega

theorem drop_add_append {α : Type} (A R : List α) (n k : Nat) (h : A.length = n) :
    (A ++ R).drop (n + k) = R.drop k := by
  subst h
  exact List.drop_append k

theorem le_value_le_bytes_eight (n : Nat) (h : n < 2 ^ 63) : le_value (le_bytes 8 n) = n := by
  rw [le_value_le_bytes]
  apply Nat.mod_eq_of_lt
  norm_num at h ⊢
  omega

theorem context_blob_header (tokens : List Int) (text : List Char) (state : List Nat)
    (hsize : (context_blob tokens text state).length < 2 ^ 63) :
    le_value ((context_blob tokens text state).take 8) = tokens.length ∧
    ((context_blob tokens text state).drop 8).take (4 * tokens.length)
      = tokens_bytes tokens ∧
    le_value (((context_blob tokens text state).drop (8 + 4 * tokens.length)).take 8)
      = text.length ∧
    ((context_blob tokens text state).drop (16 + 4 * tokens.length)).take text.length
      = text_bytes text ∧
    le_value
        (((context_blob tokens text state).drop (16 + 4 * tokens.length + text.length)).take 8)
      = state.length ∧
    (context_blob tokens text state).drop (24 + 4 * tokens.length + text.length) = state := by
  rw [context_blob_length] at hsize
  have hT : (tokens.flatMap (fun token => le_bytes 4 (token % 2 ^ 32).toNat)).length
      = 4 * tokens.length := tokens_bytes_length tokens
  have hX : (text.map (fun c => c.toNat)).length = text.length := List.length_map _ _
  have h8 : ∀ n : Nat, (le_bytes 8 n).length = 8 := le_bytes_length 8
  have e1 : 8 + 4 * tokens.length = 8 + (4 * tokens.length + 0) := by omega
  have e2 : 16 + 4 * tokens.length = 8 + (4 * tokens.length + (8 + 0)) := by omega
  have e3 : 16 + 4 * tokens.length + text.length
      = 8 + (4 * tokens.length + (8 + (text.length + 0))) := by omega
  have e4 : 24 + 4 * tokens.length + text.length
      = 8 + (4 * tokens.length + (8 + (text.length + (8 + 0)))) := by omega
  have e0 : (8 : Nat) = 8 + 0 := rfl
  unfold context_blob
  refine ⟨?_, ?_, ?_, ?_, ?_, ?_⟩
  · rw [List.take_left' (h8 _)]
    exact le_value_le_bytes_eight _ (by omega)
  · nth_rewrite 1 [e0]
    rw [drop_add_append _ _ _ _ (h8 _), List.drop_zero, List.take_left' hT]
    rfl
  · rw [e1, drop_add_append _ _ _ _ (h8 _), drop_add_append _ _ _ _ hT, List.drop_zero,
      List.take_left' (h8 _)]
    exact le_value_le_bytes_eight _ (by omega)
  · rw [e2, drop_add_append _ _ _ _ (h8 _), drop_add_append _ _ _ _ hT,
      drop_add_append _ _ _ _ (h8 _), List.drop_zero, List.take_left' hX]
    rfl
  · rw [e3, drop_add_append _ _ _ _ (h8 _), drop_add_append _ _ _ _ hT,
      drop_add_append _ _ _ _ (h8 _), drop_add_append _ _ _ _ hX, List.drop_zero,
      List.take_left' (h8 _)]
    exact le_value_le_bytes_eight _ (by omega)
  · rw [e4, drop_add_append _ _ _ _ (h8 _), drop_add_append _ _ _ _ hT,
      drop_add_append _ _ _ _ (h8 _), drop_add_append _ _ _ _ hX,
      drop_add_append _ _ _ _ (h8 _), List.drop_zero]

theorem load_context_blob (H : llama_state) (t : LLMSession) (tokens : List Int)
    (text : List Char) (state : List Nat)
    (hsize : (context_blob tokens text state).length < 2 ^ 63)
    (htok : ∀ token, token ∈ tokens → -2 ^ 31 ≤ token ∧ token < 2 ^ 31) :
    LLMSession.load_context_from_memory H t (context_blob tokens text state)
      = if (H.set_data t.decoded state).1 = 0 then
          .returned false
            { t with
              context_tokens := tokens
              accumulated_text := text
              decoded := (H.set_data t.decoded state).2 }
        else
          .returned true
            { t with
              context_tokens := tokens
              accumulated_text := text
              decoded := (H.set_data t.decoded state).2 } := by
  rw [load_context_from_memory_eq H t _ hsize]
  obtain ⟨f1, f2, f3, f4, f5, f6⟩ := context_blob_header tokens text state hsize
  have hlen := context_blob_length tokens text state
  have hbt : bytes_tokens tokens.length (tokens_bytes tokens) = tokens := by
    have := bytes_tokens_tokens_bytes tokens [] htok
    rwa [List.append_nil] at this
  generalize context_blob tokens text state = blob at f1 f2 f3 f4 f5 f6 hlen hsize
  unfold load_context_from_memory_plain
  simp only []
  rw [f1, f2, f3, f4, f5, f6, hbt, bytes_text_text_bytes]
  rw [hlen] at hsize ⊢
  have c1 : ¬ (24 + 4 * tokens.length + text.length + state.length < 8) := by omega
  have c2 : ¬ (2 ^ 63 ≤ 4 * tokens.length) := by omega
  have c3 : ¬ (24 + 4 * tokens.length + text.length + state.length
      < 8 + 4 * tokens.length) := by omega
  have c4 : ¬ (24 + 4 * tokens.length + text.length + state.length
      < 16 + 4 * tokens.length) := by omega
  have c5 : ¬ (2 ^ 63 ≤ text.length) := by omega
  have c6 : ¬ (24 + 4 * tokens.length + text.length + state.length
      < 16 + 4 * tokens.length + text.length) := by omega
  have c7 : ¬ (24 + 4 * tokens.length + text.length + state.length
      < 24 + 4 * tokens.length + text.length) := by omega
  have c8 : ¬ (24 + 4 * tokens.length + text.length + state.length
      ≠ 24 + 4 * tokens.length + text.length + state.length) := fun h => h rfl
  rw [if_neg c1, if_neg c2, if_neg c3, if_neg c4, if_neg c5, if_neg c6, if_neg c7, if_neg c8]

/-- C28. Blob layout.  When the engine exports `S > 0` state bytes,
`save_context_to_memory` returns exactly the 8-byte token count, the token ids
as 4-byte integers in history order, the 8-byte text length, the text bytes,
the 8-byte state length and the state bytes, concatenated, `24 + 4 N + M + S`
bytes in all; when the engine exports no byte it returns the empty buffer.  The
integers are little-endian: byte `i` of `le_bytes w n` is `n / 256 ^ i % 256`. -/
theorem save_context_to_memory_layout (H : llama_state) (s : LLMSession) :
    (H.get_data s.decoded (H.get_size s.decoded) ≠ [] →
      LLMSession.save_context_to_memory H s
        = le_bytes 8 s.context_tokens.length ++
            (s.context_tokens.flatMap (fun token => le_bytes 4 (token % 2 ^ 32).toNat) ++
              (le_bytes 8 s.accumulated_text.length ++
                (s.accumulated_text.map (fun c => c.toNat) ++
                  (le_bytes 8 (H.get_data s.decoded (H.get_size s.decoded)).length ++
                    H.get_data s.decoded (H.get_size s.decoded))))) ∧
      LLMSession.save_context_to_memory H s
        = context_blob s.context_tokens s.accumulated_text
            (H.get_data s.decoded (H.get_size s.decoded)) ∧
      (LLMSession.save_context_to_memory H s).length
        = 24 + 4 * s.context_tokens.length + s.accumulated_text.length
            + (H.get_data s.decoded (H.get_size s.decoded)).length) ∧
    (H.get_data s.decoded (H.get_size s.decoded) = [] →
      LLMSession.save_context_to_memory H s = []) ∧
    ∀ w n i : Nat, i < w → (le_bytes w n)[i]? = some (n / 256 ^ i % 256) := by
  refine ⟨fun h => ?_, fun h => ?_, le_bytes_getElem?⟩
  · have heq := save_context_to_memory_eq H s h
    refine ⟨heq, heq, ?_⟩
    rw [heq, context_blob_length]
  · unfold LLMSession.save_context_to_memory
    simp [h]

theorem save_context_to_memory_layout_witness :
    (LLMSession.save_context_to_memory example_state example_session
        = [2, 0, 0, 0, 0, 0, 0, 0, 5, 0, 0, 0, 255, 255, 255, 255,
            2, 0, 0, 0, 0, 0, 0, 0, 104, 105,
            3, 0, 0, 0, 0, 0, 0, 0, 255, 5, 255] ∧
      (LLMSession.save_context_to_memory example_state example_session).length = 37) ∧
    LLMSession.save_context_to_memory example_state_empty example_session = [] :=
  ⟨⟨((save_context_to_memory_layout example_state example_session).1 (by decide)).1,
    ((save_context_to_memory_layout example_state example_session).1 (by decide)).2.2⟩,
   (save_context_to_memory_layout example_state_empty example_session).2.1 (by decide)⟩

/-- C23. Persistence round trip (text and tokens).  Let a session hold the
token history `T` (of `int32_t` tokens) and the text `X`, and let the engine
export a non-empty state which its import accepts.  Then
`load_context_from_memory(save_context_to_memory())`, applied to any session, a
freshly constructed one in particular, returns true and leaves that session
with `get_output() = X` and token history `T`; the engine is handed exactly the
exported state bytes.  (The blob is a `std::vector`, of fewer than `2 ^ 63`
bytes.) -/
theorem persistence_round_trip (H : llama_state) (s t : LLMSession)
    (hexp : H.get_data s.decoded (H.get_size s.decoded) ≠ [])
    (himp : (H.set_data t.decoded (H.get_data s.decoded (H.get_size s.decoded))).1 ≠ 0)
    (htok : ∀ token, token ∈ s.context_tokens → -2 ^ 31 ≤ token ∧ token < 2 ^ 31)
    (hsize : (LLMSession.save_context_to_memory H s).length < 2 ^ 63) :
    ∃ t1 : LLMSession,
      LLMSession.load_context_from_memory H t (LLMSession.save_context_to_memory H s)
        = .returned true t1 ∧
      t1.get_output = s.get_output ∧
      t1.context_tokens = s.context_tokens ∧
      t1.decoded
        = (H.set_data t.decoded (H.get_data s.decoded (H.get_size s.decoded))).2 := by
  rw [save_context_to_memory_eq H s hexp] at hsize ⊢
  rw [load_context_blob H t _ _ _ hsize htok, if_neg himp]
  exact ⟨_, rfl, rfl, rfl, rfl⟩

theorem persistence_round_trip_witness :
    ∃ t1 : LLMSession,
      LLMSession.load_context_from_memory example_state empty_session
          (LLMSession.save_context_to_memory example_state example_session)
        = .returned true t1 ∧
      t1.get_output = example_session.get_output ∧
      t1.context_tokens = example_session.context_tokens ∧
      t1.decoded
        = (example_state.set_data empty_session.decoded
            (example_state.get_data example_session.decoded
              (example_state.get_size example_session.decoded))).2 :=
  persistence_round_trip example_state example_session empty_session
    (by decide) (by decide) (by decide) (by decide)

/-! ## Persistence: what a load leaves behind -/

theorem load_context_from_memory_frame (H : llama_state) (s : LLMSession) (data : List Nat) :
    (LLMSession.load_context_from_memory H s data).session.map
        (fun s1 =>
          (s1.variable_map, s1.auto_cache_enabled, s1.cached_prompt_data, s1.has_cached))
      = some (s.variable_map, s.auto_cache_enabled, s.cached_prompt_data, s.has_cached) := by
  unfold LLMSession.load_context_from_memory
  simp only []
  repeat' split
  all_goals rfl

/-- C24 as stated fails: the session `example_session` has the named variable
`a`, and loading its saved blob into a freshly constructed session returns true
with an empty variable map. -/
theorem round_trip_drops_variables :
    LLMSession.load_context_from_memory example_state empty_session
        (LLMSession.save_context_to_memory example_state example_session)
      = .returned true
          { empty_session with
            accumulated_text := "hi".toList
            context_tokens := [5, -1]
            decoded := [5, 255] } ∧
    LLMSession.get_variables
        { empty_session with
          accumulated_text := "hi".toList
          context_tokens := [5, -1]
          decoded := [5, 255] } = [] ∧
    example_session.get_variables = [("a".toList, "b".toList)] := by
  decide

/-- C24, amended.  The blob holds no named variable: `save_context_to_memory`
returns the same bytes whatever the variable map is, and
`load_context_from_memory` leaves `get_variables()` of the session it is applied
to as it was, whether it returns or throws.  So a load into a freshly
constructed session leaves an empty map, equal to the original's only when the
original has no variable. -/
theorem persistence_variable_map (H : llama_state) (s t : LLMSession) (data : List Nat) :
    (∀ variable_map : List (List Char × List Char),
      LLMSession.save_context_to_memory H { s with variable_map := variable_map }
        = LLMSession.save_context_to_memory H s) ∧
    (∀ (v : Bool) (t1 : LLMSession),
      LLMSession.load_context_from_memory H t data = .returned v t1 →
      t1.get_variables = t.get_variables) ∧
    (∀ t1 : LLMSession,
      LLMSession.load_context_from_memory H t data = .thrown t1 →
      t1.get_variables = t.get_variables) := by
  have hframe := load_context_from_memory_frame H t data
  refine ⟨fun _ => rfl, fun v t1 h => ?_, fun t1 h => ?_⟩
  · rw [h] at hframe
    simp only [Outcome.session, Option.map_some', Option.some.injEq, Prod.mk.injEq] at hframe
    exact hframe.1
  · rw [h] at hframe
    simp only [Outcome.session, Option.map_some', Option.some.injEq, Prod.mk.injEq] at hframe
    exact hframe.1

theorem persistence_variable_map_witness :
    LLMSession.get_variables
        { empty_session with
          accumulated_text := "hi".toList
          context_tokens := [5, -1]
          decoded := [5, 255] }
      = empty_session.get_variables :=
  (persistence_variable_map example_state example_session empty_session
      (LLMSession.save_context_to_memory example_state example_session)).2.1
    true _ (by decide)

/-! ## Persistence: rejection of malformed buffers -/

theorem load_context_from_memory_plain_true (H : llama_state) (s : LLMSession)
    (data : List Nat) :
    match load_context_from_memory_plain H s data with
    | .returned true _ =>
      data.length
        = 24 + 4 * le_value (data.take 8)
          + le_value ((data.drop (8 + 4 * le_value (data.take 8))).take 8)
          + le_value
              ((data.drop
                  (16 + 4 * le_value (data.take 8)
                    + le_value ((data.drop (8 + 4 * le_value (data.take 8))).take 8))).take 8)
    | _ => True := by
  unfold load_context_from_memory_plain
  simp only []
  split_ifs with h1 h2 h3 h4 h5 h6 h7 h8 h9
  all_goals first
    | exact True.intro
    | exact not_not.mp h8

theorem load_context_from_memory_plain_false (H : llama_state) (s : LLMSession)
    (data : List Nat) (h8 : 8 ≤ data.length) :
    ((load_context_from_memory_plain H s data).session.map
        (fun s1 => s1.context_tokens.length) = some (le_value (data.take 8))) ∨
    load_context_from_memory_plain H s data = .thrown s := by
  unfold load_context_from_memory_plain
  simp only []
  rw [if_neg (by omega)]
  generalize le_value (data.take 8) = N
  by_cases h2 : 2 ^ 63 ≤ 4 * N
  · right
    rw [if_pos h2]
  · left
    rw [if_neg h2]
    generalize le_value ((data.drop (8 + 4 * N)).take 8) = M
    generalize le_value ((data.drop (16 + 4 * N + M)).take 8) = S
    split_ifs
    all_goals first
      | exact congrArg some (resize_length _ _ _)
      | exact congrArg some (bytes_tokens_length _ _)

theorem take_drop_take {α : Type} (l : List α) (a b k : Nat) (h : b + a ≤ k) :
    ((l.take k).drop b).take a = (l.drop b).take a := by
  apply List.ext_getElem?
  intro i
  simp only [List.getElem?_take, List.getElem?_drop]
  by_cases hi : i < a
  · simp only [hi, if_true]
    rw [if_pos (by omega)]
  · simp only [hi, if_false]

theorem take_drop_append {α : Type} (l extra : List α) (a b : Nat) (h : b + a ≤ l.length) :
    ((l ++ extra).drop b).take a = (l.drop b).take a := by
  apply List.ext_getElem?
  intro i
  simp only [List.getElem?_take, List.getElem?_drop]
  by_cases hi : i < a
  · simp only [hi, if_true]
    rw [List.getElem?_append_left (by omega)]
  · simp only [hi, if_false]

theorem load_rejects_of_header (H : llama_state) (t : LLMSession) (data blob : List Nat)
    (N M S : Nat) (hblen : blob.length < 2 ^ 63)
    (hb : blob.length = 24 + 4 * N + M + S)
    (f1 : le_value (blob.take 8) = N)
    (f3 : le_value ((blob.drop (8 + 4 * N)).take 8) = M)
    (f5 : le_value ((blob.drop (16 + 4 * N + M)).take 8) = S)
    (hagree : ∀ b : Nat, b + 8 ≤ data.length → b + 8 ≤ blob.length →
      (data.drop b).take 8 = (blob.drop b).take 8)
    (hne : data.length ≠ blob.length) :
    ∃ t1 : LLMSession, load_context_from_memory_plain H t data = .returned false t1 := by
  unfold load_context_from_memory_plain
  simp only []
  by_cases h8 : data.length < 8
  · rw [if_pos h8]
    exact ⟨_, rfl⟩
  · have g1 : le_value (data.take 8) = N := by
      have := hagree 0 (by omega) (by omega)
      rw [List.drop_zero, List.drop_zero] at this
      rw [this, f1]
    rw [if_neg h8, g1, if_neg (by omega)]
    by_cases hT : data.length < 8 + 4 * N
    · rw [if_pos hT]
      exact ⟨_, rfl⟩
    · rw [if_neg hT]
      by_cases hM : data.length < 16 + 4 * N
      · rw [if_pos hM]
        exact ⟨_, rfl⟩
      · have g3 : le_value ((data.drop (8 + 4 * N)).take 8) = M := by
          rw [hagree (8 + 4 * N) (by omega) (by omega), f3]
        rw [if_neg hM, g3, if_neg (by omega)]
        by_cases hX : data.length < 16 + 4 * N + M
        · rw [if_pos hX]
          exact ⟨_, rfl⟩
        · rw [if_neg hX]
          by_cases hS : data.length < 24 + 4 * N + M
          · rw [if_pos hS]
            exact ⟨_, rfl⟩
          · have g5 : le_value ((data.drop (16 + 4 * N + M)).take 8) = S := by
              rw [hagree (16 + 4 * N + M) (by omega) (by omega), f5]
            rw [if_neg hS, g5, if_pos (by omega)]
            exact ⟨_, rfl⟩

/-- C25. Blob malformation rejection.  On a buffer (a `std::vector`, of fewer
than `2 ^ 63` bytes) `load_context_from_memory` returns true only if the buffer
length is exactly `24 + 4 N + M + S` for the token count `N`, the text length
`M` and the state length `S` declared inside it.  Consequently every proper
prefix of a blob that `save_context_to_memory` produced from a non-empty engine
state, and every such blob with trailing bytes appended, is rejected with
false, and so is the empty buffer. -/
theorem load_rejects_malformed (H : llama_state) (t : LLMSession) :
    (∀ (data : List Nat) (t1 : LLMSession), data.length < 2 ^ 63 →
      LLMSession.load_context_from_memory H t data = .returned true t1 →
      data.length
        = 24 + 4 * le_value (data.take 8)
          + le_value ((data.drop (8 + 4 * le_value (data.take 8))).take 8)
          + le_value
              ((data.drop
                  (16 + 4 * le_value (data.take 8)
                    + le_value
                        ((data.drop (8 + 4 * le_value (data.take 8))).take 8))).take 8)) ∧
    (∀ s : LLMSession, H.get_data s.decoded (H.get_size s.decoded) ≠ [] →
      (LLMSession.save_context_to_memory H s).length < 2 ^ 63 →
      (∀ k : Nat, k < (LLMSession.save_context_to_memory H s).length →
        ∃ t1 : LLMSession,
          LLMSession.load_context_from_memory H t
              ((LLMSession.save_context_to_memory H s).take k)
            = .returned false t1) ∧
      (∀ extra : List Nat, extra ≠ [] →
        (LLMSession.save_context_to_memory H s ++ extra).length < 2 ^ 63 →
        ∃ t1 : LLMSession,
          LLMSession.load_context_from_memory H t
              (LLMSession.save_context_to_memory H s ++ extra)
            = .returned false t1)) ∧
    LLMSession.load_context_from_memory H t [] = .returned false t := by
  refine ⟨fun data t1 hlen h => ?_, fun s hexp hsize => ?_, rfl⟩
  · have hp := load_context_from_memory_plain_true H t data
    rw [← load_context_from_memory_eq H t data hlen, h] at hp
    exact hp
  · rw [save_context_to_memory_eq H s hexp] at hsize ⊢
    obtain ⟨f1, _, f3, _, f5, _⟩ :=
      context_blob_header s.context_tokens s.accumulated_text
        (H.get_data s.decoded (H.get_size s.decoded)) hsize
    have hb := context_blob_length s.context_tokens s.accumulated_text
      (H.get_data s.decoded (H.get_size s.decoded))
    generalize context_blob s.context_tokens s.accumulated_text
      (H.get_data s.decoded (H.get_size s.decoded)) = blob at f1 f3 f5 hb hsize
    constructor
    · intro k hk
      have hlen : (blob.take k).length < 2 ^ 63 := by
        rw [List.length_take]
        omega
      rw [load_context_from_memory_eq H t _ hlen]
      refine load_rejects_of_header H t _ blob _ _ _ hsize hb f1 f3 f5 ?_ ?_
      · intro b hb1 _
        rw [List.length_take] at hb1
        exact take_drop_take blob 8 b k (by omega)
      · rw [List.length_take]
        omega
    · intro extra hextra hlen
      rw [load_context_from_memory_eq H t _ hlen]
      refine load_rejects_of_header H t _ blob _ _ _ hsize hb f1 f3 f5 ?_ ?_
      · intro b _ hb2
        exact take_drop_append blob extra 8 b hb2
      · have : extra.length ≠ 0 := fun h0 => hextra (List.length_eq_zero.mp h0)
        rw [List.length_append]
        omega

theorem load_rejects_malformed_witness :
    (∃ t1 : LLMSession,
      LLMSession.load_context_from_memory example_state empty_session
          ((LLMSession.save_context_to_memory example_state example_session).take 36)
        = .returned false t1) ∧
    (∃ t1 : LLMSession,
      LLMSession.load_context_from_memory example_state empty_session
          (LLMSession.save_context_to_memory example_state example_session ++ [0])
        = .returned false t1) :=
  ⟨((load_rejects_malformed example_state empty_session).2.1 example_session
      (by decide) (by decide)).1 36 (by decide),
   ((load_rejects_malformed example_state empty_session).2.1 example_session
      (by decide) (by decide)).2 [0] (by decide) (by decide)⟩

/-- C26 as stated fails: on the buffer of eight zero bytes (token count 0, then
nothing) the load returns false, and the session, which held two tokens of
history, is left with none. -/
theorem load_failure_not_atomic :
    LLMSession.load_context_from_memory example_state example_session
        [0, 0, 0, 0, 0, 0, 0, 0]
      = .returned false { example_session with context_tokens := [] } ∧
    example_session.context_tokens = [5, -1] := by
  decide

/-- C26, amended.  On a buffer of fewer than 8 bytes, the empty buffer
included, `load_context_from_memory` returns false and leaves the session
exactly as it was.  When it returns false on a longer buffer (a `std::vector`,
of fewer than `2 ^ 63` bytes), the token history has already been resized to
the token count declared in the first 8 bytes. -/
theorem load_failure_frame (H : llama_state) (s : LLMSession) (data : List Nat)
    (hlen : data.length < 2 ^ 63) :
    (data.length < 8 → LLMSession.load_context_from_memory H s data = .returned false s) ∧
    (∀ s1 : LLMSession, 8 ≤ data.length →
      LLMSession.load_context_from_memory H s data = .returned false s1 →
      s1.context_tokens.length = le_value (data.take 8)) := by
  rw [load_context_from_memory_eq H s data hlen]
  constructor
  · intro h8
    unfold load_context_from_memory_plain
    simp only []
    rw [if_pos h8]
  · intro s1 h8 h
    have hp := load_context_from_memory_plain_false H s data h8
    rw [h] at hp
    rcases hp with hp | hp
    · simpa [Outcome.session] using hp
    · cases hp

theorem load_failure_frame_witness :
    LLMSession.load_context_from_memory example_state example_session [1, 0, 0]
      = .returned false example_session ∧
    ({ example_session with context_tokens := [] } : LLMSession).context_tokens.length
      = le_value (([0, 0, 0, 0, 0, 0, 0, 0] : List Nat).take 8) :=
  ⟨(load_failure_frame example_state example_session [1, 0, 0] (by decide)).1 (by decide),
   (load_failure_frame example_state example_session [0, 0, 0, 0, 0, 0, 0, 0]
      (by decide)).2 _ (by decide) (by decide)⟩

/-! ## Persistence: the file loader -/

/-- C27, the code at a failing input.  The file holds the blob saved from
`example_session` followed by one more byte.  `load_context_from_memory` rejects
these bytes, the declared state length not reaching the end of the buffer;
`load_context` reads the same three fields, never looks at what `fread`
returned nor at what is left in the file, and returns true. -/
theorem load_context_accepts_trailing_bytes :
    LLMSession.load_context example_state empty_session
        (some (LLMSession.save_context_to_memory example_state example_session ++ [0]))
      = .returned true
          { empty_session with
            accumulated_text := "hi".toList
            context_tokens := [5, -1]
            decoded := [5, 255] } ∧
    LLMSession.load_context_from_memory example_state empty_session
        (LLMSession.save_context_to_memory example_state example_session ++ [0])
      = .returned false
          { empty_session with
            accumulated_text := "hi".toList
            context_tokens := [5, -1] } := by
  decide

/-! ## Stop-sequence guard: nothing pending, and what is kept -/

theorem not_suffix_of_short (p acc : List Char) (h : acc.length < p.length) : ¬ p <:+ acc :=
  fun hs => absurd hs.length_le (by omega)

/-- C36. Stop guard is a no-op when nothing is pending.  If for no registered
stop string `s` and no `k` with `2 ≤ k < |s|` the accumulated text ends with the
first `k` characters of `s`, apply returns the candidate set as it was given:
same array, same size, same `sorted` flag.  This is so in particular when the
accumulated text is empty or a single character. -/
theorem stop_guard_noop (E : Engine) (ctx : llama_sampler_stop_sequence)
    (cur_p : llama_token_data_array) :
    ((∀ s, s ∈ ctx.stop_sequences → ∀ k, 2 ≤ k → k < s.length →
        ¬ s.take k <:+ ctx.accumulated) →
      stop_sequence_apply E ctx cur_p = cur_p) ∧
    (ctx.accumulated.length ≤ 1 → stop_sequence_apply E ctx cur_p = cur_p) := by
  have main : (∀ s, s ∈ ctx.stop_sequences → ∀ k, 2 ≤ k → k < s.length →
        ¬ s.take k <:+ ctx.accumulated) →
      stop_sequence_apply E ctx cur_p = cur_p := by
    intro h
    unfold stop_sequence_apply
    rw [seq_loop_none E ctx cur_p ctx.stop_sequences
      (fun s hs _ k hk hk2 hpend => absurd hpend (h s hs k hk hk2))]
    rfl
  refine ⟨main, fun hshort => main (fun s _ k hk hk2 => ?_)⟩
  apply not_suffix_of_short
  rw [List.length_take]
  omega

theorem stop_guard_noop_witness :
    stop_sequence_apply char_engine ⟨["<a>".toList], "x<".toList⟩
        ⟨[⟨97, 0, 0⟩, ⟨120, 0, 0⟩], 2, true⟩
      = ⟨[⟨97, 0, 0⟩, ⟨120, 0, 0⟩], 2, true⟩ ∧
    stop_sequence_apply char_engine ⟨["<a>".toList], "<".toList⟩
        ⟨[⟨97, 0, 0⟩, ⟨120, 0, 0⟩], 2, true⟩
      = ⟨[⟨97, 0, 0⟩, ⟨120, 0, 0⟩], 2, true⟩ :=
  ⟨(stop_guard_noop char_engine ⟨["<a>".toList], "x<".toList⟩
      ⟨[⟨97, 0, 0⟩, ⟨120, 0, 0⟩], 2, true⟩).1
      (fun s hs k hk hk2 => by
        simp only [List.mem_singleton] at hs
        subst hs
        have hk3 : k = 2 := by
          have : "<a>".toList.length = 3 := rfl
          omega
        subst hk3
        decide),
   (stop_guard_noop char_engine ⟨["<a>".toList], "<".toList⟩
      ⟨[⟨97, 0, 0⟩, ⟨120, 0, 0⟩], 2, true⟩).2 (by decide)⟩

theorem allowed_iff_first_token_of_start (E : Engine) (remaining : List Char) (t : Int) :
    t ∈ stop_sequence_allowed E remaining ↔
      ∃ p : List Char, p ≠ [] ∧ p <+: remaining ∧ (E.tokenize p false).head? = some t := by
  rw [mem_stop_sequence_allowed]
  constructor
  · rintro ⟨i, h1, h2, h3⟩
    refine ⟨remaining.take i, ?_, List.take_prefix i remaining, h3⟩
    intro hnil
    have hl : (remaining.take i).length = 0 := by rw [hnil]; rfl
    rw [List.length_take] at hl
    omega
  · rintro ⟨p, hne, hpre, hhead⟩
    refine ⟨p.length, ?_, hpre.length_le, ?_⟩
    · cases p with
      | nil => exact absurd rfl hne
      | cons c cs => simp
    · rw [List.prefix_iff_eq_take.mp hpre] at hhead
      exact hhead

theorem piece_of_first_token (E : Engine) (p : List Char) (t : Int)
    (hfaith : (∀ u, u ∈ E.tokenize p false → E.token_to_piece u ≠ []) ∧
      (E.tokenize p false).flatMap E.token_to_piece = p)
    (hhead : (E.tokenize p false).head? = some t) :
    E.token_to_piece t ≠ [] ∧ E.token_to_piece t <+: p := by
  cases htok : E.tokenize p false with
  | nil => rw [htok] at hhead; simp at hhead
  | cons u us =>
    rw [htok] at hhead hfaith
    simp only [List.head?_cons, Option.some.injEq] at hhead
    subst hhead
    refine ⟨hfaith.1 u (List.mem_cons_self u us), ?_⟩
    have h2 := hfaith.2
    rw [List.flatMap_cons] at h2
    exact ⟨_, h2⟩

/-- C35. Stop-guard kept tokens begin the remaining suffix.  Assume a faithful
tokenizer: the pieces of the tokens of `tokenize(x)` are non-empty and
concatenate to `x`.  Whenever the scan of the guard reaches its filtering
branch, it does so for a registered stop string `s` and a matched partial
length `k` (`2 ≤ k < |s|`, the accumulated text ending with the first `k`
characters of `s`), and the candidate set apply returns is such that: the kept
candidates are exactly the candidates whose id is the first token of
`tokenize(p)` for some non-empty prefix `p` of the remaining suffix `s[k..]`, in
their original order, and the piece of every kept candidate is a non-empty
prefix of `s[k..]`. -/
theorem stop_guard_kept_begin_suffix (E : Engine)
    (hfaith : ∀ x : List Char,
      (∀ t, t ∈ E.tokenize x false → E.token_to_piece t ≠ []) ∧
      (E.tokenize x false).flatMap E.token_to_piece = x)
    (ctx : llama_sampler_stop_sequence) (cur_p out : llama_token_data_array)
    (hfilter : stop_sequence_seq_loop E ctx cur_p ctx.stop_sequences = some out) :
    stop_sequence_apply E ctx cur_p = out ∧
    ∃ s k, s ∈ ctx.stop_sequences ∧ 2 ≤ k ∧ k < s.length ∧
      s.take k <:+ ctx.accumulated ∧
      candidates out
        = (candidates cur_p).filter
            (fun d => decide (d.id ∈ stop_sequence_allowed E (s.drop k))) ∧
      (∀ t, t ∈ stop_sequence_allowed E (s.drop k) ↔
        ∃ p : List Char, p ≠ [] ∧ p <+: s.drop k ∧
          (E.tokenize p false).head? = some t) ∧
      ∀ d, d ∈ candidates out →
        E.token_to_piece d.id ≠ [] ∧ E.token_to_piece d.id <+: s.drop k := by
  obtain ⟨s, k, hs, _, hk, hk2, hpend, _, hout⟩ :=
    seq_loop_some E ctx cur_p ctx.stop_sequences out hfilter
  have happ : stop_sequence_apply E ctx cur_p = out := by
    unfold stop_sequence_apply
    rw [hfilter]
    rfl
  have hcand : candidates out
      = (candidates cur_p).filter
          (fun d => decide (d.id ∈ stop_sequence_allowed E (s.drop k))) := by
    rw [hout, candidates_filter_in_place]
    apply List.filter_congr
    intro d _
    simp
  refine ⟨happ, s, k, hs, hk, hk2, hpend, hcand,
    allowed_iff_first_token_of_start E (s.drop k), fun d hd => ?_⟩
  rw [hcand, List.mem_filter] at hd
  have hmem : d.id ∈ stop_sequence_allowed E (s.drop k) := by simpa using hd.2
  obtain ⟨p, _, hpre, hhead⟩ := (allowed_iff_first_token_of_start E (s.drop k) d.id).mp hmem
  obtain ⟨hne, hpp⟩ := piece_of_first_token E p d.id (hfaith p) hhead
  exact ⟨hne, hpp.trans hpre⟩

theorem faithful_engine_faithful (x : List Char) :
    (∀ t, t ∈ faithful_engine.tokenize x false → faithful_engine.token_to_piece t ≠ []) ∧
    (faithful_engine.tokenize x false).flatMap faithful_engine.token_to_piece = x := by
  have hpiece : ∀ c : Char,
      faithful_engine.token_to_piece ((c.toNat : Int) + 1) = [c] := by
    intro c
    show (if (0 : Int) < (c.toNat : Int) + 1 then
        [Char.ofNat ((c.toNat : Int) + 1 - 1).toNat] else []) = [c]
    rw [if_pos (by omega)]
    simp
  constructor
  · intro t ht
    have ht2 : t ∈ x.map (fun c => (c.toNat : Int) + 1) := ht
    rw [List.mem_map] at ht2
    obtain ⟨c, _, rfl⟩ := ht2
    rw [hpiece]
    simp
  · show (x.map (fun c => (c.toNat : Int) + 1)).flatMap faithful_engine.token_to_piece = x
    induction x with
    | nil => rfl
    | cons c cs ih =>
      rw [List.map_cons, List.flatMap_cons, hpiece, ih]
      rfl

theorem stop_guard_kept_begin_suffix_witness :
    stop_sequence_apply faithful_engine ⟨["<ab>".toList], "x<a".toList⟩
        ⟨[⟨99, 0, 0⟩, ⟨121, 0, 0⟩], 2, true⟩
      = ⟨[⟨99, 0, 0⟩, ⟨121, 0, 0⟩], 1, false⟩ ∧
    ∃ s k, s ∈ ["<ab>".toList] ∧ 2 ≤ k ∧ k < s.length ∧
      s.take k <:+ "x<a".toList ∧
      candidates ⟨[⟨99, 0, 0⟩, ⟨121, 0, 0⟩], 1, false⟩
        = (candidates ⟨[⟨99, 0, 0⟩, ⟨121, 0, 0⟩], 2, true⟩).filter
            (fun d => decide (d.id ∈ stop_sequence_allowed faithful_engine (s.drop k))) ∧
      (∀ t, t ∈ stop_sequence_allowed faithful_engine (s.drop k) ↔
        ∃ p : List Char, p ≠ [] ∧ p <+: s.drop k ∧
          (faithful_engine.tokenize p false).head? = some t) ∧
      ∀ d, d ∈ candidates ⟨[⟨99, 0, 0⟩, ⟨121, 0, 0⟩], 1, false⟩ →
        faithful_engine.token_to_piece d.id ≠ [] ∧
          faithful_engine.token_to_piece d.id <+: s.drop k :=
  stop_guard_kept_begin_suffix faithful_engine faithful_engine_faithful
    ⟨["<ab>".toList], "x<a".toList⟩ ⟨[⟨99, 0, 0⟩, ⟨121, 0, 0⟩], 2, true⟩
    ⟨[⟨99, 0, 0⟩, ⟨121, 0, 0⟩], 1, false⟩ (by decide)

/-! ## Character-class patterns are closed under taking prefixes -/

theorem scan_chars_append (reject : Char → Bool) (s t : List Char)
    (h : scan_chars reject (s ++ t) = true) : scan_chars reject s = true := by
  rw [scan_chars_iff] at h ⊢
  exact fun c hc => h c (List.mem_append_left t hc)

/-- C39. Character-class patterns are prefix-closed.  For each of NUMERIC,
ALPHA, ALPHANUMERIC, UPPERCASE, LOWERCASE and CAPITALIZED and all strings `s`,
`t` with `s` non-empty: if `matches_pattern` accepts `s ++ t` it accepts `s`;
equivalently, once `s` is rejected no extension of it is accepted. -/
theorem char_class_prefix_closed (regex : List Char → Option (List Char → Bool))
    (rx s t : List Char) (pattern : PatternType)
    (hnone : pattern ≠ .PATTERN_NONE) (hregex : pattern ≠ .PATTERN_REGEX) (hs : s ≠ []) :
    (matches_pattern regex (s ++ t) pattern rx = true →
      matches_pattern regex s pattern rx = true) ∧
    (matches_pattern regex s pattern rx = false →
      matches_pattern regex (s ++ t) pattern rx = false) := by
  have main : matches_pattern regex (s ++ t) pattern rx = true →
      matches_pattern regex s pattern rx = true := by
    cases s with
    | nil => exact absurd rfl hs
    | cons c cs =>
      cases pattern with
      | PATTERN_NONE => exact absurd rfl hnone
      | PATTERN_REGEX => exact absurd rfl hregex
      | PATTERN_CAPITALIZED =>
        intro h
        rw [List.cons_append, capitalized_cons] at h
        rw [capitalized_cons]
        simp only [Bool.and_eq_true] at h ⊢
        exact ⟨h.1, scan_chars_append _ cs t h.2⟩
      | PATTERN_NUMERIC =>
        intro h
        simp only [matches_pattern, List.cons_append, List.isEmpty_cons, Bool.false_eq_true,
          if_false] at h ⊢
        exact scan_chars_append _ (c :: cs) t h
      | PATTERN_ALPHA =>
        intro h
        simp only [matches_pattern, List.cons_append, List.isEmpty_cons, Bool.false_eq_true,
          if_false] at h ⊢
        exact scan_chars_append _ (c :: cs) t h
      | PATTERN_ALPHANUMERIC =>
        intro h
        simp only [matches_pattern, List.cons_append, List.isEmpty_cons, Bool.false_eq_true,
          if_false] at h ⊢
        exact scan_chars_append _ (c :: cs) t h
      | PATTERN_UPPERCASE =>
        intro h
        simp only [matches_pattern, List.cons_append, List.isEmpty_cons, Bool.false_eq_true,
          if_false] at h ⊢
        exact scan_chars_append _ (c :: cs) t h
      | PATTERN_LOWERCASE =>
        intro h
        simp only [matches_pattern, List.cons_append, List.isEmpty_cons, Bool.false_eq_true,
          if_false] at h ⊢
        exact scan_chars_append _ (c :: cs) t h
  refine ⟨main, fun hrej => ?_⟩
  cases hm : matches_pattern regex (s ++ t) pattern rx with
  | false => rfl
  | true => rw [main hm] at hrej; exact absurd hrej (by decide)

theorem char_class_prefix_closed_witness :
    matches_pattern example_engine.regex "Jo".toList .PATTERN_CAPITALIZED [] = true ∧
    matches_pattern example_engine.regex ("4x".toList ++ "2".toList) .PATTERN_NUMERIC []
      = false :=
  ⟨(char_class_prefix_closed example_engine.regex [] "Jo".toList "hn".toList
      .PATTERN_CAPITALIZED (by decide) (by decide) (by decide)).1 (by decide),
   (char_class_prefix_closed example_engine.regex [] "4x".toList "2".toList
      .PATTERN_NUMERIC (by decide) (by decide) (by decide)).2 (by decide)⟩

/-! ## Prefix-select: the alive set after a sequence of accepted tokens -/

theorem accept_seq_facts (E : Engine) (options : List (List Char)) :
    ∀ ts : List Int,
      (ts.foldl prefix_select_accept (llama_sampler_init_prefix_select E options)).option_tokens
        = options.map (fun option => E.tokenize option false) ∧
      (ts.foldl prefix_select_accept (llama_sampler_init_prefix_select E options)).position
        = ts.length ∧
      ∀ i : Nat, i < options.length →
        ((ts.foldl prefix_select_accept
            (llama_sampler_init_prefix_select E options)).active_options[i]? = some true ↔
          ts <+: (options.map (fun option => E.tokenize option false)).getD i []) := by
  intro ts
  induction ts using List.reverseRecOn with
  | nil =>
    refine ⟨rfl, rfl, fun i hi => ?_⟩
    simp only [List.foldl_nil, llama_sampler_init_prefix_select, List.nil_prefix, iff_true]
    rw [List.getElem?_replicate]
    simp [hi]
  | append_singleton ts t ih =>
    obtain ⟨hot, hpos, halive⟩ := ih
    rw [List.foldl_append, List.foldl_cons, List.foldl_nil]
    refine ⟨?_, ?_, fun i hi => ?_⟩
    · exact hot
    · show _ + 1 = _
      rw [hpos, List.length_append, List.length_singleton]
    · have hi2 : i < (ts.foldl prefix_select_accept
          (llama_sampler_init_prefix_select E options)).option_tokens.length := by
        rw [hot, List.length_map]
        exact hi
      rw [prefix_select_accept_alive _ t i hi2, halive i hi, hot, hpos, prefix_snoc_iff]

/-- C37 as stated fails in its last clause.  With the single option "cat"
(the token `1`): after the token `1` is accepted the option is alive and
complete, the allowed set is empty, so apply keeps the candidate `2`; once `2`
is accepted no option is alive. -/
theorem prefix_select_kept_token_kills :
    candidates (prefix_select_apply (llama_sampler_init_prefix_select example_engine
        ["cat".toList]) ⟨[⟨1, 0, 0⟩], 1, false⟩) = [⟨1, 0, 0⟩] ∧
    candidates (prefix_select_apply
        (prefix_select_accept (llama_sampler_init_prefix_select example_engine
          ["cat".toList]) 1) ⟨[⟨2, 0, 0⟩], 1, false⟩) = [⟨2, 0, 0⟩] ∧
    (prefix_select_accept (llama_sampler_init_prefix_select example_engine
        ["cat".toList]) 1).active_options = [true] ∧
    (prefix_select_accept
        (prefix_select_accept (llama_sampler_init_prefix_select example_engine
          ["cat".toList]) 1) 2).active_options = [false] := by
  decide

/-- C37, amended.  Starting from the state that construction (or reset) leaves,
after accepting the tokens `t_0 .. t_{k-1}` the tokenized options are unchanged,
the position is `k`, and option `i` is alive iff `k ≤ length(option_i)` and the
first `k` tokens of `option_i` are `t_0 .. t_{k-1}`.  Hence if the token
accepted last was in the allowed set that apply builds in the state before it
(the next tokens of the alive options), at least one option is still alive;
when that set is empty, apply keeps every candidate, and whichever token is
accepted then leaves no option alive. -/
theorem prefix_select_alive_characterisation (E : Engine) (options : List (List Char))
    (ts : List Int) :
    (ts.foldl prefix_select_accept (llama_sampler_init_prefix_select E options)).option_tokens
      = options.map (fun option => E.tokenize option false) ∧
    (ts.foldl prefix_select_accept (llama_sampler_init_prefix_select E options)).position
      = ts.length ∧
    (∀ i : Nat, i < options.length →
      ((ts.foldl prefix_select_accept
          (llama_sampler_init_prefix_select E options)).active_options[i]? = some true ↔
        ts.length ≤ ((options.map (fun option => E.tokenize option false)).getD i []).length ∧
        ((options.map (fun option => E.tokenize option false)).getD i []).take ts.length
          = ts)) ∧
    (∀ t : Int,
      t ∈ prefix_select_allowed
          (ts.foldl prefix_select_accept (llama_sampler_init_prefix_select E options)) →
      ∃ i : Nat, i < options.length ∧
        ((ts ++ [t]).foldl prefix_select_accept
          (llama_sampler_init_prefix_select E options)).active_options[i]? = some true) ∧
    (prefix_select_allowed
          (ts.foldl prefix_select_accept (llama_sampler_init_prefix_select E options)) = [] →
      (∀ cur_p : llama_token_data_array,
        prefix_select_apply
            (ts.foldl prefix_select_accept (llama_sampler_init_prefix_select E options)) cur_p
          = cur_p) ∧
      ∀ (t : Int) (i : Nat), i < options.length →
        ((ts ++ [t]).foldl prefix_select_accept
          (llama_sampler_init_prefix_select E options)).active_options[i]? ≠ some true) := by
  obtain ⟨hot, hpos, halive⟩ := accept_seq_facts E options ts
  have hlen : (ts.foldl prefix_select_accept
      (llama_sampler_init_prefix_select E options)).option_tokens.length = options.length := by
    rw [hot, List.length_map]
  refine ⟨hot, hpos, fun i hi => ?_, fun t ht => ?_, fun hempty => ⟨fun cur_p => ?_, ?_⟩⟩
  · rw [halive i hi, List.prefix_iff_eq_take]
    constructor
    · intro h
      refine ⟨?_, h.symm⟩
      have := congrArg List.length h
      rw [List.length_take] at this
      omega
    · intro h
      exact h.2.symm
  · rw [mem_prefix_select_allowed] at ht
    obtain ⟨i, hi, hal, hnext⟩ := ht
    refine ⟨i, by rw [← hlen]; exact hi, ?_⟩
    rw [List.foldl_append, List.foldl_cons, List.foldl_nil,
      prefix_select_accept_alive _ t i hi]
    exact ⟨hal, hnext⟩
  · unfold prefix_select_apply
    simp [hempty]
  · intro t i hi hal
    rw [List.foldl_append, List.foldl_cons, List.foldl_nil,
      prefix_select_accept_alive _ t i (by rw [hlen]; exact hi)] at hal
    have hmem : t ∈ prefix_select_allowed
        (ts.foldl prefix_select_accept (llama_sampler_init_prefix_select E options)) :=
      (mem_prefix_select_allowed _ t).mpr ⟨i, by rw [hlen]; exact hi, hal.1, hal.2⟩
    rw [hempty] at hmem
    exact absurd hmem (List.not_mem_nil t)

theorem prefix_select_alive_characterisation_witness :
    ∃ i : Nat, i < ["cat".toList, "catalog".toList].length ∧
      (([1] ++ [2]).foldl prefix_select_accept
        (llama_sampler_init_prefix_select example_engine
          ["cat".toList, "catalog".toList])).active_options[i]? = some true :=
  (prefix_select_alive_characterisation example_engine ["cat".toList, "catalog".toList]
    [1]).2.2.2.1 2 (by decide)

/-! ## Select: shadowed options, and what is decoded -/

theorem select_match_ne_nil_of (f : List Char → List Int) (g : List Int) :
    ∀ options : List (List Char),
      (∃ o, o ∈ options ∧ f o = g) →
      (∀ o, o ∈ options → f o = g → o ≠ []) →
      select_match g (options.zip (options.map f)) ≠ [] := by
  intro options
  induction options with
  | nil => rintro ⟨o, ho, _⟩; exact absurd ho (List.not_mem_nil o)
  | cons a rest ih =>
    intro hex hne
    rw [select_match_cons]
    by_cases hg : g = f a
    · rw [if_pos hg]
      exact hne a (List.mem_cons_self a rest) hg.symm
    · rw [if_neg hg]
      apply ih
      · obtain ⟨o, ho, hfo⟩ := hex
        rcases List.mem_cons.mp ho with rfl | hmem
        · exact absurd hfo.symm hg
        · exact ⟨o, hmem, hfo⟩
      · exact fun o ho => hne o (List.mem_cons_of_mem a ho)

theorem prefix_snoc_between (g h : List Int) (t : Int)
    (h1 : g <+: h) (h2 : h <+: g ++ [t]) : h = g ∨ h = g ++ [t] := by
  have l1 := h1.length_le
  have l2 := h2.length_le
  rw [List.length_append, List.length_singleton] at l2
  by_cases hl : h.length = g.length
  · left
    exact (h1.eq_of_length hl.symm).symm
  · right
    exact h2.eq_of_length
      (by rw [List.length_append, List.length_singleton]; omega)

theorem select_loop_done_facts (E : Engine) (options : List (List Char)) :
    ∀ (n : Nat) (smpl : llama_sampler_chain) (decoded g g1 : List Int) (selected : List Char)
      (d : List Int),
      select_loop E options (options.map (fun o => E.tokenize o false)) n smpl decoded g
        = .done g1 selected d →
      g <+: g1 ∧
      (selected ≠ [] →
        g1 ≠ g ∧
        d = decoded ++ (g1.drop g.length).dropLast ∧
        selected
          = select_match g1 (options.zip (options.map (fun o => E.tokenize o false))) ∧
        ∀ h, g <+: h → h <+: g1 → h ≠ g → h ≠ g1 →
          select_match h (options.zip (options.map (fun o => E.tokenize o false))) = []) := by
  intro n
  induction n with
  | zero =>
    intro smpl decoded g g1 selected d h
    simp only [select_loop, select_exit.done.injEq] at h
    obtain ⟨hg, hsel, _⟩ := h
    subst hg
    exact ⟨List.prefix_refl g, fun hne => absurd hsel.symm hne⟩
  | succ n ih =>
    intro smpl decoded g g1 selected d h
    unfold select_loop at h
    cases hs : llama_sampler_sample E smpl decoded with
    | none => rw [hs] at h; simp at h
    | some ts =>
      obtain ⟨t, smpl1⟩ := ts
      rw [hs] at h
      simp only at h
      by_cases heog : E.is_eog t = true
      · rw [if_pos heog] at h
        simp only [select_exit.done.injEq] at h
        obtain ⟨hg, hsel, _⟩ := h
        subst hg
        exact ⟨List.prefix_refl g, fun hne => absurd hsel.symm hne⟩
      · rw [if_neg heog] at h
        cases hm : select_match (g ++ [t])
            (options.zip (options.map (fun o => E.tokenize o false))) with
        | cons c cs =>
          rw [hm] at h
          simp only [List.isEmpty_cons, Bool.not_false, if_true, select_exit.done.injEq] at h
          obtain ⟨hg, hsel, hd⟩ := h
          subst hg
          refine ⟨List.prefix_append g [t], fun _ => ⟨?_, ?_, ?_, ?_⟩⟩
          · intro hc
            have := congrArg List.length hc
            rw [List.length_append, List.length_singleton] at this
            omega
          · rw [List.drop_left]
            simp [hd]
          · rw [hm, hsel]
          · intro h0 h1 h2 h3 h4
            rcases prefix_snoc_between g h0 t h1 h2 with hh | hh
            · exact absurd hh h3
            · exact absurd hh h4
        | nil =>
          rw [hm] at h
          simp only [List.isEmpty_nil, Bool.not_true, Bool.false_eq_true, if_false] at h
          by_cases hdec : E.decode decoded [t] = true
          · rw [if_pos hdec] at h
            obtain ⟨hpre, hrest⟩ := ih smpl1 (decoded ++ [t]) (g ++ [t]) g1 selected d h
            have hgpre : g <+: g1 := (List.prefix_append g [t]).trans hpre
            have hlt : g.length < g1.length := by
              have := hpre.length_le
              rw [List.length_append, List.length_singleton] at this
              omega
            refine ⟨hgpre, fun hne => ?_⟩
            obtain ⟨hne1, hd, hsel, hbetween⟩ := hrest hne
            refine ⟨?_, ?_, hsel, ?_⟩
            · intro hc
              rw [hc] at hlt
              omega
            · rw [hd]
              obtain ⟨rest, hrest1⟩ := hpre
              have hrne : rest ≠ [] := by
                intro hr
                rw [hr, List.append_nil] at hrest1
                exact hne1 hrest1.symm
              have e1 : List.drop (g ++ [t]).length (g ++ [t] ++ rest) = rest :=
                List.drop_left _ _
              have e2 : List.drop g.length (g ++ [t] ++ rest) = t :: rest := by
                rw [List.append_assoc, List.drop_left]
                rfl
              rw [← hrest1, e1, e2, List.dropLast_cons_of_ne_nil hrne, List.append_assoc,
                List.singleton_append]
            · intro h0 h1 h2 h3 h4
              by_cases h5 : h0 = g ++ [t]
              · rw [h5]
                exact hm
              · apply hbetween h0 _ h2 h5 h4
                apply List.prefix_of_prefix_length_le hpre h2
                rw [List.length_append, List.length_singleton]
                have := h1.length_le
                by_contra hc
                have hl : h0.length = g.length := by omega
                exact h3 (h1.eq_of_length hl.symm).symm
          · rw [if_neg hdec] at h
            simp at h

/-- C38. Shadowed options are unselectable.  Let `A` be an option whose token
sequence is non-empty and a proper prefix of the token sequence of `B`, the
tokenizer yielding no token for the empty string.  Then, whatever the engine and
the sampler do, `LLMSession::select` never returns `B`. -/
theorem select_never_returns_shadowed (E : Engine) (s : LLMSession)
    (options : List (List Char)) (var_name A B : List Char)
    (htok : E.tokenize [] false = [])
    (hA : A ∈ options) (hAne : E.tokenize A false ≠ [])
    (hpre : E.tokenize A false <+: E.tokenize B false)
    (hproper : E.tokenize A false ≠ E.tokenize B false) :
    ∀ (v : List Char) (s1 : LLMSession),
      LLMSession.select E s options var_name = .returned v s1 → v ≠ B := by
  intro v s1 h hv
  have hBne : B ≠ [] := by
    intro hB
    rw [hB, htok] at hpre
    exact hAne (List.prefix_nil.mp hpre)
  unfold LLMSession.select at h
  simp only at h
  cases hl : select_loop E options (options.map (fun o => E.tokenize o false))
      ((options.map (fun o => E.tokenize o false)).foldl
        (fun max_length tokens => max max_length tokens.length) 0)
      ⟨[Sampler.prefix_select (llama_sampler_init_prefix_select E options)], 0, 0⟩
      s.decoded [] with
  | aborted => rw [hl] at h; simp at h
  | decode_failed d => rw [hl] at h; simp at h
  | done g1 selected d =>
    rw [hl] at h
    simp only [Outcome.returned.injEq] at h
    have hsel : selected = B := h.1.trans hv
    obtain ⟨_, hfacts⟩ := select_loop_done_facts E options _ _ _ _ _ _ _ hl
    obtain ⟨_, _, hmatch, hbetween⟩ := hfacts (by rw [hsel]; exact hBne)
    have hmem := select_match_mem (fun o => E.tokenize o false) g1 options
      (by rw [← hmatch, hsel]; exact hBne)
    rw [← hmatch, hsel] at hmem
    have hg1 : E.tokenize B false = g1 := hmem.2
    have hnil := hbetween (E.tokenize A false) List.nil_prefix (by rw [← hg1]; exact hpre)
      hAne (by rw [← hg1]; exact hproper)
    refine select_match_ne_nil_of (fun o => E.tokenize o false) (E.tokenize A false) options
      ⟨A, hA, rfl⟩ (fun o _ ho hnil2 => ?_) hnil
    have ho2 : E.tokenize o false = E.tokenize A false := ho
    rw [hnil2, htok] at ho2
    exact hAne ho2.symm

theorem select_never_returns_shadowed_witness :
    "cat".toList ≠ "catalog".toList :=
  select_never_returns_shadowed example_engine empty_session
    ["catalog".toList, "cat".toList] [] "cat".toList "catalog".toList
    (by decide) (by decide) (by decide) (by decide) (by decide)
    "cat".toList
    { empty_session with context_tokens := [1], accumulated_text := "cat".toList }
    (by decide)

/-- C31, the code at a failing input.  `select` on the single option "catalog"
(the tokens `1 2`) returns it: both tokens are in the session's token history,
but only the first was decoded into the engine; the loop leaves on the match
(constrained_llm.cpp:120-122) before the `llama_decode` of the token that
completed it (constrained_llm.cpp:125). -/
theorem select_leaves_last_token_undecoded :
    LLMSession.select example_engine empty_session ["catalog".toList] []
      = .returned "catalog".toList
          { empty_session with
            accumulated_text := "catalog".toList
            context_tokens := [1, 2]
            decoded := [1] } ∧
    LLMSession.select char_engine empty_session ["<>".toList] []
      = .returned "<>".toList
          { empty_session with
            accumulated_text := "<>".toList
            context_tokens := [60, 62]
            decoded := [60] } := by
  decide

theorem select_decoded_all_but_last (E : Engine) (s : LLMSession)
    (options : List (List Char)) (var_name v : List Char) (s1 : LLMSession)
    (h : LLMSession.select E s options var_name = .returned v s1) (hv : v ≠ []) :
    ∃ g : List Int, g ≠ [] ∧
      s1.context_tokens = s.context_tokens ++ g ∧
      s1.decoded = s.decoded ++ g.dropLast := by
  unfold LLMSession.select at h
  simp only at h
  cases hl : select_loop E options (options.map (fun o => E.tokenize o false))
      ((options.map (fun o => E.tokenize o false)).foldl
        (fun max_length tokens => max max_length tokens.length) 0)
      ⟨[Sampler.prefix_select (llama_sampler_init_prefix_select E options)], 0, 0⟩
      s.decoded [] with
  | aborted => rw [hl] at h; simp at h
  | decode_failed d => rw [hl] at h; simp at h
  | done g1 selected d =>
    rw [hl] at h
    simp only [Outcome.returned.injEq] at h
    obtain ⟨hsel, hs1⟩ := h
    obtain ⟨_, hfacts⟩ := select_loop_done_facts E options _ _ _ _ _ _ _ hl
    obtain ⟨hne, hd, _, _⟩ := hfacts (by rw [hsel]; exact hv)
    refine ⟨g1, hne, ?_, ?_⟩
    · rw [← hs1]
    · rw [← hs1]
      simpa using hd

/-! ## Driver: what is decoded when the loop ends -/

theorem generate_loop_decoded (E : Engine) (params : generate_params) :
    ∀ (n : Nat) (smpl : llama_sampler_chain) (decoded : List Int) (result r : generate_result)
      (d : List Int) (c : llama_sampler_chain),
      generate_loop E params n smpl decoded result = some (r, d, c) →
      result.stopped_by_sequence = false →
      ∃ emitted : List Int,
        r.tokens = result.tokens ++ emitted ∧
        (∀ t, t ∈ emitted → E.is_eog t = false) ∧
        ((r.stopped_by_sequence = true ∧ emitted ≠ [] ∧ d = decoded ++ emitted.dropLast) ∨
          (r.stopped_by_sequence = false ∧ d = decoded ++ emitted) ∨
          (r.stopped_by_sequence = false ∧
            ∃ t, emitted.getLast? = some t ∧ d = decoded ++ emitted.dropLast ∧
              E.decode d [t] = false)) := by
  intro n
  induction n with
  | zero =>
    intro smpl decoded result r d c h hns
    simp only [generate_loop, Option.some.injEq, Prod.mk.injEq] at h
    obtain ⟨hr, hd, _⟩ := h
    subst hr
    subst hd
    exact ⟨[], by simp, by simp, Or.inr (Or.inl ⟨hns, by simp⟩)⟩
  | succ n ih =>
    intro smpl decoded result r d c h hns
    unfold generate_loop at h
    cases hs : llama_sampler_sample E smpl decoded with
    | none => rw [hs] at h; simp at h
    | some ts =>
      obtain ⟨new_token, smpl1⟩ := ts
      rw [hs] at h
      simp only at h
      by_cases heog : E.is_eog new_token = true
      · rw [if_pos heog] at h
        simp only [Option.some.injEq, Prod.mk.injEq] at h
        obtain ⟨hr, hd, _⟩ := h
        subst hr
        subst hd
        exact ⟨[], by simp, by simp, Or.inr (Or.inl ⟨hns, by simp⟩)⟩
      · rw [if_neg heog] at h
        have heog2 : E.is_eog new_token = false := by simpa using heog
        by_cases hlen : (E.token_to_piece new_token).length > 0
        · rw [if_pos hlen] at h
          cases hfound :
              (if (!params.stop_sequences.isEmpty) = true then
                check_stop_sequence (result.text ++ E.token_to_piece new_token)
                  params.stop_sequences
              else none) with
          | some seq =>
            rw [hfound] at h
            simp only [Option.some.injEq, Prod.mk.injEq] at h
            obtain ⟨hr, hd, _⟩ := h
            subst hr
            subst hd
            refine ⟨[new_token], rfl, ?_, Or.inl ⟨rfl, by simp, by simp⟩⟩
            intro t ht
            rw [List.mem_singleton] at ht
            rw [ht]
            exact heog2
          | none =>
            rw [hfound] at h
            simp only at h
            by_cases hdec : E.decode decoded [new_token] = true
            · rw [if_pos hdec] at h
              obtain ⟨emitted, htok, hne, hcases⟩ := ih _ _ _ r d c h hns
              simp only at htok
              refine ⟨new_token :: emitted, ?_, ?_, ?_⟩
              · rw [htok, List.append_assoc, List.singleton_append]
              · intro t ht
                rcases List.mem_cons.mp ht with rfl | hmem
                · exact heog2
                · exact hne t hmem
              · rcases hcases with ⟨h1, h2, h3⟩ | ⟨h1, h2⟩ | ⟨h1, t, h2, h3, h4⟩
                · refine Or.inl ⟨h1, by simp, ?_⟩
                  rw [h3, List.dropLast_cons_of_ne_nil h2, List.append_assoc,
                    List.singleton_append]
                · refine Or.inr (Or.inl ⟨h1, ?_⟩)
                  rw [h2, List.append_assoc, List.singleton_append]
                · have hne2 : emitted ≠ [] := by
                    intro hc
                    rw [hc] at h2
                    simp at h2
                  refine Or.inr (Or.inr ⟨h1, t, ?_, ?_, h4⟩)
                  · obtain ⟨e, es, hes⟩ := List.exists_cons_of_ne_nil hne2
                    rw [hes, List.getLast?_cons_cons, ← hes]
                    exact h2
                  · rw [h3, List.dropLast_cons_of_ne_nil hne2, List.append_assoc,
                      List.singleton_append]
            · rw [if_neg hdec] at h
              simp only [Option.some.injEq, Prod.mk.injEq] at h
              obtain ⟨hr, hd, _⟩ := h
              subst hr
              subst hd
              refine ⟨[new_token], rfl, ?_, Or.inr (Or.inr ⟨hns, new_token, rfl, by simp, ?_⟩)⟩
              · intro t ht
                rw [List.mem_singleton] at ht
                rw [ht]
                exact heog2
              · simpa using hdec
        · rw [if_neg hlen] at h
          exact ih _ _ _ r d c h hns

/-- C32 as stated fails: with the stop sequence "x", the first token `x`
completes it; the driver returns with `stopped_by_sequence`, the token is in
`result.tokens`, and nothing has been decoded into the engine. -/
theorem stop_token_not_decoded :
    generate char_engine ⟨5, 0, ["x".toList], none⟩ []
      = some
          (⟨[], [120], true, "x".toList, 1⟩, [],
            ⟨[Sampler.stop_sequence ⟨["x".toList], "x".toList⟩], 0, 1⟩) := by
  decide

/-- C32, amended.  The driver checks for a stop sequence before it decodes, and
does not decode the token that completes one.  When `generate` returns with
`stopped_by_sequence`, `result.tokens` is not empty and the tokens decoded into
the engine are those of `result.tokens` but the last, in order.  When it returns
without `stopped_by_sequence`, every token of `result.tokens` has been decoded,
in order, unless the `llama_decode` of the last one failed.  No token of
`result.tokens` is an end-of-sequence token: such a token is neither appended
nor decoded. -/
theorem generate_decodes_after_stop_check (E : Engine) (params : generate_params)
    (decoded : List Int) (r : generate_result) (d : List Int) (c : llama_sampler_chain)
    (h : generate E params decoded = some (r, d, c)) :
    (∀ t, t ∈ r.tokens → E.is_eog t = false) ∧
    (r.stopped_by_sequence = true →
      r.tokens ≠ [] ∧ d = decoded ++ r.tokens.dropLast) ∧
    (r.stopped_by_sequence = false →
      d = decoded ++ r.tokens ∨
      ∃ t, r.tokens.getLast? = some t ∧ d = decoded ++ r.tokens.dropLast ∧
        E.decode d [t] = false) := by
  unfold generate at h
  obtain ⟨emitted, htok, hne, hcases⟩ := generate_loop_decoded E params _ _ _ _ r d c h rfl
  simp only [List.nil_append] at htok
  rw [htok]
  refine ⟨hne, fun hstop => ?_, fun hstop => ?_⟩
  · rcases hcases with ⟨_, h2, h3⟩ | ⟨h1, _⟩ | ⟨h1, _⟩
    · exact ⟨h2, h3⟩
    · rw [hstop] at h1; exact absurd h1 (by decide)
    · rw [hstop] at h1; exact absurd h1 (by decide)
  · rcases hcases with ⟨h1, _, _⟩ | ⟨_, h2⟩ | ⟨_, t, h2, h3, h4⟩
    · rw [hstop] at h1; exact absurd h1 (by decide)
    · exact Or.inl h2
    · exact Or.inr ⟨t, h2, h3, h4⟩

theorem generate_decodes_after_stop_check_witness :
    (([120] : List Int) ≠ [] ∧ ([] : List Int) = [] ++ ([120] : List Int).dropLast) ∧
    (([120] : List Int) = [] ++ [120] ∨
      ∃ t, ([120] : List Int).getLast? = some t ∧
        ([120] : List Int) = [] ++ ([120] : List Int).dropLast ∧
        char_engine.decode [120] [t] = false) :=
  ⟨(generate_decodes_after_stop_check char_engine ⟨5, 0, ["x".toList], none⟩ []
      ⟨[], [120], true, "x".toList, 1⟩ []
      ⟨[Sampler.stop_sequence ⟨["x".toList], "x".toList⟩], 0, 1⟩ (by decide)).2.1 rfl,
   (generate_decodes_after_stop_check char_engine ⟨5, 0, [], none⟩ []
      ⟨"x".toList, [120], false, [], 1⟩ [120] ⟨[], 0, 2⟩ (by decide)).2.2 rfl⟩

/-! ## Generation from `GenerateOptions`: the order of the token history -/

/-- C40, the code at a failing input.  With `min_tokens = 2` the first pass
emits the token `x` (120) and ends on end-of-sequence, the extension pass emits
the token `<` (60).  The engine has decoded `120, 60`, and the text is "x<", but
the token history is `60, 120`: the tokens of the extension pass are pushed
inside the extension branch (constrained_llm.cpp:238-240), those of the first
pass after it (constrained_llm.cpp:245-247). -/
theorem token_history_out_of_order :
    generate_options_passes char_engine ⟨2, 50, 0, [], [], .PATTERN_NONE, []⟩ []
      = .completed
          { params := ⟨1, 0, [], none⟩
            result := ⟨"x<".toList, [120], false, [], 2⟩
            additional := some ⟨"<".toList, [60], false, [], 1⟩
            decoded := [120, 60] } ∧
    LLMSession.generate_options char_engine empty_session
        ⟨2, 50, 0, [], [], .PATTERN_NONE, []⟩
      = .returned "x<".toList
          { empty_session with
            accumulated_text := "x<".toList
            context_tokens := [60, 120]
            decoded := [120, 60] } := by
  decide

/-! ## Session: append, clear and the auto-cache -/

theorem encode_and_eval_some (E : Engine) (s s1 : LLMSession) (text : List Char)
    (h : encode_and_eval E s text = some s1) :
    E.decode s.decoded (E.tokenize text s.context_tokens.isEmpty) = true ∧
    s1 = { s with
      decoded := s.decoded ++ E.tokenize text s.context_tokens.isEmpty
      context_tokens := s.context_tokens ++ E.tokenize text s.context_tokens.isEmpty } := by
  unfold encode_and_eval at h
  simp only at h
  by_cases hd : E.decode s.decoded (E.tokenize text s.context_tokens.isEmpty) = true
  · rw [if_pos hd] at h
    simp only [Option.some.injEq] at h
    exact ⟨hd, h.symm⟩
  · rw [if_neg hd] at h
    simp at h

theorem encode_and_eval_frame (E : Engine) (s s1 : LLMSession) (text : List Char)
    (h : encode_and_eval E s text = some s1) :
    s1.auto_cache_enabled = s.auto_cache_enabled ∧
    s1.cached_prompt_data = s.cached_prompt_data ∧
    s1.has_cached = s.has_cached := by
  rw [(encode_and_eval_some E s s1 text h).2]
  exact ⟨rfl, rfl, rfl⟩

theorem select_cache_frame (E : Engine) (s s1 : LLMSession) (options : List (List Char))
    (var_name : List Char) (h : (s.select E options var_name).session = some s1) :
    s1.auto_cache_enabled = s.auto_cache_enabled ∧
    s1.cached_prompt_data = s.cached_prompt_data ∧
    s1.has_cached = s.has_cached := by
  unfold LLMSession.select at h
  simp only at h
  split at h
  · simp [Outcome.session] at h
  · simp only [Outcome.session, Option.some.injEq] at h
    rw [← h]
    exact ⟨rfl, rfl, rfl⟩
  · simp only [Outcome.session, Option.some.injEq] at h
    rw [← h]
    exact ⟨rfl, rfl, rfl⟩

theorem generate_cache_frame (E : Engine) (s s1 : LLMSession) (max_tokens : Int)
    (stop_sequences : List (List Char)) (temperature : Int) (var_name : List Char)
    (h : (s.generate E max_tokens stop_sequences temperature var_name).session = some s1) :
    s1.auto_cache_enabled = s.auto_cache_enabled ∧
    s1.cached_prompt_data = s.cached_prompt_data ∧
    s1.has_cached = s.has_cached := by
  unfold LLMSession.generate at h
  simp only [] at h
  repeat' split at h
  all_goals first
    | (simp [Outcome.session] at h; done)
    | (simp only [Outcome.session, Option.some.injEq] at h
       rw [← h]
       exact ⟨rfl, rfl, rfl⟩)
    | (simp only [Outcome.session, Option.some.injEq] at h
       have hf := encode_and_eval_frame E _ _ _ (by assumption)
       rw [← h]
       exact hf)

theorem generate_options_cache_frame (E : Engine) (s s1 : LLMSession)
    (options : GenerateOptions)
    (h : (s.generate_options E options).session = some s1) :
    s1.auto_cache_enabled = s.auto_cache_enabled ∧
    s1.cached_prompt_data = s.cached_prompt_data ∧
    s1.has_cached = s.has_cached := by
  unfold LLMSession.generate_options at h
  simp only [] at h
  repeat' split at h
  all_goals first
    | (simp [Outcome.session] at h; done)
    | (simp only [Outcome.session, Option.some.injEq] at h
       rw [← h]
       exact ⟨rfl, rfl, rfl⟩)
    | (simp only [Outcome.session, Option.some.injEq] at h
       have hf := encode_and_eval_frame E _ _ _ (by assumption)
       rw [← h]
       exact hf)

theorem load_context_cache_frame (H : llama_state) (s : LLMSession)
    (file : Option (List Nat)) :
    (LLMSession.load_context H s file).session.map
        (fun s1 => (s1.auto_cache_enabled, s1.cached_prompt_data, s1.has_cached))
      = some (s.auto_cache_enabled, s.cached_prompt_data, s.has_cached) := by
  unfold LLMSession.load_context
  simp only []
  repeat' split
  all_goals rfl

theorem operator_plus_eq_cache (E : Engine) (H : llama_state) (s s1 : LLMSession)
    (text : List Char) (h : (s.operator_plus_eq E H text).session = some s1) :
    s1.auto_cache_enabled = s.auto_cache_enabled ∧
    (s.has_cached = true →
      s1.cached_prompt_data = s.cached_prompt_data ∧ s1.has_cached = true) ∧
    (s.auto_cache_enabled = false →
      s1.cached_prompt_data = s.cached_prompt_data ∧ s1.has_cached = s.has_cached) := by
  unfold LLMSession.operator_plus_eq at h
  cases he : encode_and_eval E s text with
  | none =>
    rw [he] at h
    simp only [Outcome.session, Option.some.injEq] at h
    rw [← h]
    exact ⟨rfl, fun hc => ⟨rfl, hc⟩, fun _ => ⟨rfl, rfl⟩⟩
  | some s2 =>
    rw [he] at h
    obtain ⟨f1, f2, f3⟩ := encode_and_eval_frame E s s2 text he
    simp only at h
    split at h
    · rename_i hcond
      simp only [Bool.and_eq_true, Bool.not_eq_true', f1, f3] at hcond
      simp only [Outcome.session, Option.some.injEq] at h
      rw [← h]
      refine ⟨f1, fun hc => ?_, fun hc => ?_⟩
      · rw [hc] at hcond
        exact absurd hcond.1.2 (by decide)
      · rw [hc] at hcond
        exact absurd hcond.1.1 (by decide)
    · simp only [Outcome.session, Option.some.injEq] at h
      rw [← h]
      exact ⟨f1, fun hc => ⟨f2, by rw [← hc]; exact f3⟩, fun _ => ⟨f2, f3⟩⟩

theorem step_cache (E : Engine) (H : llama_state) (s s1 : LLMSession) (op : session_op)
    (h : s.step E H op = some s1) :
    (s.has_cached = true →
      s1.cached_prompt_data = s.cached_prompt_data ∧ s1.has_cached = true) ∧
    (s.auto_cache_enabled = false → op ≠ .enable_auto_cache true →
      s1.auto_cache_enabled = false ∧
      s1.cached_prompt_data = s.cached_prompt_data ∧ s1.has_cached = s.has_cached) := by
  cases op with
  | operator_plus_eq text =>
    obtain ⟨f1, f2, f3⟩ := operator_plus_eq_cache E H s s1 text h
    exact ⟨f2, fun hc _ => ⟨by rw [f1]; exact hc, f3 hc⟩⟩
  | select options var_name =>
    obtain ⟨f1, f2, f3⟩ := select_cache_frame E s s1 options var_name h
    exact ⟨fun hc => ⟨f2, by rw [f3]; exact hc⟩, fun hc _ => ⟨by rw [f1]; exact hc, f2, f3⟩⟩
  | generate max_tokens stop_sequences temperature var_name =>
    obtain ⟨f1, f2, f3⟩ :=
      generate_cache_frame E s s1 max_tokens stop_sequences temperature var_name h
    exact ⟨fun hc => ⟨f2, by rw [f3]; exact hc⟩, fun hc _ => ⟨by rw [f1]; exact hc, f2, f3⟩⟩
  | generate_options options =>
    obtain ⟨f1, f2, f3⟩ := generate_options_cache_frame E s s1 options h
    exact ⟨fun hc => ⟨f2, by rw [f3]; exact hc⟩, fun hc _ => ⟨by rw [f1]; exact hc, f2, f3⟩⟩
  | clear =>
    simp only [LLMSession.step, Option.some.injEq] at h
    rw [← h]
    exact ⟨fun hc => ⟨rfl, hc⟩, fun hc _ => ⟨hc, rfl, rfl⟩⟩
  | load_context file =>
    have hf := load_context_cache_frame H s file
    have h2 : (LLMSession.load_context H s file).session = some s1 := h
    rw [h2] at hf
    simp only [Option.map_some', Option.some.injEq, Prod.mk.injEq] at hf
    obtain ⟨f1, f2, f3⟩ := hf
    exact ⟨fun hc => ⟨f2, by rw [f3]; exact hc⟩, fun hc _ => ⟨by rw [f1]; exact hc, f2, f3⟩⟩
  | load_context_from_memory data =>
    have hf := load_context_from_memory_frame H s data
    have h2 : (LLMSession.load_context_from_memory H s data).session = some s1 := h
    rw [h2] at hf
    simp only [Option.map_some', Option.some.injEq, Prod.mk.injEq] at hf
    obtain ⟨_, f1, f2, f3⟩ := hf
    exact ⟨fun hc => ⟨f2, by rw [f3]; exact hc⟩, fun hc _ => ⟨by rw [f1]; exact hc, f2, f3⟩⟩
  | enable_auto_cache enable =>
    simp only [LLMSession.step, Option.some.injEq] at h
    rw [← h]
    refine ⟨fun hc => ⟨rfl, hc⟩, fun _ hne => ⟨?_, rfl, rfl⟩⟩
    cases enable with
    | true => exact absurd rfl hne
    | false => rfl

theorem run_cached (E : Engine) (H : llama_state) :
    ∀ (ops : List session_op) (s s1 : LLMSession),
      s.has_cached = true → s.run E H ops = some s1 →
      s1.cached_prompt_data = s.cached_prompt_data ∧ s1.has_cached = true := by
  intro ops
  induction ops with
  | nil =>
    intro s s1 hc h
    simp only [LLMSession.run, Option.some.injEq] at h
    rw [← h]
    exact ⟨rfl, hc⟩
  | cons op ops ih =>
    intro s s1 hc h
    unfold LLMSession.run at h
    cases hstep : s.step E H op with
    | none => rw [hstep] at h; simp at h
    | some s2 =>
      rw [hstep] at h
      obtain ⟨g1, g2⟩ := (step_cache E H s s2 op hstep).1 hc
      obtain ⟨k1, k2⟩ := ih s2 s1 g2 h
      exact ⟨k1.trans g1, k2⟩

theorem run_not_enabled (E : Engine) (H : llama_state) :
    ∀ (ops : List session_op) (s s1 : LLMSession),
      s.auto_cache_enabled = false → s.has_cached = false →
      (∀ op, op ∈ ops → op ≠ .enable_auto_cache true) →
      s.run E H ops = some s1 → s1.has_cached = false := by
  intro ops
  induction ops with
  | nil =>
    intro s s1 _ hc _ h
    simp only [LLMSession.run, Option.some.injEq] at h
    rw [← h]
    exact hc
  | cons op ops ih =>
    intro s s1 he hc hops h
    unfold LLMSession.run at h
    cases hstep : s.step E H op with
    | none => rw [hstep] at h; simp at h
    | some s2 =>
      rw [hstep] at h
      obtain ⟨g1, _, g3⟩ :=
        (step_cache E H s s2 op hstep).2 he (hops op (List.mem_cons_self op ops))
      exact ih s2 s1 g1 (by rw [g3]; exact hc)
        (fun o ho => hops o (List.mem_cons_of_mem op ho)) h

/-- C34. Auto-cache is a one-shot snapshot.  With auto-cache enabled and
nothing cached yet, an append whose `llama_decode` succeeds returns, and if it
leaves a non-empty token history it has stored as cached blob what
`save_context_to_memory` returns right after that append and made
`has_cached_prompt()` true (an append that leaves the history empty caches
nothing; an append whose decode fails throws and leaves the session as it was).
Once `has_cached_prompt()` is true, no sequence of calls (appends, select,
generate, clear, loads, `enable_auto_cache`), returning or throwing, changes the
cached blob or resets `has_cached_prompt()`.  In a session where auto-cache is
never enabled, `has_cached_prompt()` stays false. -/
theorem auto_cache_one_shot (E : Engine) (H : llama_state) :
    (∀ (s : LLMSession) (text : List Char),
      s.auto_cache_enabled = true → s.has_cached_prompt = false →
      E.decode s.decoded (E.tokenize text s.context_tokens.isEmpty) = true →
      ∃ s1 : LLMSession,
        s.operator_plus_eq E H text = .returned () s1 ∧
        s1.context_tokens = s.context_tokens ++ E.tokenize text s.context_tokens.isEmpty ∧
        s1.get_output = s.get_output ++ text ∧
        (s1.context_tokens ≠ [] →
          s1.get_cached_prompt = s1.save_context_to_memory H ∧ s1.has_cached_prompt = true) ∧
        (s1.context_tokens = [] →
          s1.get_cached_prompt = s.get_cached_prompt ∧ s1.has_cached_prompt = false)) ∧
    (∀ (s : LLMSession) (text : List Char),
      E.decode s.decoded (E.tokenize text s.context_tokens.isEmpty) = false →
      s.operator_plus_eq E H text = .thrown s) ∧
    (∀ (s s1 : LLMSession) (text : List Char),
      s.auto_cache_enabled = true → s.has_cached_prompt = false →
      s.operator_plus_eq E H text = .returned () s1 →
      (s1.context_tokens ≠ [] →
        s1.get_cached_prompt = s1.save_context_to_memory H ∧ s1.has_cached_prompt = true) ∧
      (s1.context_tokens = [] →
        s1.get_cached_prompt = s.get_cached_prompt ∧ s1.has_cached_prompt = false)) ∧
    (∀ (s s1 : LLMSession) (ops : List session_op),
      s.has_cached_prompt = true → s.run E H ops = some s1 →
      s1.get_cached_prompt = s.get_cached_prompt ∧ s1.has_cached_prompt = true) ∧
    (∀ (s s1 : LLMSession) (ops : List session_op),
      s.auto_cache_enabled = false → s.has_cached_prompt = false →
      (∀ op, op ∈ ops → op ≠ .enable_auto_cache true) →
      s.run E H ops = some s1 → s1.has_cached_prompt = false) := by
  have key : ∀ (s s1 : LLMSession) (text : List Char),
      s.auto_cache_enabled = true → s.has_cached_prompt = false →
      s.operator_plus_eq E H text = .returned () s1 →
      (s1.context_tokens ≠ [] →
        s1.get_cached_prompt = s1.save_context_to_memory H ∧ s1.has_cached_prompt = true) ∧
      (s1.context_tokens = [] →
        s1.get_cached_prompt = s.get_cached_prompt ∧ s1.has_cached_prompt = false) := by
    intro s s1 text hen hnc h
    have hnc2 : s.has_cached = false := hnc
    unfold LLMSession.operator_plus_eq at h
    cases he : encode_and_eval E s text with
    | none => rw [he] at h; simp at h
    | some s2 =>
      rw [he] at h
      obtain ⟨f1, f2, f3⟩ := encode_and_eval_frame E s s2 text he
      simp only [f1, f3, hen, hnc2, Bool.not_false, Bool.true_and] at h
      by_cases hempty : s2.context_tokens.isEmpty = true
      · simp only [hempty, Bool.not_true, Bool.false_eq_true, if_false,
          Outcome.returned.injEq, true_and] at h
        rw [← h]
        refine ⟨fun hne => ?_, fun _ => ⟨f2, by rw [← hnc2]; rfl⟩⟩
        exact absurd (List.isEmpty_iff.mp hempty) hne
      · have hempty2 : s2.context_tokens.isEmpty = false := by simpa using hempty
        simp only [hempty2, Bool.not_false, if_true, Outcome.returned.injEq, true_and] at h
        rw [← h]
        refine ⟨fun _ => ⟨rfl, rfl⟩, fun hnil => ?_⟩
        have : s2.context_tokens = [] := hnil
        rw [this] at hempty2
        exact absurd hempty2 (by decide)
  have ret : ∀ (s : LLMSession) (text : List Char),
      E.decode s.decoded (E.tokenize text s.context_tokens.isEmpty) = true →
      ∃ s1 : LLMSession,
        s.operator_plus_eq E H text = .returned () s1 ∧
        s1.context_tokens = s.context_tokens ++ E.tokenize text s.context_tokens.isEmpty ∧
        s1.get_output = s.get_output ++ text := by
    intro s text hd
    unfold LLMSession.operator_plus_eq encode_and_eval
    simp only [hd, if_true]
    split
    · exact ⟨_, rfl, rfl, rfl⟩
    · exact ⟨_, rfl, rfl, rfl⟩
  refine ⟨fun s text hen hnc hd => ?_, fun s text hd => ?_, key,
    fun s s1 ops hc h => run_cached E H ops s s1 hc h,
    fun s s1 ops he hc hops h => run_not_enabled E H ops s s1 he hc hops h⟩
  · obtain ⟨s1, h1, h2, h3⟩ := ret s text hd
    obtain ⟨k1, k2⟩ := key s s1 text hen hnc h1
    exact ⟨s1, h1, h2, h3, k1, k2⟩
  · unfold LLMSession.operator_plus_eq encode_and_eval
    simp only [hd, Bool.false_eq_true, if_false]

theorem auto_cache_one_shot_witness :
    (∃ s1 : LLMSession,
      LLMSession.operator_plus_eq bos_engine example_state
          (empty_session.enable_auto_cache true) "a".toList
        = .returned () s1 ∧
      s1.context_tokens
        = (empty_session.enable_auto_cache true).context_tokens ++
            bos_engine.tokenize "a".toList
              (empty_session.enable_auto_cache true).context_tokens.isEmpty ∧
      s1.get_output = (empty_session.enable_auto_cache true).get_output ++ "a".toList ∧
      (s1.context_tokens ≠ [] →
        s1.get_cached_prompt = s1.save_context_to_memory example_state ∧
        s1.has_cached_prompt = true) ∧
      (s1.context_tokens = [] →
        s1.get_cached_prompt = (empty_session.enable_auto_cache true).get_cached_prompt ∧
        s1.has_cached_prompt = false)) ∧
    (LLMSession.operator_plus_eq bos_engine example_state
          (empty_session.enable_auto_cache true) "a".toList
        = .returned () cached_session ∧
      cached_session.get_cached_prompt = cached_session.save_context_to_memory example_state ∧
      cached_session.has_cached_prompt = true) ∧
    (LLMSession.run bos_engine example_state cached_session
          [.operator_plus_eq "b".toList, .generate 1 [] 0 [], .clear,
            .operator_plus_eq "c".toList, .load_context_from_memory [],
            .enable_auto_cache false, .operator_plus_eq "d".toList,
            .enable_auto_cache true, .operator_plus_eq "e".toList]
        = some
            { cached_session with
              accumulated_text := "cde".toList
              context_tokens := [1, 99, 100, 101]
              decoded := [1, 97, 98, 60, 1, 99, 100, 101] } ∧
      LLMSession.get_cached_prompt
          { cached_session with
            accumulated_text := "cde".toList
            context_tokens := [1, 99, 100, 101]
            decoded := [1, 97, 98, 60, 1, 99, 100, 101] }
        = cached_session.get_cached_prompt ∧
      LLMSession.has_cached_prompt
          { cached_session with
            accumulated_text := "cde".toList
            context_tokens := [1, 99, 100, 101]
            decoded := [1, 97, 98, 60, 1, 99, 100, 101] } = true) ∧
    (LLMSession.run bos_engine example_state empty_session
          [.operator_plus_eq "a".toList, .clear, .operator_plus_eq "b".toList]
        = some
            { empty_session with
              accumulated_text := "b".toList
              context_tokens := [1, 98]
              decoded := [1, 97, 1, 98] } ∧
      LLMSession.has_cached_prompt
          { empty_session with
            accumulated_text := "b".toList
            context_tokens := [1, 98]
            decoded := [1, 97, 1, 98] } = false) :=
  ⟨(auto_cache_one_shot bos_engine example_state).1
      (empty_session.enable_auto_cache true) "a".toList rfl rfl (by decide),
   ⟨by decide,
    ((auto_cache_one_shot bos_engine example_state).2.2.1
      (empty_session.enable_auto_cache true) cached_session "a".toList rfl rfl
      (by decide)).1 (by decide)⟩,
   ⟨by decide,
    (auto_cache_one_shot bos_engine example_state).2.2.2.1 cached_session _
      [.operator_plus_eq "b".toList, .generate 1 [] 0 [], .clear,
        .operator_plus_eq "c".toList, .load_context_from_memory [],
        .enable_auto_cache false, .operator_plus_eq "d".toList,
        .enable_auto_cache true, .operator_plus_eq "e".toList] rfl (by decide)⟩,
   ⟨by decide,
    (auto_cache_one_shot bos_engine example_state).2.2.2.2 empty_session _
      [.operator_plus_eq "a".toList, .clear, .operator_plus_eq "b".toList] rfl rfl
      (by decide) (by decide)⟩⟩

/-- C33 as stated fails: on a fresh session, append "a", `clear()`, append "b".
Both appends are tokenized with the document-start flag set (the marker is the
token `1`), the second one being the first append after `clear()`. -/
theorem append_after_clear_marks_document_start :
    LLMSession.run bos_engine example_state empty_session [.operator_plus_eq "a".toList]
      = some
          { empty_session with
            accumulated_text := "a".toList
            context_tokens := [1, 97]
            decoded := [1, 97] } ∧
    LLMSession.run bos_engine example_state empty_session
        [.operator_plus_eq "a".toList, .clear, .operator_plus_eq "b".toList]
      = some
          { empty_session with
            accumulated_text := "b".toList
            context_tokens := [1, 98]
            decoded := [1, 97, 1, 98] } := by
  decide

/-- C33, amended.  An append (`operator+=`) tokenizes its text with the
document-start flag set iff the session's token history is empty when it is
called: on a fresh session, and also after `clear()`, which empties the
history.  If the `llama_decode` of the tokens succeeds, the append returns,
having added its text verbatim to the display text and its tokens to the token
history and to the engine; otherwise it throws and leaves the session as it
was. -/
theorem append_document_start (E : Engine) (H : llama_state) (s : LLMSession)
    (text : List Char) :
    (E.decode s.decoded (E.tokenize text s.context_tokens.isEmpty) = true →
      ∃ s1 : LLMSession,
        s.operator_plus_eq E H text = .returned () s1 ∧
        s1.context_tokens = s.context_tokens ++ E.tokenize text s.context_tokens.isEmpty ∧
        s1.decoded = s.decoded ++ E.tokenize text s.context_tokens.isEmpty ∧
        s1.get_output = s.get_output ++ text) ∧
    (E.decode s.decoded (E.tokenize text s.context_tokens.isEmpty) = false →
      s.operator_plus_eq E H text = .thrown s) ∧
    empty_session.context_tokens.isEmpty = true ∧
    s.clear.context_tokens.isEmpty = true := by
  refine ⟨fun hd => ?_, fun hd => ?_, rfl, rfl⟩
  · unfold LLMSession.operator_plus_eq encode_and_eval
    simp only [hd, if_true]
    split
    · exact ⟨_, rfl, rfl, rfl, rfl⟩
    · exact ⟨_, rfl, rfl, rfl, rfl⟩
  · unfold LLMSession.operator_plus_eq encode_and_eval
    simp only [hd, Bool.false_eq_true, if_false]

theorem append_document_start_witness :
    (∃ s1 : LLMSession,
      LLMSession.operator_plus_eq bos_engine example_state example_session "b".toList
        = .returned () s1 ∧
      s1.context_tokens
        = example_session.context_tokens ++
            bos_engine.tokenize "b".toList example_session.context_tokens.isEmpty ∧
      s1.decoded
        = example_session.decoded ++
            bos_engine.tokenize "b".toList example_session.context_tokens.isEmpty ∧
      s1.get_output = example_session.get_output ++ "b".toList) ∧
    LLMSession.operator_plus_eq example_engine_full example_state empty_session "cat".toList
      = .thrown empty_session :=
  ⟨(append_document_start bos_engine example_state example_session "b".toList).1 (by decide),
   (append_document_start example_engine_full example_state empty_session "cat".toList).2.1
      (by decide)⟩

end LlamaConstrain
